import Mathlib

/-!
# CodeCollage: verification of the spec against the source

Shallow embedding of the CodeCollage pipeline (tokenizer, MinHash/LSH index,
clusterer, pattern extractor, JSONL storage) and proofs settling the claims
about it.  JavaScript strings are modelled as `List Char` (with `String`
wrappers where convenient), JS numbers that hold hash values as `Nat`
(hash computations stay below 2^31 so no overflow modelling is needed),
JS floating point similarity scores as `ℚ` (the source only ever forms
`matches / length` and compares against thresholds, which is exact), and
`Infinity` (used as the MinHash fold seed) as `⊤ : ℕ∞`.  Global
`Math.random`-seeded hash families are passed explicitly as parameters.
-/

namespace CodeCollage

/-- Characters written via code points to keep the embedding free of
delicate literals: double quote. -/
def dquote : Char := Char.ofNat 34

/-- Single quote character. -/
def squote : Char := Char.ofNat 39

/-- Backslash character. -/
def bslash : Char := Char.ofNat 92

/-- Newline character. -/
def nl : Char := Char.ofNat 10

/-- JS `String.prototype.split(sep)` for a one-character separator, at the
character-list level (`"".split(sep)` is `[""]`, a trailing separator
yields a trailing empty piece, exactly as in JS). -/
def splitOnChar (sep : Char) : List Char → List (List Char)
  | [] => [[]]
  | c :: rest =>
    let ps := splitOnChar sep rest
    if c = sep then [] :: ps
    else
      match ps with
      | p :: ps' => (c :: p) :: ps'
      | [] => [[c]]

/-- `Config` from `src/core/types.ts` (the variant used by `MinHashLSH`,
`Clusterer` and `PatternExtractor`).  Thresholds are JS numbers used only in
comparisons; modelled exactly as rationals. -/
structure Config where
  minHashBands : Nat
  minHashRows : Nat
  ngramSize : Nat
  similarityThreshold : ℚ
  clusterThreshold : ℚ
deriving Repr, DecidableEq

/-- `DEFAULT_CONFIG` from `src/core/config.ts`. -/
def DEFAULT_CONFIG : Config :=
  { minHashBands := 20, minHashRows := 5, ngramSize := 3
    similarityThreshold := 8/10, clusterThreshold := 7/10 }

/-- `ClusteringConfig` from `src/core/types.ts` (used by `MinHashClusterer`). -/
structure ClusteringConfig where
  minhashBands : Nat
  minhashRows : Nat
  similarityThreshold : ℚ
  minClusterSize : Nat
deriving Repr, DecidableEq

/-- The `CodeSnippet` record of `src/core/types.ts` (the variant with
`minHashes`, used by the `CodeCollage` class, `MinHashLSH` and `Clusterer`).
`id` and `timestamp` are produced by `Date.now`/`Math.random` in the source
and are ordinary data here. -/
structure Snip where
  id : String
  content : String
  language : String
  filename : String
  hash : String
  minHashes : List Nat
  tokens : List String
  patterns : List String
  timestamp : Nat
deriving Repr, DecidableEq

/-- The `Pattern` record of `src/core/types.ts` (variant with `id`,
`languages`).  The random `id` field is dropped: `generatePatternId` draws on
`Date.now()`/`Math.random()` and no claim mentions it. -/
structure Pattern where
  type : String
  content : String
  frequency : Nat
  snippets : List String
  languages : List String
deriving Repr, DecidableEq

/-! ## Tokenizer (`src/core/tokenizer.ts`)

`normalize` is a chain of JS `String.replace` calls with global regexes.
Each regex is embedded as a character-level scanner with the exact
semantics of the corresponding `replace` (leftmost match, continue after
the match, unmatched text kept verbatim). -/

theorem dropWhile_length_le (p : Char → Bool) (l : List Char) :
    (l.dropWhile p).length ≤ l.length := by
  induction l with
  | nil => simp
  | cons c rest ih =>
    rw [List.dropWhile]
    split
    · exact le_trans ih (by simp)
    · simp

namespace Tokenizer

/-- Scanner for `str.replace(/MARKER.*$/gm, '')` where `MARKER` is a
newline-free pattern (`//`, `#` or `--`): at each occurrence of the marker
drop up to (excluding) the next newline, then continue scanning there. -/
def removeLineComments (marker : List Char) : List Char → List Char
  | [] => []
  | c :: rest =>
    if marker.isPrefixOf (c :: rest) then
      removeLineComments marker (rest.dropWhile (· ≠ nl))
    else
      c :: removeLineComments marker rest
  termination_by cs => cs.length
  decreasing_by
    · simp only [List.length_cons]
      exact Nat.lt_succ_of_le (dropWhile_length_le _ rest)
    · simp

/-- Close-delimiter search for a lazy block-comment regex: returns the
suffix just after the first occurrence of `close`, or `none`. -/
def dropThrough (close : List Char) : List Char → Option (List Char)
  | [] => none
  | c :: rest =>
    if close.isPrefixOf (c :: rest) then some ((c :: rest).drop close.length)
    else dropThrough close rest

theorem dropThrough_length_le {close cs suf : List Char}
    (h : dropThrough close cs = some suf) : suf.length ≤ cs.length := by
  induction cs with
  | nil => simp [dropThrough] at h
  | cons c rest ih =>
    rw [dropThrough] at h
    split at h
    · cases h
      simp [List.length_drop]
    · exact le_trans (ih h) (by simp)

/-- Scanner for `str.replace(/OPEN[\s\S]*?CLOSE/g, '')` (multi-line comment
removal, `/*...*/` or `<!-- ... -->`): a match runs from an occurrence of
`opn` to the first occurrence of `close` after it; on a match the span is
dropped and scanning continues after it; an unclosed opener means no match
can start at or after it, so the rest is kept verbatim. -/
def removeBlockComments (opn close : List Char) (hop : opn ≠ []) : List Char → List Char
  | [] => []
  | c :: rest =>
    if opn.isPrefixOf (c :: rest) then
      match h : dropThrough close ((c :: rest).drop opn.length) with
      | some suffix => removeBlockComments opn close hop suffix
      | none => c :: rest
    else
      c :: removeBlockComments opn close hop rest
  termination_by cs => cs.length
  decreasing_by
    · rename_i hpre
      have h1 : suffix.length ≤ ((c :: rest).drop opn.length).length :=
        dropThrough_length_le h
      have h2 : ((c :: rest).drop opn.length).length < (c :: rest).length := by
        have : 0 < opn.length := List.length_pos.mpr hop
        simp only [List.length_drop, List.length_cons]
        omega
      omega
    · simp

/-- JS `\s` on the characters the pipeline can see; `Char.isWhitespace`
covers space, tab, CR, LF (the cases that matter for source text). -/
def isWS (c : Char) : Bool := c.isWhitespace

/-- Scanner for `str.replace(/\s+/g, ' ')`: each maximal whitespace run
becomes one space. -/
def squashWS : List Char → List Char
  | [] => []
  | c :: rest =>
    if isWS c then ' ' :: squashWS (rest.dropWhile isWS)
    else c :: squashWS rest
  termination_by cs => cs.length
  decreasing_by
    · simp only [List.length_cons]
      exact Nat.lt_succ_of_le (dropWhile_length_le _ rest)
    · simp

/-- JS `String.prototype.trim`. -/
def trimWS (cs : List Char) : List Char :=
  ((cs.dropWhile isWS).reverse.dropWhile isWS).reverse

/-- Step 4 of `normalize`: `replace(/\s+/g, ' ').trim()`. -/
def collapseWS (cs : List Char) : List Char := trimWS (squashWS cs)

/-- Deterministic matcher for the tail of `q(?:[^q\\]|\\.)*q` starting just
after an opening quote `q`: a backslash always consumes the next character
(`\\.`, which cannot be a newline since `.` excludes it), any character
other than `q` and backslash consumes itself, and `q` closes the literal.
Returns the suffix after the closing quote, `none` when no close is
reachable (end of input, or backslash before newline/end). -/
def findClose (q : Char) : List Char → Option (List Char)
  | [] => none
  | c :: rest =>
    if c = q then some rest
    else if c = bslash then
      match rest with
      | [] => none
      | d :: rest2 => if d = nl then none else findClose q rest2
    else findClose q rest

theorem findClose_nil (q : Char) : findClose q [] = none := rfl

theorem findClose_cons (q c : Char) (rest : List Char) :
    findClose q (c :: rest) =
      if c = q then some rest
      else if c = bslash then
        (match rest with
         | [] => none
         | d :: rest2 => if d = nl then none else findClose q rest2)
      else findClose q rest := by
  rw [findClose.eq_def]

theorem findClose_length_le {q : Char} : ∀ {cs suf : List Char},
    findClose q cs = some suf → suf.length ≤ cs.length := by
  intro cs
  induction cs using findClose.induct q with
  | case1 => intro suf h; simp [findClose] at h
  | case2 rest2 =>
    intro suf h
    rw [findClose_cons, if_pos rfl] at h
    cases h; simp
  | case3 hb =>
    intro suf h
    rw [findClose, if_neg hb, if_pos rfl] at h
    simp at h
  | case4 rest2 hb =>
    intro suf h
    rw [findClose, if_neg hb, if_pos rfl] at h
    simp at h
  | case5 d rest2 hd hb ih =>
    intro suf h
    simp only [findClose, if_neg hb, if_pos rfl, if_neg hd] at h
    have := ih h
    simp only [List.length_cons]
    omega
  | case6 d rest2 hq hb ih =>
    intro suf h
    rw [findClose_cons, if_neg hq, if_neg hb] at h
    have := ih h
    simp only [List.length_cons]
    omega

/-- Scanner for `str.replace(/q(?:[^q\\]|\\.)*q/g, 'qq')` (string-literal
replacement by an empty literal, step 3 of `normalize`): at a quote, when a
closing quote is reachable the literal is replaced by `qq` and scanning
continues after it; otherwise no match starts here and the engine moves one
character forward. -/
def removeStrings (q : Char) : List Char → List Char
  | [] => []
  | c :: rest =>
    if c = q then
      match h : findClose q rest with
      | some suffix => q :: q :: removeStrings q suffix
      | none => c :: removeStrings q rest
    else c :: removeStrings q rest
  termination_by cs => cs.length
  decreasing_by
    · have := findClose_length_le h
      simp only [List.length_cons]
      omega
    · simp
    · simp

/-- Language lists of `normalize` (`src/core/tokenizer.ts`, lines 19-35)
and `removeStringLiterals` (lines 50-56). -/
def slashCommentLangs : List String :=
  ["javascript", "typescript", "java", "cpp", "c", "rust", "go", "swift",
   "kotlin", "scala", "csharp"]

def hashCommentLangs : List String := ["python", "ruby"]

def blockCommentLangs : List String := slashCommentLangs ++ ["css"]

/-- `removeStringLiterals` (`tokenizer.ts` lines 49-62): double-quoted then
single-quoted literals, for the C-family and python/ruby languages. -/
def removeStringLiterals (language : String) (cs : List Char) : List Char :=
  if language ∈ slashCommentLangs ∨ language ∈ hashCommentLangs then
    removeStrings squote (removeStrings dquote cs)
  else cs

/-- `Tokenizer.normalize` (`tokenizer.ts` lines 15-44): strip single-line
comments, strip multi-line comments, collapse whitespace and trim, then
replace string literals. -/
def normalize (language : String) (cs : List Char) : List Char :=
  let n1 :=
    if language ∈ slashCommentLangs then removeLineComments ['/', '/'] cs
    else if language ∈ hashCommentLangs then removeLineComments ['#'] cs
    else if language = "sql" then removeLineComments ['-', '-'] cs
    else cs
  let n2 :=
    if language ∈ blockCommentLangs then
      removeBlockComments ['/', '*'] ['*', '/'] (by simp) n1
    else if language = "html" then
      removeBlockComments ['<', '!', '-', '-'] ['-', '-', '>'] (by simp) n1
    else n1
  removeStringLiterals language (collapseWS n2)

/-- Token characters of `extractTokens`: the split regex is
`/[^\w\$\._]+/`, so a token is a maximal run of word characters, `$`, `.`
and `_` (JS `\w` is `[A-Za-z0-9_]`). -/
def isTokenChar (c : Char) : Bool :=
  (c.isAlpha ∧ c.toNat < 128) ∨ c.isDigit ∨ c = '_' ∨ c = '$' ∨ c = '.'

/-- `Tokenizer.extractTokens` (`tokenizer.ts` lines 67-87): split on
non-token characters, drop tokens shorter than 2, drop pure integers,
lowercase.  (`getLanguagePatterns` is computed but never filters the
stream, exactly as in the source.) -/
def extractTokens (cs : List Char) : List (List Char) :=
  let rawTokens := (cs.splitOnP (fun c => ¬ isTokenChar c)).filter (· ≠ [])
  (rawTokens.filter
    (fun t => 2 ≤ t.length ∧ ¬ (t ≠ [] ∧ t.all Char.isDigit))).map
    (fun t => t.map Char.toLower)

/-- `Tokenizer.tokenize` (`tokenizer.ts` lines 7-10). -/
def tokenize (language : String) (cs : List Char) : List (List Char) :=
  extractTokens (normalize language cs)

/-- Extension table of `Tokenizer.detectLanguage` (lines 127-146). -/
def extensionTable : List (String × String) :=
  [("js", "javascript"), ("ts", "typescript"), ("py", "python"),
   ("java", "java"), ("cpp", "cpp"), ("cc", "cpp"), ("c", "c"),
   ("rs", "rust"), ("go", "go"), ("php", "php"), ("rb", "ruby"),
   ("swift", "swift"), ("kt", "kotlin"), ("scala", "scala"),
   ("cs", "csharp"), ("html", "html"), ("css", "css"), ("sql", "sql")]

/-- `filename.split('.').pop()?.toLowerCase()` (ASCII case folding, the
only case the extension table distinguishes). -/
def extOf (filename : String) : String :=
  String.mk (((splitOnChar '.' filename.data).getLastD []).map Char.toLower)

/-- `Tokenizer.detectLanguage(filename, content?)` (lines 124-149):
`filename.split('.').pop()?.toLowerCase()` looked up in the table, `'text'`
otherwise.  The `content` parameter is accepted and never read, exactly as
in the source. -/
def detectLanguage (filename : String) (content : Option String) : String :=
  let _ := content
  match extensionTable.find? (fun e => e.1 = extOf filename) with
  | some e => e.2
  | none => "text"

end Tokenizer

/-! ## CodeTokenizer (`src/core/config.ts` module, lines 20-152)

The second tokenizer class.  Its `COMMENTS`, `STRINGS` and `NUMBERS`
regexes are embedded as scanners with the exact `String.replace`
semantics. -/

namespace CodeTokenizer

/-- Backtick character. -/
def btick : Char := Char.ofNat 96

/-- JS `\w` (`[A-Za-z0-9_]`). -/
def isWordChar (c : Char) : Bool := c.isAlpha ∨ c.isDigit ∨ c = '_'

/-- Scanner for the alternation
`/\/\/.*$|\/\*[\s\S]*?\*\/|#.*$/gm` (the `COMMENTS` regex), replacing each
match with `repl` (`' '` in `tokenize`, `''` in `normalize`).  At `//` or
`#` the match runs to just before the next newline; at `/*` it runs lazily
to the first `*/`, and when no `*/` follows no alternative matches here so
the engine moves on by one character. -/
def ctComments (repl : List Char) : List Char → List Char
  | [] => []
  | c :: rest =>
    if c = '/' ∧ rest.head? = some '/' then
      repl ++ ctComments repl (rest.dropWhile (· ≠ nl))
    else if c = '/' ∧ rest.head? = some '*' then
      match _h : Tokenizer.dropThrough ['*', '/'] rest.tail with
      | some suffix => repl ++ ctComments repl suffix
      | none => c :: ctComments repl rest
    else if c = '#' then
      repl ++ ctComments repl (rest.dropWhile (· ≠ nl))
    else c :: ctComments repl rest
  termination_by cs => cs.length
  decreasing_by
    · simp only [List.length_cons]
      exact Nat.lt_succ_of_le (dropWhile_length_le _ rest)
    · have h1 := Tokenizer.dropThrough_length_le _h
      have h2 : rest.tail.length ≤ rest.length := by
        cases rest <;> simp
      simp only [List.length_cons]
      omega
    · simp
    · simp only [List.length_cons]
      exact Nat.lt_succ_of_le (dropWhile_length_le _ rest)
    · simp

/-- Close search for the escape-free string regexes `"[^"]*"`, `'[^']*'`,
`` `[^`]*` ``: the literal closes at the very next quote of the same
kind. -/
def findCloseSimple (q : Char) : List Char → Option (List Char)
  | [] => none
  | c :: rest => if c = q then some rest else findCloseSimple q rest

theorem findCloseSimple_length_le {q : Char} : ∀ {cs suf : List Char},
    findCloseSimple q cs = some suf → suf.length ≤ cs.length := by
  intro cs
  induction cs with
  | nil => intro suf h; simp [findCloseSimple] at h
  | cons c rest ih =>
    intro suf h
    rw [findCloseSimple] at h
    split at h
    · cases h; simp
    · have := ih h
      simp only [List.length_cons]
      omega

/-- Scanner for `/"[^"]*"|'[^']*'|`[^`]*`/g` (the `STRINGS` regex): each
alternative can only start at its own quote character, so at a quote the
engine looks for the next quote of the same kind; failure means no match
starts here. -/
def ctStrings (repl : List Char) : List Char → List Char
  | [] => []
  | c :: rest =>
    if c = dquote ∨ c = squote ∨ c = btick then
      match _h : findCloseSimple c rest with
      | some suffix => repl ++ ctStrings repl suffix
      | none => c :: ctStrings repl rest
    else c :: ctStrings repl rest
  termination_by cs => cs.length
  decreasing_by
    · have := findCloseSimple_length_le _h
      simp only [List.length_cons]
      omega
    · simp
    · simp

/-- Scanner for `/\b\d+\.?\d*\b/g` (the `NUMBERS` regex) with replacement
`repl` (`NUMBER`/`NUM`).  `prevWord` tracks whether the previous character
is a word character (for the leading `\b`).  A match can only start at a
digit after a non-word position; the candidate `digits ∙ dot ∙ digits` is
tried greedily and shrunk until the trailing `\b` holds, which yields the
case split below (see the comments for which regex candidate wins). -/
def ctNumbers (repl : List Char) : Bool → List Char → List Char
  | _, [] => []
  | prevWord, c :: rest =>
    if hc : c.isDigit ∧ prevWord = false then
      match ht : (c :: rest).dropWhile (·.isDigit) with
      | '.' :: u =>
        match hu : u with
        | [] =>
          -- `D1.` at end of input: no trailing boundary after `.`,
          -- fall back to `D1`; scanning resumes at the dot.
          repl ++ ctNumbers repl true ['.']
        | e :: u2 =>
          if he : e.isDigit then
            -- `D2 ≠ ∅`: try `D1.D2` in full.
            match hv : u.dropWhile (·.isDigit) with
            | [] => repl ++ ctNumbers repl true []
            | d :: v2 =>
              if isWordChar d then
                -- trailing `\b` fails after `D1.D2` and all its digit
                -- prunings; `D1.` wins (boundary `.`→word); resume at `D2`.
                repl ++ ctNumbers repl false u
              else repl ++ ctNumbers repl true (d :: v2)
          else if isWordChar e then
            -- `D1.` directly before a letter/underscore.
            repl ++ ctNumbers repl false u
          else
            -- `.` followed by non-word: only `D1` matches; resume at `.`.
            repl ++ ctNumbers repl true ('.' :: u)
      | [] => repl ++ ctNumbers repl true []
      | d :: t2 =>
        if isWordChar d then
          -- digits directly followed by a letter/underscore: no boundary
          -- anywhere inside the digit run, no match at all.
          ((c :: rest).takeWhile (·.isDigit)) ++ ctNumbers repl true (d :: t2)
        else repl ++ ctNumbers repl true (d :: t2)
    else c :: ctNumbers repl (isWordChar c) rest
  termination_by _ cs => cs.length
  decreasing_by
    all_goals
      first
      | (simp; done)
      | (have h1 : (List.dropWhile (fun x => x.isDigit) (c :: rest)).length
              ≤ rest.length := by
           simp only [List.dropWhile_cons, hc.1, if_true]
           exact dropWhile_length_le _ rest
         try (have h2 := dropWhile_length_le (fun x : Char => x.isDigit) u
              rw [hv] at h2)
         try (have h3 : u.length = u2.length + 1 := by
                rw [hu]; simp only [List.length_cons])
         rw [ht] at h1
         simp only [List.length_cons, List.length_nil] at h1 ⊢
         try simp only [List.length_cons] at h2
         omega)

theorem isPrefixOf_length_le {kw cs : List Char} (h : kw.isPrefixOf cs = true) :
    kw.length ≤ cs.length := by
  induction kw generalizing cs with
  | nil => simp
  | cons a kw' ih =>
    cases cs with
    | nil => simp [List.isPrefixOf] at h
    | cons c cs' =>
      simp only [List.isPrefixOf, Bool.and_eq_true] at h
      have := ih h.2
      simp only [List.length_cons]
      omega

/-- The trailing `\b` of a keyword alternative: end of input or a non-word
character next. -/
def boundaryAfter : List Char → Bool
  | [] => true
  | d :: _ => ¬ isWordChar d

/-- One keyword alternation `\bKW1\b|\bKW2\b|…`: the first keyword that is
a prefix here and is followed by a non-word character (keywords are
all-letter, so the leading `\b` is the caller's `prevWord = false`).
Returns the suffix after the matched keyword. -/
def kwMatch (kws : List (List Char)) (cs : List Char) : Option (List Char) :=
  match kws with
  | [] => none
  | kw :: kws' =>
    if kw.isPrefixOf cs ∧ boundaryAfter (cs.drop kw.length) then
      some (cs.drop kw.length)
    else kwMatch kws' cs

theorem kwMatch_length_lt {kws : List (List Char)} (hne : ∀ kw ∈ kws, kw ≠ [])
    {c : Char} {rest suf : List Char} (h : kwMatch kws (c :: rest) = some suf) :
    suf.length < (c :: rest).length := by
  induction kws with
  | nil => simp [kwMatch] at h
  | cons kw kws' ih =>
    rw [kwMatch] at h
    split at h
    · cases h
      rename_i hcond
      have hk : kw ≠ [] := hne kw (by simp)
      have hlen : 0 < kw.length := List.length_pos.mpr hk
      have hple : kw.length ≤ (c :: rest).length :=
        isPrefixOf_length_le hcond.1
      simp only [List.length_drop]
      omega
    · exact ih (fun k hk => hne k (by simp [hk])) h

/-- Scanner for `str.replace(/\bkw1\b|\bkw2\b|…/g, REPL)` used by
`normalizeJavaScript`/`normalizePython`; all replacements (`VAR`, `FUNC`,
…) end in a letter, so after a replacement the previous character is a
word character. -/
def replaceKeywords (kws : List (List Char)) (hne : ∀ kw ∈ kws, kw ≠ [])
    (repl : List Char) : Bool → List Char → List Char
  | _, [] => []
  | prevWord, c :: rest =>
    if prevWord = false then
      match h : kwMatch kws (c :: rest) with
      | some suffix => repl ++ replaceKeywords kws hne repl true suffix
      | none => c :: replaceKeywords kws hne repl (isWordChar c) rest
    else c :: replaceKeywords kws hne repl (isWordChar c) rest
  termination_by _ cs => cs.length
  decreasing_by
    · exact kwMatch_length_lt hne h
    · simp
    · simp

/-- `normalizeJavaScript` (`config.ts` lines 107-114): five sequential
keyword replacement passes. -/
def normalizeJavaScript (cs : List Char) : List Char :=
  let p1 := replaceKeywords ["const".data, "let".data, "var".data]
    (by simp) "VAR".data false cs
  let p2 := replaceKeywords ["function".data] (by simp) "FUNC".data false p1
  let p3 := replaceKeywords ["class".data] (by simp) "CLASS".data false p2
  let p4 := replaceKeywords ["async".data] (by simp) "ASYNC".data false p3
  replaceKeywords ["await".data] (by simp) "AWAIT".data false p4

/-- `normalizePython` (`config.ts` lines 119-126). -/
def normalizePython (cs : List Char) : List Char :=
  let p1 := replaceKeywords ["def".data] (by simp) "FUNC".data false cs
  let p2 := replaceKeywords ["class".data] (by simp) "CLASS".data false p1
  let p3 := replaceKeywords ["async".data] (by simp) "ASYNC".data false p2
  let p4 := replaceKeywords ["await".data] (by simp) "AWAIT".data false p3
  replaceKeywords ["lambda".data] (by simp) "LAMBDA".data false p4

/-- The `OPERATORS` character class
`[+\-*/%=<>!&|^~?:;,.\[\]{}()]`. -/
def opChar (c : Char) : Bool :=
  c ∈ ['+', '-', '*', '/', '%', '=', '<', '>', '!', '&', '|', '^', '~',
       '?', ':', ';', ',', '.', '[', ']', Char.ofNat 123, Char.ofNat 125,
       '(', ')']

/-- `CodeTokenizer.tokenize` (`config.ts` lines 39-55): comments → space,
strings → `STRING`, numbers → `NUMBER`, split on operators, re-join with
spaces, split on whitespace, drop blanks, lowercase.  (The split pieces
contain no whitespace, so the source's `token.trim().length > 0` filter is
non-emptiness.)  The `language` argument is unused, as in the source. -/
def tokenize (code : List Char) (language : String) : List (List Char) :=
  let _ := language
  let n1 := ctComments [' '] code
  let n2 := ctStrings "STRING".data n1
  let n3 := ctNumbers "NUMBER".data false n2
  let joined := List.intercalate [' '] (n3.splitOnP opChar)
  ((joined.splitOnP Tokenizer.isWS).filter (· ≠ [])).map
    (List.map Char.toLower)

/-- `CodeTokenizer.normalize` (`config.ts` lines 60-84): comments → empty,
strings → `STR`, numbers → `NUM`, whitespace collapse + trim, then the
per-language keyword pass. -/
def normalize (code : List Char) (language : String) : List Char :=
  let n1 := ctComments [] code
  let n2 := ctStrings "STR".data n1
  let n3 := ctNumbers "NUM".data false n2
  let n4 := Tokenizer.collapseWS n3
  if language = "javascript" ∨ language = "typescript" then
    normalizeJavaScript n4
  else if language = "python" then normalizePython n4
  else n4

/-- `CodeTokenizer.detectLanguage` extension map (`config.ts` lines
133-149). -/
def langMap : List (String × String) :=
  [("js", "javascript"), ("jsx", "javascript"), ("ts", "typescript"),
   ("tsx", "typescript"), ("py", "python"), ("java", "java"),
   ("cpp", "cpp"), ("c", "c"), ("go", "go"), ("rs", "rust"),
   ("rb", "ruby"), ("php", "php"), ("cs", "csharp"), ("swift", "swift"),
   ("kt", "kotlin")]

/-- `filepath.toLowerCase().split('.').pop() || ''`. -/
def extOf (filepath : String) : String :=
  String.mk ((splitOnChar '.' (filepath.data.map Char.toLower)).getLastD [])

/-- `CodeTokenizer.detectLanguage(filepath)` (`config.ts` lines 131-151):
`filepath.toLowerCase().split('.').pop() || ''` looked up in `langMap`,
`'unknown'` otherwise. -/
def detectLanguage (filepath : String) : String :=
  match langMap.find? (fun e => e.1 = extOf filepath) with
  | some e => e.2
  | none => "unknown"

end CodeTokenizer

/-! ## PatternExtractor (`src/core/patterns.ts`, lines 3-305)

The three pattern tiers.  The JS `Map` accumulators are embedded as
association lists in insertion order with in-place updates, and JS `Set`s
as duplicate-free lists in insertion order. -/

namespace PatternExtractor

/-- `generateNGrams` (`patterns.ts` lines 149-157): all windows of length
`n` (the JS loop `for (i = 0; i <= tokens.length - n; i++)` runs zero
times when `tokens.length - n` is negative). -/
def generateNGrams (tokens : List String) (n : Nat) : List (List String) :=
  if tokens.length < n then []
  else (List.range (tokens.length - n + 1)).map (fun i => (tokens.drop i).take n)

/-- One entry of the `ngramCounts`/`structureCounts` maps: occurrence
count, contributing snippet-id set, language set. -/
structure NGData where
  count : Nat
  snippets : List String
  languages : List String
deriving Repr, DecidableEq

/-- JS `Set.prototype.add` on a duplicate-free insertion-ordered list. -/
def addToSet (l : List String) (x : String) : List String :=
  if x ∈ l then l else l ++ [x]

/-- One iteration of the inner loop of `extractNGramPatterns` /
`extractASTPatterns`: create the entry on first sight, then
`entry.count++; entry.snippets.add(id); entry.languages.add(lang)`. -/
def bumpEntry : List (String × NGData) → String → String → String →
    List (String × NGData)
  | [], key, sid, lang => [(key, ⟨1, [sid], [lang]⟩)]
  | (k, d) :: rest, key, sid, lang =>
    if k = key then
      (k, ⟨d.count + 1, addToSet d.snippets sid, addToSet d.languages lang⟩) :: rest
    else (k, d) :: bumpEntry rest key sid lang

/-- The accumulation loops shared by the ngram and ast tiers: for each
snippet, feed each of its keys (joined n-grams resp. structural tags) into
the map. -/
def buildCounts (keysOf : Snip → List String) (snips : List Snip) :
    List (String × NGData) :=
  snips.foldl
    (fun m s => (keysOf s).foldl (fun m key => bumpEntry m key s.id s.language) m)
    []

/-- The emission loop shared by the ngram and ast tiers: one pattern per
map entry with `count >= 2`, with `frequency := count`. -/
def countPatterns (ptype : String) (keysOf : Snip → List String)
    (snips : List Snip) : List Pattern :=
  ((buildCounts keysOf snips).filter (fun e => 2 ≤ e.2.count)).map
    (fun e =>
      { type := ptype, content := e.1, frequency := e.2.count,
        snippets := e.2.snippets, languages := e.2.languages })

/-- The key list of one snippet in the ngram tier: its
`config.ngramSize`-grams joined by a space. -/
def ngramKeys (cfg : Config) (s : Snip) : List String :=
  (generateNGrams s.tokens cfg.ngramSize).map (String.intercalate " ")

/-- `extractNGramPatterns` (`patterns.ts` lines 31-69). -/
def extractNGramPatterns (cfg : Config) (snips : List Snip) : List Pattern :=
  countPatterns "ngram" (ngramKeys cfg) snips

/-- `extractASTPatterns` (`patterns.ts` lines 107-144), parameterised by
`structuresOf`, the per-snippet result of `extractStructuralPatterns`
(the regex suite of lines 200-275 applied to `snippet.content`); the
counting and emission logic is the source's, verbatim. -/
def extractASTPatterns (structuresOf : Snip → List String)
    (snips : List Snip) : List Pattern :=
  countPatterns "ast" structuresOf snips

/-- Row recurrence of the LCS table (`findLCS`, `patterns.ts` lines
167-176): `lcsRowStep ys x prev j` is `dp[i][j]` where `prev` is row
`i-1` and `x` is `tokens1[i-1]`. -/
def lcsRowStep (ys : List String) (x : String) (prev : Nat → Nat) : Nat → Nat
  | 0 => 0
  | j + 1 =>
    if x = ys.getD j "" then prev j + 1
    else max (prev (j + 1)) (lcsRowStep ys x prev j)

/-- The filled dynamic-programming table: `lcsTable xs ys i j = dp[i][j]`
(LCS length of the first `i` tokens of `xs` and the first `j` of `ys`). -/
def lcsTable (xs ys : List String) : Nat → Nat → Nat
  | 0 => fun _ => 0
  | i + 1 => lcsRowStep ys (xs.getD i "") (lcsTable xs ys i)

/-- The backtracking loop of `findLCS` (lines 178-192): from `(i, j)`,
prepend on a token match and step diagonally, otherwise move towards the
larger of `dp[i-1][j]` and `dp[i][j-1]` (ties go to `j--`).  Each
iteration decreases `i + j`, so `fuel := i + j` runs the loop to
completion. -/
def backtrack (xs ys : List String) : Nat → Nat → Nat → List String → List String
  | 0, _, _, acc => acc
  | _ + 1, 0, _, acc => acc
  | _ + 1, _ + 1, 0, acc => acc
  | fuel + 1, i + 1, j + 1, acc =>
    if xs.getD i "" = ys.getD j "" then
      backtrack xs ys fuel i j (xs.getD i "" :: acc)
    else if lcsTable xs ys (i + 1) j < lcsTable xs ys i (j + 1) then
      backtrack xs ys fuel i (j + 1) acc
    else backtrack xs ys fuel (i + 1) j acc

/-- `findLCS` (`patterns.ts` lines 162-195). -/
def findLCS (xs ys : List String) : List String :=
  backtrack xs ys (xs.length + ys.length) xs.length ys.length []

/-- The ordered pairs `(i, j)` with `i < j` visited by the double loop of
`extractLCSPatterns`. -/
def allPairs {α : Type} : List α → List (α × α)
  | [] => []
  | x :: xs => (xs.map (fun y => (x, y))) ++ allPairs xs

/-- One iteration of `extractLCSPatterns` (lines 78-99): skip an already
`processed` pair key, otherwise emit an `lcs` pattern with `frequency 2`
when the LCS has at least 3 tokens. -/
def lcsStep (st : List String × List Pattern) (p : Snip × Snip) :
    List String × List Pattern :=
  if p.1.id ++ "-" ++ p.2.id ∈ st.1 then st
  else
    (st.1 ++ [p.1.id ++ "-" ++ p.2.id],
     if 3 ≤ (findLCS p.1.tokens p.2.tokens).length then
       st.2 ++ [{ type := "lcs",
                  content := String.intercalate " " (findLCS p.1.tokens p.2.tokens),
                  frequency := 2, snippets := [p.1.id, p.2.id],
                  languages := [p.1.language, p.2.language] }]
     else st.2)

/-- `extractLCSPatterns` (`patterns.ts` lines 74-102). -/
def extractLCSPatterns (snips : List Snip) : List Pattern :=
  ((allPairs snips).foldl lcsStep ([], [])).2

/-- The sort order of `rankPatterns` (lines 280-297): frequency
descending, then language count descending, then snippet count
descending. -/
def rankLE (a b : Pattern) : Bool :=
  if a.frequency ≠ b.frequency then decide (b.frequency < a.frequency)
  else if a.languages.length ≠ b.languages.length then
    decide (b.languages.length < a.languages.length)
  else decide (b.snippets.length ≤ a.snippets.length)

/-- Stable insertion into a `rankLE`-sorted list: an element keeps its
place ahead of later equal-ranked elements, matching the stability
`Array.prototype.sort` guarantees. -/
def insertRanked (x : Pattern) : List Pattern → List Pattern
  | [] => [x]
  | y :: ys => if rankLE x y then x :: y :: ys else y :: insertRanked x ys

/-- `rankPatterns`: `Array.prototype.sort` with the comparator above (a
stable sort by `rankLE`, realised here as stable insertion sort; the
engine's exact sorting algorithm is irrelevant to every claim). -/
def rankPatterns (ps : List Pattern) : List Pattern :=
  ps.foldr insertRanked []

/-- `extractPatterns` (`patterns.ts` lines 13-26). -/
def extractPatterns (cfg : Config) (structuresOf : Snip → List String)
    (snips : List Snip) : List Pattern :=
  rankPatterns
    (extractNGramPatterns cfg snips ++ extractLCSPatterns snips ++
      extractASTPatterns structuresOf snips)

end PatternExtractor

/-! ## MinHashLSH (the unnamed module `part_004`)

The LSH index used for de-duplication.  Its hash family is drawn from
`Math.random` once per instance; a family member is `(a·poly31(x)+b) mod p`
and the whole family is passed around as an explicit list of functions. -/

namespace MinHashLSH

/-- The modulus `p = 2147483647` of the hash family. -/
def p : Nat := 2147483647

/-- The inner rolling hash `hash = ((hash * 31) + charCode) % p` of the
generated hash functions. -/
def poly31 (x : String) : Nat :=
  x.data.foldl (fun h c => (h * 31 + c.toNat) % p) 0

/-- One member of the hash family, determined by its random coefficients
`(a, b)`: `(a * poly31(x) + b) % p`. -/
def hashFun (a b : Nat) (x : String) : Nat := (a * poly31 x + b) % p

/-- JS `new Set(tokens)` as a first-occurrence-ordered duplicate-free
list. -/
def tokenSetList (tokens : List String) : List String :=
  tokens.foldl PatternExtractor.addToSet []

/-- JS `Math.min` seeded with `Infinity`; `none` models `Infinity`. -/
def jsMin (m : Option Nat) (h : Nat) : Option Nat :=
  match m with
  | none => some h
  | some v => some (min v h)

/-- `computeMinHash(tokens)` (`part_004` lines 39-55): for each hash
function, the minimum over the *token set* (note: raw tokens, not
shingles), with `0` substituted when the token set is empty (the
`minHash === Infinity` check). -/
def computeMinHash (hfs : List (String → Nat)) (tokens : List String) :
    List Nat :=
  hfs.map (fun hf =>
    match (tokenSetList tokens).foldl (fun m t => jsMin m (hf t)) none with
    | none => 0
    | some v => v)

/-- `computeLSHSignature` (`part_004` lines 60-72): the signature cut into
`minHashBands` bands of `minHashRows` entries, each joined by `,`
(`slice(bandStart, min(bandStart+rows, len))` is drop/take with natural
clamping). -/
def computeLSHSignature (cfg : Config) (sig : List Nat) : List String :=
  (List.range cfg.minHashBands).map (fun i =>
    String.intercalate ","
      (((sig.drop (i * cfg.minHashRows)).take cfg.minHashRows).map
        (fun n => toString n)))

/-- Insert an id into the bucket of `key` (`addSnippet`'s body): create
the bucket on first sight, append the id unless already present. -/
def addToBucket : List (String × List String) → String → String →
    List (String × List String)
  | [], key, sid => [(key, [sid])]
  | (k, ids) :: rest, key, sid =>
    if k = key then (k, if sid ∈ ids then ids else ids ++ [sid]) :: rest
    else (k, ids) :: addToBucket rest key sid

/-- `addSnippet` (`part_004` lines 77-93), with the bucket map threaded
explicitly. -/
def addSnippet (cfg : Config) (buckets : List (String × List String))
    (s : Snip) : List (String × List String) :=
  (computeLSHSignature cfg s.minHashes).foldl
    (fun b key => addToBucket b key s.id) buckets

/-- `this.buckets.get(bandSignature)` with the empty list for a missing
bucket (the source guards with `if (bucket)`). -/
def lookupBucket (buckets : List (String × List String)) (key : String) :
    List String :=
  match buckets.find? (fun e => e.1 = key) with
  | some e => e.2
  | none => []

/-- `findCandidates` (`part_004` lines 98-114): ids sharing any band
string with the snippet, self excluded, deduplicated in insertion
order. -/
def findCandidates (cfg : Config) (buckets : List (String × List String))
    (s : Snip) : List String :=
  (computeLSHSignature cfg s.minHashes).foldl
    (fun acc key =>
      (lookupBucket buckets key).foldl
        (fun acc cid => if cid ≠ s.id ∧ cid ∉ acc then acc ++ [cid] else acc)
        acc)
    []

/-- `calculateSimilarity` (`part_004` lines 119-132): fraction of agreeing
signature positions.  The source throws when the lengths differ and these
claims only apply it to equal-length signatures (`zip` then walks the
common positions); for the empty signature the source yields `NaN`
(`0/0`), here `0`, and neither value reaches a `>=` threshold test
differently. -/
def calculateSimilarity (sig1 sig2 : List Nat) : ℚ :=
  (((sig1.zip sig2).countP (fun e => e.1 = e.2) : ℚ)) / (sig1.length : ℚ)

end MinHashLSH

/-! ## The `CodeCollage` class (`src/core/index.ts` = module 4 of
`patterns.ts`): `ingestFile` and `deduplicate`. -/

namespace CodeCollageClass

/-- State of `deduplicate`'s loop: the per-run `MinHashLSH` bucket map,
the `unique` map's values in insertion order, and the `processed` id
set. -/
structure DedupState where
  buckets : List (String × List String)
  unique : List Snip
  processed : List String
deriving Repr

/-- One iteration of `deduplicate`'s loop (`patterns.ts` lines 667-697):
skip processed ids; drop on an exact content-hash match with an
already-kept snippet; otherwise add to the LSH index, query candidates,
and drop when any *kept* candidate has similarity at or above the
threshold. -/
def dedupStep (cfg : Config) (st : DedupState) (s : Snip) : DedupState :=
  if s.id ∈ st.processed then st
  else if (st.unique.find? (fun u => u.hash = s.hash)).isSome then
    { st with processed := st.processed ++ [s.id] }
  else
    { buckets := MinHashLSH.addSnippet cfg st.buckets s
      unique :=
        if (MinHashLSH.findCandidates cfg
            (MinHashLSH.addSnippet cfg st.buckets s) s).any (fun cid =>
          match st.unique.find? (fun u => u.id = cid) with
          | some candidate =>
            decide (cfg.similarityThreshold ≤
              MinHashLSH.calculateSimilarity s.minHashes candidate.minHashes)
          | none => false)
        then st.unique else st.unique ++ [s]
      processed := st.processed ++ [s.id] }

/-- The loop state after processing a list of snippets. -/
def dedupState (cfg : Config) (snippets : List Snip) : DedupState :=
  snippets.foldl (dedupStep cfg) ⟨[], [], []⟩

/-- `deduplicate` (`patterns.ts` lines 659-703): the kept snippets and
`duplicatesRemoved = snippets.length - uniqueSnippets.length`. -/
def deduplicate (cfg : Config) (snippets : List Snip) : List Snip × Nat :=
  ((dedupState cfg snippets).unique,
    snippets.length - (dedupState cfg snippets).unique.length)

/-- `Tokenizer.tokenize` producing `String` tokens (the snippet record
stores strings). -/
def tokenizeStr (language content : String) : List String :=
  (Tokenizer.tokenize language content.data).map (fun t => ⟨t⟩)

/-- `ingestFile` (`patterns.ts` lines 623-654) after a successful read of
`content` from `filepath` (read failures take the `catch` branch and
return `null` like the skip branch).  `H` stands for `generateHash`
(sha256 hex), `hfs` for the per-run hash family of the `MinHashLSH`
constructed on the spot, `newId`/`ts` for `generateSnippetId()` /
`Date.now()`.  The file is skipped — `null` — when the detected language
is `text` or the content exceeds 100000 characters. -/
def ingestFile (hfs : List (String → Nat)) (H : String → String)
    (newId : String) (ts : Nat) (filepath content : String) : Option Snip :=
  let language := Tokenizer.detectLanguage filepath (some content)
  if language = "text" ∨ 100000 < content.length then none
  else
    let tokens := tokenizeStr language content
    some { id := newId, content := content, language := language,
           filename := filepath, hash := H content,
           minHashes := MinHashLSH.computeMinHash hfs tokens,
           tokens := tokens, patterns := [], timestamp := ts }

end CodeCollageClass

/-! ## JSONL storage (`src/storage/jsonl.ts` and the unnamed `part_003`)

Scanning decodes every line with `JSON.parse` inside a single
`try { lines.map(JSON.parse) } catch { return [] }`; the decoder is the
parameter `parse` (`none` = the line throws). -/

namespace JSONLStorage

/-- `loadJSONL` (`part_003` lines 211-220):
`content.trim().split('\n').filter(line => line.length > 0)`, then
`lines.map(JSON.parse)` where the first decode error aborts the whole
`map` and the `catch` returns `[]`. -/
def loadJSONL {α : Type} (parse : String → Option α) (content : String) :
    List α :=
  let lines := ((splitOnChar nl (Tokenizer.trimWS content.data)).map
    String.mk).filter (fun l => l.length ≠ 0)
  match lines.mapM parse with
  | some recs => recs
  | none => []

/-- `readSnippets` (`jsonl.ts` lines 44-55): same shape with
`filter(line => line.trim())` instead and no leading trim. -/
def readSnippets {α : Type} (parse : String → Option α) (content : String) :
    List α :=
  let lines := ((splitOnChar nl content.data).map String.mk).filter
    (fun l => (Tokenizer.trimWS l.data).length ≠ 0)
  match lines.mapM parse with
  | some recs => recs
  | none => []

end JSONLStorage

/-! ## MinHashClusterer (`src/clustering/minhash.ts`)

The connected-component clusterer.  JS `Infinity` (the MinHash fold seed
that survives when there are no shingles) is modelled as `none : Option
Nat`; `Infinity === Infinity` is `none = none`, true, exactly as in JS. -/

namespace MinHashClusterer

/-- The `MinHashSignature` record of `src/core/types.ts`. -/
structure MinHashSignature where
  signature : List (Option Nat)
  bands : List (List (Option Nat))
  snippetId : String
deriving Repr, DecidableEq

/-- `generateShingles(tokens, size)` (`minhash.ts` lines 75-81): the
contiguous `size`-token windows joined by a space. -/
def generateShingles (tokens : List String) (size : Nat) : List String :=
  if tokens.length < size then []
  else (List.range (tokens.length - size + 1)).map
    (fun i => String.intercalate " " ((tokens.drop i).take size))

/-- The signature fold of `generateSignature` (lines 46-53): start from
`Array(K).fill(Infinity)` and take elementwise minima over the
shingles. -/
def signatureFromTokens (hfs : List (String → Nat)) (tokens : List String) :
    List (Option Nat) :=
  (generateShingles tokens 3).foldl
    (fun sig sh => List.zipWith (fun m hf => MinHashLSH.jsMin m (hf sh)) sig hfs)
    (hfs.map (fun _ => (none : Option Nat)))

/-- `generateSignature(snippet)` (`minhash.ts` lines 42-70): re-tokenize
the snippet content with `CodeTokenizer.tokenize`, fold the 3-shingles,
then cut the signature into bands. -/
def generateSignature (hfs : List (String → Nat)) (cfg : ClusteringConfig)
    (s : Snip) : MinHashSignature :=
  let tokens := (CodeTokenizer.tokenize s.content.data s.language).map
    (fun t => (⟨t⟩ : String))
  let signature := signatureFromTokens hfs tokens
  let bands := (List.range cfg.minhashBands).map
    (fun i => (signature.drop (i * cfg.minhashRows)).take cfg.minhashRows)
  ⟨signature, bands, s.id⟩

/-- `calculateSimilarity` (`minhash.ts` lines 86-94): fraction of agreeing
positions over `sig1.signature.length`.  All signatures of one run share
the length `hashFunctions.length`, so the `zip` walks every compared
position. -/
def calculateSimilarity (sig1 sig2 : MinHashSignature) : ℚ :=
  (((sig1.signature.zip sig2.signature).countP (fun e => e.1 = e.2)) : ℚ) /
    (sig1.signature.length : ℚ)

/-- `hashBand` (lines 134-136): `band.join(',')`; JS prints the Infinity
seed as `Infinity`. -/
def hashBand (band : List (Option Nat)) : String :=
  String.intercalate "," (band.map (fun v =>
    match v with
    | none => "Infinity"
    | some n => toString n))

/-- Append to a `(bandIdx, bandHash)` bucket (`findCandidatePairs`'s
unconditional `push`). -/
def pushBucket : List ((Nat × String) × List String) → Nat × String →
    String → List ((Nat × String) × List String)
  | [], key, sid => [(key, [sid])]
  | (k, ids) :: rest, key, sid =>
    if k = key then (k, ids ++ [sid]) :: rest
    else (k, ids) :: pushBucket rest key sid

/-- JS `Set.add` for candidate pairs. -/
def addPair (l : List (String × String)) (pr : String × String) :
    List (String × String) :=
  if pr ∈ l then l else l ++ [pr]

/-- `findCandidatePairs(signatures)` (`minhash.ts` lines 99-129): group by
`(band index, band hash)`, then all unordered pairs from buckets with 2 or
more members, each pair sorted lexicographically (the source encodes a
pair as `sorted.join(',')`; the two components are kept here). -/
def findCandidatePairs (sigs : List MinHashSignature) :
    List (String × String) :=
  let buckets := sigs.foldl
    (fun bk sig =>
      (sig.bands.enum).foldl
        (fun bk e => pushBucket bk (e.1, hashBand e.2) sig.snippetId) bk)
    []
  buckets.foldl
    (fun cands bucket =>
      if 1 < bucket.2.length then
        (PatternExtractor.allPairs bucket.2).foldl
          (fun cands pr =>
            addPair cands (if pr.1 < pr.2 then pr else (pr.2, pr.1)))
          cands
      else cands)
    []

/-- `sigMap.get` (`new Map(signatures.map(...))`, where a duplicate
snippet id would keep the last entry; ids are unique in every use).  A
missing id would make the source throw on `undefined`; the dummy record
keeps the function total and is never hit by the claims. -/
def lookupSig (sigs : List MinHashSignature) (sid : String) :
    MinHashSignature :=
  match sigs.find? (fun g => g.snippetId = sid) with
  | some g => g
  | none => ⟨[], [], ""⟩

/-- Adjacency update `similarityGraph.get(id)!.add(neighbor)`. -/
def addEdge (g : List (String × List String)) (sid nb : String) :
    List (String × List String) :=
  g.map (fun e =>
    if e.1 = sid then (e.1, PatternExtractor.addToSet e.2 nb) else e)

/-- Neighbor lookup `graph.get(id) || []`. -/
def adjOf (g : List (String × List String)) (sid : String) : List String :=
  match g.find? (fun e => e.1 = sid) with
  | some e => e.2
  | none => []

/-- The `while (stack.length > 0)` loop of `findConnectedComponent`
(`minhash.ts` lines 199-223).  The stack is a LIFO with its head on top
(JS `pop` takes the array's last element; pushing neighbors
`n₁, …, n_k` therefore makes `n_k` the next pop, i.e. the reversed
filtered adjacency list is consed on).  Each iteration pops one entry and
pushes at most one adjacency list, so
`fuel := 1 + stack + Σ |adjacency|` iterations always drain the stack;
`fuel` only cuts the loop short on inputs no caller produces. -/
def dfsLoop (g : List (String × List String)) :
    Nat → List String → List String → List String →
    List String × List String
  | 0, _, visited, component => (component, visited)
  | _ + 1, [], visited, component => (component, visited)
  | fuel + 1, sid :: stack, visited, component =>
    if sid ∈ visited then dfsLoop g fuel stack visited component
    else
      dfsLoop g fuel
        (((adjOf g sid).filter (· ∉ visited)).reverse ++ stack)
        (visited ++ [sid]) (component ++ [sid])

/-- `findConnectedComponent(startId, graph, visited)`: returns the
component and the grown visited set. -/
def findConnectedComponent (g : List (String × List String))
    (startId : String) (visited : List String) :
    List String × List String :=
  dfsLoop g (2 + (g.map (fun e => e.2.length)).sum) [startId] visited []

/-- `findCentroid(cluster, signatures)` (`minhash.ts` lines 228-252):
start from `cluster[0]` and `maxAvgSimilarity = 0`, replace whenever the
mean similarity to the other members is strictly larger.  For a singleton
the source divides by zero (`NaN`), the comparison `NaN > 0` is false and
the seed survives; here `0 > 0` is false likewise. -/
def candAvg (cluster : List String) (sigs : List MinHashSignature)
    (cand : String) : ℚ :=
  (cluster.foldl
    (fun t otherId =>
      if cand ≠ otherId then
        t + calculateSimilarity (lookupSig sigs cand) (lookupSig sigs otherId)
      else t)
    (0 : ℚ)) / ((cluster.length - 1 : Nat) : ℚ)

/-- One candidate comparison of `findCentroid`'s loop. -/
def centroidStep (cluster : List String) (sigs : List MinHashSignature)
    (st : String × ℚ) (cand : String) : String × ℚ :=
  if st.2 < candAvg cluster sigs cand then (cand, candAvg cluster sigs cand)
  else st

def findCentroid (cluster : List String) (sigs : List MinHashSignature) :
    String :=
  (cluster.foldl (centroidStep cluster sigs) (cluster.headD "", (0 : ℚ))).1

/-- `calculateClusterSimilarity` (`minhash.ts` lines 257-273): mean
pairwise similarity, `1.0` for clusters smaller than 2. -/
def calculateClusterSimilarity (cluster : List String)
    (sigs : List MinHashSignature) : ℚ :=
  if cluster.length < 2 then 1
  else
    let prs := PatternExtractor.allPairs cluster
    (prs.map (fun pr =>
      calculateSimilarity (lookupSig sigs pr.1) (lookupSig sigs pr.2))).sum /
      (prs.length : ℚ)

/-- The `CodeCluster` record of `src/core/types.ts` (first variant:
string centroid, similarity score, ISO timestamp). -/
structure CodeClusterSim where
  id : String
  snippets : List String
  centroid : String
  size : Nat
  similarity : ℚ
  patterns : List Pattern
  timestamp : String
deriving Repr, DecidableEq

/-- One iteration of the component loop of `clusterSnippets` (`minhash.ts`
lines 163-186): skip visited ids, otherwise take the connected component
and emit a cluster when it reaches `minClusterSize`. -/
def clusterStep (cfg : ClusteringConfig) (ts : String)
    (sigs : List MinHashSignature) (g : List (String × List String))
    (st : List String × List CodeClusterSim) (s : Snip) :
    List String × List CodeClusterSim :=
  if s.id ∈ st.1 then st
  else if cfg.minClusterSize ≤ (findConnectedComponent g s.id st.1).1.length
  then
    ((findConnectedComponent g s.id st.1).2,
     st.2 ++ [{ id := "cluster-" ++ toString st.2.length,
                snippets := (findConnectedComponent g s.id st.1).1,
                centroid := findCentroid (findConnectedComponent g s.id st.1).1
                  sigs,
                size := (findConnectedComponent g s.id st.1).1.length,
                similarity := calculateClusterSimilarity
                  (findConnectedComponent g s.id st.1).1 sigs,
                patterns := [], timestamp := ts }])
  else ((findConnectedComponent g s.id st.1).2, st.2)

/-- `clusterSnippets(snippets)` (`minhash.ts` lines 141-194): signatures,
candidate pairs, threshold-verified similarity graph, connected
components, and one cluster per component of size at least
`minClusterSize`; `ts` stands for `new Date().toISOString()`. -/
def clusterSnippets (hfs : List (String → Nat)) (cfg : ClusteringConfig)
    (ts : String) (snippets : List Snip) : List CodeClusterSim :=
  let signatures := snippets.map (generateSignature hfs cfg)
  let candidatePairs := findCandidatePairs signatures
  let graph0 := snippets.foldl
    (fun g s =>
      if (g.find? (fun e => e.1 = s.id)).isSome then g else g ++ [(s.id, [])])
    []
  let graph := candidatePairs.foldl
    (fun g pr =>
      let sig1 := lookupSig signatures pr.1
      let sig2 := lookupSig signatures pr.2
      if cfg.similarityThreshold ≤ calculateSimilarity sig1 sig2 then
        addEdge (addEdge g pr.1 pr.2) pr.2 pr.1
      else g)
    graph0
  (snippets.foldl (clusterStep cfg ts signatures graph) ([], [])).2

end MinHashClusterer

/-- The signature described by the spec (§4.4, *Signature generation*):
"Given a token list, form the set of 3-token contiguous shingles (ordered
tuples joined by space) … For each of K hash functions, hold the minimum
hash value seen across the shingle set."  Stated as the minimum over the
shingle list; `specShingleMin_set_insensitive` records that repetitions do
not move a minimum, so this is the minimum over the shingle *set*.
`none` is the empty-set minimum (the `Infinity` seed). -/
def specShingleMin (hfs : List (String → Nat)) (tokens : List String) :
    List (Option Nat) :=
  hfs.map (fun hf => ((MinHashClusterer.generateShingles tokens 3).map hf).min?)

/-! ## Clusterer (the unnamed module `part_005`)

The second clusterer, used by `CodeCollage.index()`.  Its clusters carry
an *averaged* MinHash vector as centroid and it emits singleton clusters
for everything left unclustered. -/

namespace Clusterer

/-- The `CodeCluster` record of `src/core/types.ts` (second variant:
`centroid: number[]`).  The averaged entries are exact rationals. -/
structure CodeClusterAvg where
  id : String
  snippets : List String
  centroid : List ℚ
  size : Nat
  patterns : List String
  languages : List String
  timestamp : Nat
deriving Repr, DecidableEq

/-- `computeCentroid(snippets)` (`part_005` lines 95-112): the arithmetic
mean of the members' `minHashes`, position by position, over the length of
the first member's signature.  (A member with a shorter signature would
make the source produce `NaN`; every claim exercises equal lengths, where
`getD` never falls back.) -/
def computeCentroid (snips : List Snip) : List ℚ :=
  match snips with
  | [] => []
  | s0 :: _ =>
    (List.range s0.minHashes.length).map (fun i =>
      ((snips.map (fun s => (s.minHashes.getD i 0 : ℚ))).sum) /
        (snips.length : ℚ))

/-- `createCluster(snippetIds, allSnippets)` (`part_005` lines 69-90);
`cid` stands for `generateClusterId()`. -/
def createCluster (cid : String) (snippetIds : List String)
    (allSnippets : List Snip) (ts : Nat) : CodeClusterAvg :=
  let clusterSnips := snippetIds.filterMap
    (fun sid => allSnippets.find? (fun s => s.id = sid))
  { id := cid,
    snippets := snippetIds,
    centroid := computeCentroid clusterSnips,
    size := snippetIds.length,
    patterns := (clusterSnips.map (·.patterns)).flatten.foldl
      PatternExtractor.addToSet [],
    languages := (clusterSnips.map (·.language)).foldl
      PatternExtractor.addToSet [],
    timestamp := ts }

/-- `clusterSnippets(snippets)` (`part_005` lines 16-64): greedy LSH
grouping — for each unclustered snippet take the candidates above
`clusterThreshold` as one cluster when at least one joins; afterwards a
singleton cluster for every snippet still unclustered (the second loop
does not mark anything clustered, as in the source).  `mkId n` stands for
the `generateClusterId()` of the `n`-th created cluster. -/
def clusterSnippets (cfg : Config) (mkId : Nat → String) (ts : Nat)
    (snippets : List Snip) : List CodeClusterAvg :=
  let buckets := snippets.foldl (fun b s => MinHashLSH.addSnippet cfg b s) []
  let grouped := snippets.foldl
    (fun (st : List String × List CodeClusterAvg) s =>
      if s.id ∈ st.1 then st
      else
        let candidates := MinHashLSH.findCandidates cfg buckets s
        let similar := candidates.foldl
          (fun acc cid =>
            if cid ∈ st.1 then acc
            else
              match snippets.find? (fun c => c.id = cid) with
              | none => acc
              | some cand =>
                if cfg.clusterThreshold ≤
                    MinHashLSH.calculateSimilarity s.minHashes cand.minHashes
                then acc ++ [cid]
                else acc)
          [s.id]
        if 1 < similar.length then
          (st.1 ++ similar,
           st.2 ++ [createCluster (mkId st.2.length) similar snippets ts])
        else st)
    ([], [])
  snippets.foldl
    (fun (cl : List CodeClusterAvg) s =>
      if s.id ∈ grouped.1 then cl
      else cl ++ [createCluster (mkId cl.length) [s.id] snippets ts])
    grouped.2

end Clusterer

/-! ## Concrete fixtures used by witnesses and counterexamples -/

/-- A snippet whose token list holds the same 3-gram (`aa bb aa`) twice:
tokens of the content `aa bb aa bb aa`.  (None of the structural regexes
matches this content, so its `extractStructuralPatterns` result is
empty.) -/
def c1Snip : Snip :=
  { id := "s1", content := "aa bb aa bb aa", language := "javascript",
    filename := "a.js", hash := "h1", minHashes := [],
    tokens := ["aa", "bb", "aa", "bb", "aa"], patterns := [], timestamp := 0 }

/-- A lone snippet for the `Clusterer` counterexample; its MinHash
signature `[5, 7]` is the data the averaged centroid is built from. -/
def c2Snip : Snip :=
  { id := "s1", content := "aa bb", language := "javascript",
    filename := "a.js", hash := "h1", minHashes := [5, 7],
    tokens := ["aa", "bb"], patterns := [], timestamp := 0 }

/-- Two identical snippets for the `MinHashClusterer` witness. -/
def c2SnipA : Snip :=
  { id := "s1", content := "aa bb", language := "javascript",
    filename := "a.js", hash := "h1", minHashes := [],
    tokens := ["aa", "bb"], patterns := [], timestamp := 0 }

def c2SnipB : Snip :=
  { id := "s2", content := "aa bb", language := "javascript",
    filename := "b.js", hash := "h1", minHashes := [],
    tokens := ["aa", "bb"], patterns := [], timestamp := 0 }

/-- The clustering configuration `indexCommand` builds (`part_006`):
bands 20, rows 5, similarity threshold 0.7, `minClusterSize` 2. -/
def c2Cfg : ClusteringConfig :=
  { minhashBands := 20, minhashRows := 5, similarityThreshold := 7/10,
    minClusterSize := 2 }

/-- The cluster `MinHashClusterer.clusterSnippets` produces from the two
identical snippets above (both signatures are the seed `[Infinity]` under
a one-function hash family, so they land in one bucket and their
similarity is `1`). -/
def c2Cluster : MinHashClusterer.CodeClusterSim :=
  { id := "cluster-0", snippets := ["s1", "s2"], centroid := "s1",
    size := 2, similarity := 1, patterns := [], timestamp := "t" }

/-- Two snippets with identical content hash and MinHash vector but
distinct ids, exercising the exact-hash branch of `deduplicate`. -/
def c6SnipA : Snip :=
  { id := "d1", content := "aa bb", language := "javascript",
    filename := "a.js", hash := "hdup", minHashes := [3, 4],
    tokens := ["aa", "bb"], patterns := [], timestamp := 0 }

def c6SnipB : Snip :=
  { id := "d2", content := "aa bb", language := "javascript",
    filename := "b.js", hash := "hdup", minHashes := [3, 4],
    tokens := ["aa", "bb"], patterns := [], timestamp := 1 }

/-! ## Auxiliary predicates for the idempotence analysis of
`Tokenizer.normalize` (claim C7)

`fixedQ q z` mirrors the scanner `removeStrings q` and characterises its
fixpoints: every quote reached by the scan either opens an immediately
closed (empty) literal or has no reachable close.  `noAdjP P z` forbids
adjacent character pairs satisfying `P`; it instantiates both to
"no two adjacent whitespace characters" and to "no `--` occurrence". -/

def fixedQ (q : Char) : List Char → Bool
  | [] => true
  | c :: t =>
    if c = q then
      match t with
      | [] => true
      | d :: v =>
        if d = q then fixedQ q v
        else decide (Tokenizer.findClose q (d :: v) = none) &&
          fixedQ q (d :: v)
    else fixedQ q t
  termination_by z => z.length
  decreasing_by
    all_goals ((try simp only [List.length_cons]); omega)

def noAdjP (P : Char → Char → Bool) : List Char → Bool
  | [] => true
  | [_] => true
  | a :: b :: t => !(P a b) && noAdjP P (b :: t)

/-- Both characters whitespace (the pair `squashWS` must not leave). -/
def wsPair (a b : Char) : Bool := Tokenizer.isWS a && Tokenizer.isWS b

/-- Both characters `-` (the pair the `sql` line-comment marker matches). -/
def ddPair (a b : Char) : Bool := a = '-' && b = '-'

/-- Every whitespace character is a plain space. -/
def wsOnlySpace (z : List Char) : Bool :=
  z.all (fun c => !Tokenizer.isWS c || c = ' ')

def headNotWS (z : List Char) : Bool :=
  match z.head? with
  | none => true
  | some c => !Tokenizer.isWS c

def lastNotWS (z : List Char) : Bool :=
  match z.getLast? with
  | none => true
  | some c => !Tokenizer.isWS c

/-- The shape `collapseWS` leaves behind: all-space whitespace, no two
adjacent whitespace characters, none at either end. -/
def collapsedB (z : List Char) : Bool :=
  wsOnlySpace z && noAdjP wsPair z && headNotWS z && lastNotWS z

/-! # Theorems settling the claims -/

/-! ## C10 — `ingestFile` skips files longer than 100000 characters -/

/-- **C10.** For every readable file whose decoded content is longer than
100000 characters, `ingestFile` returns `null` (the file produces no
snippet and is counted as skipped), even when the file's language is
supported. -/
theorem c10_ingestFile_skips_large_files
    (hfs : List (String → Nat)) (H : String → String) (newId : String)
    (ts : Nat) (filepath content : String)
    (h : 100000 < content.length) :
    CodeCollageClass.ingestFile hfs H newId ts filepath content = none := by
  simp only [CodeCollageClass.ingestFile]
  rw [if_pos (Or.inr h)]

/-- Witness for C10: a 100001-character TypeScript file (`big.ts`, a
supported language) is skipped. -/
theorem c10_ingestFile_skips_large_files_witness :
    100000 < (String.mk (List.replicate 100001 'a')).length ∧
      CodeCollageClass.ingestFile [] (fun s => s) "id0" 0 "big.ts"
        (String.mk (List.replicate 100001 'a')) = none := by
  have hlen : (String.mk (List.replicate 100001 'a')).length = 100001 := by
    show (List.replicate 100001 'a').length = 100001
    exact List.length_replicate 100001 'a'
  refine ⟨by omega, ?_⟩
  exact c10_ingestFile_skips_large_files [] (fun s => s) "id0" 0 "big.ts" _
    (by omega)

/-! ## C9 — unknown extensions and content-free language detection -/

/-- **C9, counterexample.**  The claim says detection of an unmapped
extension yields the tag `unknown`; `Tokenizer.detectLanguage` (one of the
two cited implementations) yields `'text'` instead. -/
theorem c9_counterexample :
    Tokenizer.detectLanguage "file.xyz" none = "text" ∧
      Tokenizer.detectLanguage "file.xyz" none ≠ "unknown" := by
  constructor <;> decide

/-- **C9, amended.**  Language detection depends only on the filename's
extension, never on the content: `Tokenizer.detectLanguage` ignores its
`content` argument entirely and returns `'text'` (not `'unknown'`) when
the extension is not in its table, while `CodeTokenizer.detectLanguage`
(which takes no content at all) returns `'unknown'` when the extension is
not in its map. -/
theorem c9_detectLanguage_extension_only :
    (∀ filename c1 c2,
      Tokenizer.detectLanguage filename c1 = Tokenizer.detectLanguage filename c2)
    ∧ (∀ filename content,
        (∀ e ∈ Tokenizer.extensionTable, e.1 ≠ Tokenizer.extOf filename) →
          Tokenizer.detectLanguage filename content = "text")
    ∧ (∀ filepath,
        (∀ e ∈ CodeTokenizer.langMap, e.1 ≠ CodeTokenizer.extOf filepath) →
          CodeTokenizer.detectLanguage filepath = "unknown") := by
  refine ⟨fun _ _ _ => rfl, fun filename content h => ?_, fun filepath h => ?_⟩
  · simp only [Tokenizer.detectLanguage]
    rw [List.find?_eq_none.mpr (by intro e he; simpa using h e he)]
  · simp only [CodeTokenizer.detectLanguage]
    rw [List.find?_eq_none.mpr (by intro e he; simpa using h e he)]

/-- Witness for C9 (amended): the unmapped extension `xyz`. -/
theorem c9_detectLanguage_extension_only_witness :
    Tokenizer.detectLanguage "file.xyz" (some "function f() 0") = "text" ∧
      CodeTokenizer.detectLanguage "file.xyz" = "unknown" :=
  ⟨c9_detectLanguage_extension_only.2.1 "file.xyz" (some "function f() 0")
      (by decide),
   c9_detectLanguage_extension_only.2.2 "file.xyz" (by decide)⟩

/-! ## Signature lemmas shared by C4 and C8 -/

theorem jsMin_foldl_some (hf : String → Nat) :
    ∀ (l : List String) (v : Nat),
      l.foldl (fun m x => MinHashLSH.jsMin m (hf x)) (some v) =
        some ((l.map hf).foldl min v) := by
  intro l
  induction l with
  | nil => intro v; rfl
  | cons a l ih =>
    intro v
    simp only [List.foldl_cons, List.map_cons, MinHashLSH.jsMin]
    exact ih (min v (hf a))

/-- The `Infinity`-seeded JS minimum fold is `List.min?` of the hashed
values. -/
theorem jsMin_foldl_none (hf : String → Nat) (l : List String) :
    l.foldl (fun m x => MinHashLSH.jsMin m (hf x)) none =
      (l.map hf).min? := by
  cases l with
  | nil => rfl
  | cons a l =>
    simp only [List.foldl_cons, List.map_cons]
    rw [show MinHashLSH.jsMin none (hf a) = some (hf a) from rfl]
    rw [jsMin_foldl_some]
    rfl

theorem zipWith_jsMin_map (hfs : List (String → Nat))
    (g : (String → Nat) → Option Nat) (sh : String) :
    List.zipWith (fun m hf => MinHashLSH.jsMin m (hf sh)) (hfs.map g) hfs =
      hfs.map (fun hf => MinHashLSH.jsMin (g hf) (hf sh)) := by
  induction hfs with
  | nil => rfl
  | cons hf hfs ih => simp only [List.map_cons, List.zipWith_cons_cons, ih]

/-- The elementwise signature fold computes, per hash function, the fold
over the shingles. -/
theorem signature_fold_transpose (hfs : List (String → Nat)) :
    ∀ (shs : List String) (g : (String → Nat) → Option Nat),
      shs.foldl
        (fun sig sh =>
          List.zipWith (fun m hf => MinHashLSH.jsMin m (hf sh)) sig hfs)
        (hfs.map g) =
      hfs.map (fun hf =>
        shs.foldl (fun m sh => MinHashLSH.jsMin m (hf sh)) (g hf)) := by
  intro shs
  induction shs with
  | nil => intro g; rfl
  | cons sh shs ih =>
    intro g
    simp only [List.foldl_cons]
    rw [zipWith_jsMin_map]
    exact ih (fun hf => MinHashLSH.jsMin (g hf) (hf sh))

theorem signatureFromTokens_eq_spec (hfs : List (String → Nat))
    (tokens : List String) :
    MinHashClusterer.signatureFromTokens hfs tokens =
      specShingleMin hfs tokens := by
  unfold MinHashClusterer.signatureFromTokens specShingleMin
  rw [signature_fold_transpose hfs _ (fun _ => none)]
  apply List.map_congr_left
  intro hf _
  exact jsMin_foldl_none hf _

theorem computeMinHash_characterised (hfs : List (String → Nat))
    (tokens : List String) :
    MinHashLSH.computeMinHash hfs tokens =
      hfs.map (fun hf =>
        (((MinHashLSH.tokenSetList tokens).map hf).min?).getD 0) := by
  unfold MinHashLSH.computeMinHash
  apply List.map_congr_left
  intro hf _
  rw [jsMin_foldl_none hf]
  cases ((MinHashLSH.tokenSetList tokens).map hf).min? <;> rfl

/-- A minimum over a `Nat` list depends only on membership: repeated
elements do not move it (so the minima over a shingle/token *list* and
over the corresponding *set* agree). -/
theorem nat_min?_congr {l1 l2 : List Nat} (h : ∀ x, x ∈ l1 ↔ x ∈ l2) :
    l1.min? = l2.min? := by
  have hiff : ∀ (a : Nat) (m1 m2 : List Nat), (∀ x, x ∈ m1 ↔ x ∈ m2) →
      m1.min? = some a → m2.min? = some a := by
    intro a m1 m2 hm h1
    have hsome := (List.min?_eq_some_iff (fun x => le_refl x)
      (fun x y => min_choice x y) (fun x y z => le_min_iff)).mp h1
    cases hm2 : m2.min? with
    | none =>
      rw [List.min?_eq_none_iff] at hm2
      have := (hm a).mp hsome.1
      simp [hm2] at this
    | some b =>
      have hsomeb := (List.min?_eq_some_iff (fun x => le_refl x)
        (fun x y => min_choice x y) (fun x y z => le_min_iff)).mp hm2
      have hab : a ≤ b := hsome.2 b ((hm b).mpr hsomeb.1)
      have hba : b ≤ a := hsomeb.2 a ((hm a).mp hsome.1)
      rw [Nat.le_antisymm hba hab]
  cases h1 : l1.min? with
  | none =>
    cases h2 : l2.min? with
    | none => rfl
    | some b =>
      have hb := hiff b l2 l1 (fun x => (h x).symm) h2
      rw [h1] at hb
      cases hb
  | some a => exact (hiff a l1 l2 h h1).symm

theorem mem_tokenSetList_aux (x : String) :
    ∀ (l acc : List String),
      (x ∈ l.foldl PatternExtractor.addToSet acc ↔ x ∈ l ∨ x ∈ acc) := by
  intro l
  induction l with
  | nil => intro acc; simp
  | cons a l ih =>
    intro acc
    simp only [List.foldl_cons]
    rw [ih]
    unfold PatternExtractor.addToSet
    by_cases ha : a ∈ acc
    · simp only [if_pos ha]
      constructor
      · rintro (h | h)
        · exact Or.inl (by simp [h])
        · exact Or.inr h
      · rintro (h | h)
        · rcases List.mem_cons.mp h with rfl | h'
          · exact Or.inr ha
          · exact Or.inl h'
        · exact Or.inr h
    · simp only [if_neg ha]
      constructor
      · rintro (h | h)
        · exact Or.inl (by simp [h])
        · rcases List.mem_append.mp h with h' | h'
          · exact Or.inr h'
          · simp only [List.mem_singleton] at h'
            exact Or.inl (by simp [h'])
      · rintro (h | h)
        · rcases List.mem_cons.mp h with rfl | h'
          · exact Or.inr (by simp)
          · exact Or.inl h'
        · exact Or.inr (by simp [h])

/-- Membership in the JS-`Set` model is membership in the original list. -/
theorem mem_tokenSetList (x : String) (l : List String) :
    x ∈ MinHashLSH.tokenSetList l ↔ x ∈ l := by
  unfold MinHashLSH.tokenSetList
  rw [mem_tokenSetList_aux]
  simp

/-- The spec speaks of the minimum over the shingle *set*; the embedded
minimum over the shingle list is the same value. -/
theorem specShingleMin_set_insensitive (hfs : List (String → Nat))
    (tokens : List String) :
    specShingleMin hfs tokens =
      hfs.map (fun hf =>
        ((MinHashLSH.tokenSetList
          (MinHashClusterer.generateShingles tokens 3)).map hf).min?) := by
  unfold specShingleMin
  apply List.map_congr_left
  intro hf _
  apply nat_min?_congr
  intro v
  constructor
  · intro hv
    rcases List.mem_map.mp hv with ⟨s, hs, rfl⟩
    exact List.mem_map.mpr ⟨s, (mem_tokenSetList s _).mpr hs, rfl⟩
  · intro hv
    rcases List.mem_map.mp hv with ⟨s, hs, rfl⟩
    exact List.mem_map.mpr ⟨s, (mem_tokenSetList s _).mp hs, rfl⟩

/-! ## C1 — pattern frequencies -/

/-- Total number of occurrences of `key` over all snippets (a snippet
holding `key` several times contributes each occurrence). -/
def keyOcc (keysOf : Snip → List String) (snips : List Snip) (key : String) :
    Nat :=
  (snips.map (fun s => (keysOf s).count key)).sum

/-- Count held by the map for `key` (`0` when absent; the first entry
wins, and `buildCounts` keeps keys unique). -/
def lookCount : List (String × PatternExtractor.NGData) → String → Nat
  | [], _ => 0
  | e :: rest, key => if e.1 = key then e.2.count else lookCount rest key

theorem lookCount_bumpEntry (m : List (String × PatternExtractor.NGData))
    (key sid lang k : String) :
    lookCount (PatternExtractor.bumpEntry m key sid lang) k =
      lookCount m k + (if k = key then 1 else 0) := by
  induction m with
  | nil =>
    by_cases h : k = key
    · subst h; simp [PatternExtractor.bumpEntry, lookCount]
    · have h' : ¬ key = k := fun hh => h hh.symm
      simp [PatternExtractor.bumpEntry, lookCount, h, h']
  | cons e rest ih =>
    by_cases h0 : e.1 = key
    · rw [PatternExtractor.bumpEntry, if_pos h0]
      by_cases hk : e.1 = k
      · have hkey : k = key := hk ▸ h0
        simp [lookCount, hk, hkey]
      · have hne : ¬ k = key := fun hh => hk (h0.trans hh.symm)
        simp [lookCount, hk, hne]
    · rw [PatternExtractor.bumpEntry, if_neg h0]
      by_cases hk : e.1 = k
      · have hne : ¬ k = key := fun hh => h0 (hk.trans hh)
        simp [lookCount, hk, hne]
      · simp [lookCount, hk, ih]

theorem lookCount_foldKeys (sid lang k : String) :
    ∀ (keys : List String) (m : List (String × PatternExtractor.NGData)),
      lookCount
          (keys.foldl (fun m key => PatternExtractor.bumpEntry m key sid lang) m)
          k =
        lookCount m k + keys.count k := by
  intro keys
  induction keys with
  | nil => intro m; simp
  | cons key keys ih =>
    intro m
    simp only [List.foldl_cons]
    rw [ih, lookCount_bumpEntry, List.count_cons]
    by_cases h : k = key
    · simp only [h, if_pos rfl]
      simp
      omega
    · have h' : ¬ (key == k) = true := by
        simpa using fun hh => h hh.symm
      simp [h, h']

/-- The count stored for any key equals the total occurrence count over
the processed snippets. -/
theorem lookCount_buildCounts (keysOf : Snip → List String) (k : String) :
    ∀ (snips : List Snip) (m : List (String × PatternExtractor.NGData)),
      lookCount
          (snips.foldl
            (fun m s =>
              (keysOf s).foldl
                (fun m key => PatternExtractor.bumpEntry m key s.id s.language) m)
            m) k =
        lookCount m k + keyOcc keysOf snips k := by
  intro snips
  induction snips with
  | nil => intro m; simp [keyOcc]
  | cons s snips ih =>
    intro m
    simp only [List.foldl_cons]
    rw [ih, lookCount_foldKeys]
    simp only [keyOcc, List.map_cons, List.sum_cons]
    omega

/-- The key list of the map after a `bumpEntry`: unchanged when the key is
present, the new key appended otherwise. -/
theorem keys_bumpEntry (m : List (String × PatternExtractor.NGData))
    (key sid lang : String) :
    (PatternExtractor.bumpEntry m key sid lang).map (fun e => e.1) =
      (if key ∈ m.map (fun e => e.1) then m.map (fun e => e.1)
       else m.map (fun e => e.1) ++ [key]) := by
  induction m with
  | nil => simp [PatternExtractor.bumpEntry]
  | cons e rest ih =>
    by_cases h0 : e.1 = key
    · rw [PatternExtractor.bumpEntry, if_pos h0]
      simp [h0]
    · rw [PatternExtractor.bumpEntry, if_neg h0]
      have h0' : ¬ key = e.1 := fun hh => h0 hh.symm
      simp only [List.map_cons, List.mem_cons, h0', false_or]
      rw [ih]
      split <;> simp

/-- `bumpEntry` keeps the keys duplicate-free. -/
theorem nodup_keys_bumpEntry {m : List (String × PatternExtractor.NGData)}
    (h : (m.map (fun e => e.1)).Nodup) (key sid lang : String) :
    ((PatternExtractor.bumpEntry m key sid lang).map (fun e => e.1)).Nodup := by
  rw [keys_bumpEntry]
  split
  · exact h
  · rename_i hnot
    simp only [List.nodup_append, List.nodup_cons]
    refine ⟨h, by simp, ?_⟩
    intro a ha hb
    simp only [List.mem_singleton] at hb
    exact hnot (hb ▸ ha)

theorem nodup_keys_buildCounts (keysOf : Snip → List String) :
    ∀ (snips : List Snip) (m : List (String × PatternExtractor.NGData)),
      (m.map (fun e => e.1)).Nodup →
      ((snips.foldl
          (fun m s =>
            (keysOf s).foldl
              (fun m key => PatternExtractor.bumpEntry m key s.id s.language) m)
          m).map (fun e => e.1)).Nodup := by
  have hkeys : ∀ (keys : List String) (sid lang : String)
      (m : List (String × PatternExtractor.NGData)),
      (m.map (fun e => e.1)).Nodup →
      ((keys.foldl (fun m key => PatternExtractor.bumpEntry m key sid lang)
        m).map (fun e => e.1)).Nodup := by
    intro keys
    induction keys with
    | nil => intro sid lang m h; simpa using h
    | cons key keys ih =>
      intro sid lang m h
      simp only [List.foldl_cons]
      exact ih sid lang _ (nodup_keys_bumpEntry h key sid lang)
  intro snips
  induction snips with
  | nil => intro m h; simpa using h
  | cons s snips ih =>
    intro m h
    simp only [List.foldl_cons]
    exact ih _ (hkeys _ s.id s.language m h)

/-- With duplicate-free keys, membership determines the stored count. -/
theorem lookCount_of_mem :
    ∀ {m : List (String × PatternExtractor.NGData)}
      {e : String × PatternExtractor.NGData},
      (m.map (fun x => x.1)).Nodup → e ∈ m → lookCount m e.1 = e.2.count := by
  intro m
  induction m with
  | nil => intro e _ he; cases he
  | cons e0 rest ih =>
    intro e hnd he
    simp only [List.map_cons, List.nodup_cons] at hnd
    rcases List.mem_cons.mp he with rfl | hrest
    · simp [lookCount]
    · have hne : ¬ e0.1 = e.1 := by
        intro hh
        exact hnd.1 (hh ▸ List.mem_map.mpr ⟨e, hrest, rfl⟩)
      simp only [lookCount, if_neg hne]
      exact ih hnd.2 hrest

/-- Frequency semantics of the shared map-and-emit logic: the emitted
frequency is the total occurrence count of the pattern's content. -/
theorem countPatterns_frequency (ptype : String) (keysOf : Snip → List String)
    (snips : List Snip) (p : Pattern)
    (hp : p ∈ PatternExtractor.countPatterns ptype keysOf snips) :
    p.frequency = keyOcc keysOf snips p.content ∧ 2 ≤ p.frequency := by
  unfold PatternExtractor.countPatterns at hp
  rcases List.mem_map.mp hp with ⟨e, he, rfl⟩
  rcases List.mem_filter.mp he with ⟨hmem, hcnt⟩
  simp only [decide_eq_true_eq] at hcnt
  refine ⟨?_, hcnt⟩
  unfold PatternExtractor.buildCounts at hmem
  have hnd := nodup_keys_buildCounts keysOf snips [] (by simp)
  have h1 := lookCount_of_mem hnd hmem
  have h2 := lookCount_buildCounts keysOf e.1 snips []
  simp only [lookCount] at h2
  rw [h2] at h1
  show e.2.count = keyOcc keysOf snips e.1
  omega

theorem lcs_fold_freq :
    ∀ (prs : List (Snip × Snip)) (st : List String × List Pattern),
      (∀ p ∈ st.2, p.frequency = 2 ∧ p.snippets.length = 2) →
      ∀ p ∈ (prs.foldl PatternExtractor.lcsStep st).2,
        p.frequency = 2 ∧ p.snippets.length = 2 := by
  intro prs
  induction prs with
  | nil => intro st h; simpa using h
  | cons pr prs ih =>
    intro st h
    simp only [List.foldl_cons]
    apply ih
    unfold PatternExtractor.lcsStep
    split
    · exact h
    · intro p hp
      simp only at hp
      split at hp
      · rcases List.mem_append.mp hp with hp' | hp'
        · exact h p hp'
        · simp only [List.mem_singleton] at hp'
          subst hp'
          exact ⟨rfl, rfl⟩
      · exact h p hp

/-! ## C1 — pattern frequency versus snippet-set size -/

/-- **C1, counterexample.**  The claim says an ngram pattern's `frequency`
equals the number of distinct snippet ids in its snippet set.  One snippet
containing the 3-gram `aa bb aa` twice makes the extractor emit that
pattern with `frequency = 2` but a snippet set of size 1 — one snippet
contributes its repeated occurrences, not 1. -/
theorem c1_counterexample :
    ∃ p ∈ PatternExtractor.extractPatterns DEFAULT_CONFIG (fun _ => [])
        [c1Snip],
      p.type = "ngram" ∧ p.frequency = 2 ∧ p.snippets.length = 1 ∧
        p.frequency ≠ p.snippets.length := by decide

/-- **C1, amended.**  For every emitted ngram or ast pattern the
`frequency` field is the *total occurrence count* of the pattern's content
over all snippets — a snippet containing the same n-gram or structural
form `k` times contributes `k`, so `frequency` can exceed the snippet-set
size — and `frequency ≥ 2` (the emission filter); the frequency of every
LCS pattern is `2` and its snippet list has exactly the two paired
snippet ids. -/
theorem c1_pattern_frequency :
    (∀ (cfg : Config) (snips : List Snip) (p : Pattern),
      p ∈ PatternExtractor.extractNGramPatterns cfg snips →
        p.frequency = keyOcc (PatternExtractor.ngramKeys cfg) snips p.content ∧
          2 ≤ p.frequency)
    ∧ (∀ (structuresOf : Snip → List String) (snips : List Snip) (p : Pattern),
        p ∈ PatternExtractor.extractASTPatterns structuresOf snips →
          p.frequency = keyOcc structuresOf snips p.content ∧ 2 ≤ p.frequency)
    ∧ (∀ (snips : List Snip) (p : Pattern),
        p ∈ PatternExtractor.extractLCSPatterns snips →
          p.frequency = 2 ∧ p.snippets.length = 2) := by
  refine ⟨?_, ?_, ?_⟩
  · intro cfg snips p hp
    exact countPatterns_frequency _ _ snips p hp
  · intro structuresOf snips p hp
    exact countPatterns_frequency _ _ snips p hp
  · intro snips p hp
    exact lcs_fold_freq _ ([], []) (by intro q hq; cases hq) p hp

/-- Witness for C1 (amended): the counterexample snippet's ngram pattern,
with its frequency equal to the occurrence count `2`. -/
theorem c1_pattern_frequency_witness :
    ({ type := "ngram", content := "aa bb aa", frequency := 2,
       snippets := ["s1"], languages := ["javascript"] } : Pattern) ∈
        PatternExtractor.extractNGramPatterns DEFAULT_CONFIG [c1Snip] ∧
      (2 = keyOcc (PatternExtractor.ngramKeys DEFAULT_CONFIG) [c1Snip]
          "aa bb aa" ∧ 2 ≤ 2) :=
  ⟨by decide,
   by
    have h := c1_pattern_frequency.1 DEFAULT_CONFIG [c1Snip]
      { type := "ngram", content := "aa bb aa", frequency := 2,
        snippets := ["s1"], languages := ["javascript"] } (by decide)
    simpa using h⟩

/-! ## C4 — what the two signature generators actually hash -/

/-- **C4, counterexample.**  The claim says *the* MinHash signature is the
per-function minimum over the 3-token shingle set.  `computeMinHash` (the
`MinHashLSH` implementation, one of the cited code places) hashes the raw
*token* set and never forms shingles: on the token list
`["aa","bb","cc","dd"]` with the hash-family member `a = 1, b = 0` its
single entry differs from the shingle-set minimum the claim requires. -/
theorem c4_counterexample :
    MinHashLSH.computeMinHash [MinHashLSH.hashFun 1 0]
        ["aa", "bb", "cc", "dd"] ≠
      (specShingleMin [MinHashLSH.hashFun 1 0] ["aa", "bb", "cc", "dd"]).map
        (fun v => v.getD 0) := by decide

/-- **C4, amended.**  `MinHashClusterer.generateSignature`'s fold computes
exactly the spec's signature — position `i` is the minimum of hash
function `i` over the 3-token-shingle set (`Infinity`, i.e. `none`, when
there are no shingles) — while `MinHashLSH.computeMinHash` instead takes
each hash function's minimum over the raw token set, substituting `0`
when the token set is empty. -/
theorem c4_signature_characterised :
    (∀ (hfs : List (String → Nat)) (tokens : List String),
      MinHashClusterer.signatureFromTokens hfs tokens =
        specShingleMin hfs tokens)
    ∧ (∀ (hfs : List (String → Nat)) (tokens : List String),
        MinHashLSH.computeMinHash hfs tokens =
          hfs.map (fun hf =>
            (((MinHashLSH.tokenSetList tokens).map hf).min?).getD 0)) :=
  ⟨signatureFromTokens_eq_spec, computeMinHash_characterised⟩

/-! ## C8 — signature length and the small-token-list sentinel -/

/-- **C8, counterexample.**  The claim says a token list with fewer than 3
tokens yields a signature whose every entry is the sentinel value.
`computeMinHash` (cited) only emits its sentinel `0` for an *empty* token
list: on the one-token list `["ab"]` (fewer than 3 tokens) the entry is
the token's hash `3105`, not the implementation's own sentinel `0`
(visible as the entry for the empty list). -/
theorem c8_counterexample :
    (["ab"] : List String).length < 3 ∧
      MinHashLSH.computeMinHash [MinHashLSH.hashFun 1 0] ["ab"] = [3105] ∧
      MinHashLSH.computeMinHash [MinHashLSH.hashFun 1 0] [] = [0] ∧
      (3105 : Nat) ≠ 0 := by
  refine ⟨by decide, by decide, by decide, by decide⟩

/-- **C8, amended.**  Both signature functions are total and always return
a signature of length `hashFunctions.length` (the family is constructed
with `bands × rows` members).  `generateSignature`'s fold yields the
all-`Infinity` (`none`) sentinel vector whenever the token list has fewer
than 3 tokens (empty shingle set); `computeMinHash` yields its all-`0`
sentinel vector only for the *empty* token list. -/
theorem c8_signature_length_and_sentinel :
    (∀ (hfs : List (String → Nat)) (tokens : List String),
      (MinHashClusterer.signatureFromTokens hfs tokens).length = hfs.length ∧
        (tokens.length < 3 →
          MinHashClusterer.signatureFromTokens hfs tokens =
            hfs.map (fun _ => none)))
    ∧ (∀ (hfs : List (String → Nat)) (tokens : List String),
        (MinHashLSH.computeMinHash hfs tokens).length = hfs.length ∧
          (tokens = [] →
            MinHashLSH.computeMinHash hfs tokens = hfs.map (fun _ => 0))) := by
  constructor
  · intro hfs tokens
    constructor
    · rw [signatureFromTokens_eq_spec]
      simp [specShingleMin]
    · intro h
      unfold MinHashClusterer.signatureFromTokens
      rw [show MinHashClusterer.generateShingles tokens 3 = [] by
        unfold MinHashClusterer.generateShingles
        rw [if_pos h]]
      rfl
  · intro hfs tokens
    constructor
    · simp [MinHashLSH.computeMinHash]
    · rintro rfl
      rfl

/-- Witness for C8 (amended): one-function family, a one-token list for
the `generateSignature` branch and the empty list for `computeMinHash`. -/
theorem c8_signature_length_and_sentinel_witness :
    MinHashClusterer.signatureFromTokens [MinHashLSH.hashFun 1 0] ["ab"] =
        [none] ∧
      MinHashLSH.computeMinHash [MinHashLSH.hashFun 1 0] [] = [0] :=
  ⟨(c8_signature_length_and_sentinel.1 [MinHashLSH.hashFun 1 0] ["ab"]).2
      (by decide),
   (c8_signature_length_and_sentinel.2 [MinHashLSH.hashFun 1 0] []).2 rfl⟩

/-! ## C3 — a malformed line empties the whole scan -/

/-- **C3.**  The claim (and the spec's stated policy) says a scan skips
each malformed line and returns the remaining well-formed records.  The
code wraps the whole `lines.map(JSON.parse)` in one `try … catch { return
[] }` (its `catch` comment says it is for a missing file), so the first
malformed line throws away *every* record: on a log holding two decodable
lines around one undecodable line, both readers return `[]` instead of the
two records — while without the malformed line the same content decodes to
exactly the two records. -/
theorem c3_scan_drops_all_records {α : Type} (parse : String → Option α)
    (r1 r3 : α)
    (h1 : parse "rec-a" = some r1) (h2 : parse "not json" = none)
    (h3 : parse "rec-b" = some r3) :
    JSONLStorage.loadJSONL parse "rec-a\nnot json\nrec-b" = [] ∧
    JSONLStorage.readSnippets parse "rec-a\nnot json\nrec-b" = [] ∧
    JSONLStorage.loadJSONL parse "rec-a\nrec-b" = [r1, r3] := by
  have hs1 : ((splitOnChar nl (Tokenizer.trimWS
      ("rec-a\nnot json\nrec-b" : String).data)).map String.mk).filter
        (fun l => l.length ≠ 0) = ["rec-a", "not json", "rec-b"] := by decide
  have hs2 : ((splitOnChar nl ("rec-a\nnot json\nrec-b" : String).data).map
      String.mk).filter
        (fun l => (Tokenizer.trimWS l.data).length ≠ 0) =
        ["rec-a", "not json", "rec-b"] := by decide
  have hs3 : ((splitOnChar nl (Tokenizer.trimWS
      ("rec-a\nrec-b" : String).data)).map String.mk).filter
        (fun l => l.length ≠ 0) = ["rec-a", "rec-b"] := by decide
  refine ⟨?_, ?_, ?_⟩
  · simp only [JSONLStorage.loadJSONL, hs1]
    simp [List.mapM, List.mapM.loop, h1, h2]
  · simp only [JSONLStorage.readSnippets, hs2]
    simp [List.mapM, List.mapM.loop, h1, h2]
  · simp only [JSONLStorage.loadJSONL, hs3]
    simp [List.mapM, List.mapM.loop, h1, h3]

/-- Witness for C3: a concrete decoder accepting exactly the two record
lines. -/
theorem c3_scan_drops_all_records_witness :
    JSONLStorage.loadJSONL
        (fun l => if l = "rec-a" then some 1 else
          if l = "rec-b" then some 2 else none)
        "rec-a\nnot json\nrec-b" = ([] : List Nat) ∧
      JSONLStorage.loadJSONL
        (fun l => if l = "rec-a" then some 1 else
          if l = "rec-b" then some 2 else none)
        "rec-a\nrec-b" = [1, 2] := by
  have h := c3_scan_drops_all_records
    (fun l => if l = "rec-a" then some 1 else
      if l = "rec-b" then some 2 else none)
    1 2 (by decide) (by decide) (by decide)
  exact ⟨h.1, h.2.2⟩

/-! ## C2 — cluster invariants: centroid membership and size -/

/-- The component list built by `dfsLoop` only grows: whatever is in
`component` on entry is in the returned component. -/
theorem dfsLoop_comp_subset (g : List (String × List String)) :
    ∀ (fuel : Nat) (stack visited comp : List String),
      comp ⊆ (MinHashClusterer.dfsLoop g fuel stack visited comp).1 := by
  intro fuel
  induction fuel with
  | zero =>
    intro stack visited comp
    simp [MinHashClusterer.dfsLoop]
  | succ fuel ih =>
    intro stack visited comp
    cases stack with
    | nil => simp [MinHashClusterer.dfsLoop]
    | cons sid stack =>
      rw [MinHashClusterer.dfsLoop]
      split
      · exact ih stack visited comp
      · refine List.Subset.trans ?_ (ih _ _ _)
        intro a ha
        exact List.mem_append_left _ ha

/-- A component search started at an unvisited id contains that id. -/
theorem findConnectedComponent_start_mem (g : List (String × List String))
    (startId : String) (visited : List String) (h : startId ∉ visited) :
    startId ∈ (MinHashClusterer.findConnectedComponent g startId visited).1 := by
  unfold MinHashClusterer.findConnectedComponent
  have hf : 2 + (g.map (fun e => e.2.length)).sum
      = (1 + (g.map (fun e => e.2.length)).sum) + 1 := by omega
  rw [hf]
  rw [MinHashClusterer.dfsLoop]
  rw [if_neg h]
  exact dfsLoop_comp_subset g (1 + (g.map (fun e => e.2.length)).sum)
    _ _ ([] ++ [startId]) (by simp)

/-- `findCentroid`'s fold only ever holds a candidate from the iterated
list (or the seed). -/
theorem centroidStep_fold_mem (cluster : List String)
    (sigs : List MinHashClusterer.MinHashSignature) :
    ∀ (l : List String) (st : String × ℚ), (∀ x ∈ l, x ∈ cluster) →
      st.1 ∈ cluster →
      (l.foldl (MinHashClusterer.centroidStep cluster sigs) st).1 ∈ cluster := by
  intro l
  induction l with
  | nil => intro st _ hst; simpa using hst
  | cons x l ih =>
    intro st hl hst
    simp only [List.foldl_cons]
    refine ih _ (fun y hy => hl y (List.mem_cons_of_mem x hy)) ?_
    unfold MinHashClusterer.centroidStep
    split
    · exact hl x (List.mem_cons_self x l)
    · exact hst

/-- The centroid of a nonempty cluster is one of its members. -/
theorem findCentroid_mem (cluster : List String)
    (sigs : List MinHashClusterer.MinHashSignature) (h : cluster ≠ []) :
    MinHashClusterer.findCentroid cluster sigs ∈ cluster := by
  unfold MinHashClusterer.findCentroid
  refine centroidStep_fold_mem cluster sigs cluster _ (fun x hx => hx) ?_
  show cluster.headD "" ∈ cluster
  cases cluster with
  | nil => exact absurd rfl h
  | cons c rest => exact List.mem_cons_self c rest

/-- The clustering fold preserves the cluster invariants. -/
theorem clusterStep_fold_invariant (cfg : ClusteringConfig) (ts : String)
    (sigs : List MinHashClusterer.MinHashSignature)
    (g : List (String × List String)) :
    ∀ (snips : List Snip)
      (st : List String × List MinHashClusterer.CodeClusterSim),
      (∀ c ∈ st.2, c.centroid ∈ c.snippets ∧ c.size = c.snippets.length ∧
        cfg.minClusterSize ≤ c.size) →
      ∀ c ∈ (snips.foldl (MinHashClusterer.clusterStep cfg ts sigs g) st).2,
        c.centroid ∈ c.snippets ∧ c.size = c.snippets.length ∧
          cfg.minClusterSize ≤ c.size := by
  intro snips
  induction snips with
  | nil => intro st h; simpa using h
  | cons s snips ih =>
    intro st h
    simp only [List.foldl_cons]
    apply ih
    unfold MinHashClusterer.clusterStep
    split
    · exact h
    · rename_i hnotmem
      split
      · rename_i hsize
        intro c hc
        rcases List.mem_append.mp hc with hc' | hc'
        · exact h c hc'
        · simp only [List.mem_singleton] at hc'
          subst hc'
          refine ⟨?_, rfl, hsize⟩
          show MinHashClusterer.findCentroid
              (MinHashClusterer.findConnectedComponent g s.id st.1).1 sigs ∈
            (MinHashClusterer.findConnectedComponent g s.id st.1).1
          apply findCentroid_mem
          intro hnil
          have hmem := findConnectedComponent_start_mem g s.id st.1 hnotmem
          rw [hnil] at hmem
          cases hmem
      · intro c hc
        exact h c hc

unseal Rat.mul Rat.inv Rat.add in
/-- **C2, counterexample.** The claim fails for the `Clusterer` that
`CodeCollage.index()` uses (`part_005`): its second loop emits a singleton
cluster for every snippet left unclustered, of size `1` — below the
`minClusterSize = 2` that every configuration in the source sets
(`part_006`'s `indexCommand` and the `MinHashClusterer` default) — and its
centroid is the averaged MinHash vector (`computeCentroid`), a list of
numbers rather than one of the cluster's snippet ids. -/
theorem c2_counterexample :
    ∃ c ∈ Clusterer.clusterSnippets DEFAULT_CONFIG (fun _ => "c0") 0 [c2Snip],
      c.snippets = ["s1"] ∧ c.size = 1 ∧ c.centroid = [(5 : ℚ), (7 : ℚ)] := by
  decide

/-- **C2, amended.** For `MinHashClusterer.clusterSnippets` (the cited
`minhash.ts` `clusterSnippets`) the claim holds: every produced cluster's
centroid is one of the cluster's snippet ids, its `size` equals the number
of snippet ids, and the size is at least `minClusterSize`.  (The other
cited clusterer — `part_005`, used by `index()` — violates all three
parts; see the counterexample.) -/
theorem c2_cluster_invariants (hfs : List (String → Nat))
    (cfg : ClusteringConfig) (ts : String) (snippets : List Snip) :
    ∀ c ∈ MinHashClusterer.clusterSnippets hfs cfg ts snippets,
      c.centroid ∈ c.snippets ∧ c.size = c.snippets.length ∧
        cfg.minClusterSize ≤ c.size := by
  intro c hc
  simp only [MinHashClusterer.clusterSnippets] at hc
  exact clusterStep_fold_invariant cfg ts _ _ snippets ([], [])
    (by intro c hc; cases hc) c hc

unseal Rat.mul Rat.inv Rat.add String.ltb CodeTokenizer.ctComments
  CodeTokenizer.ctStrings CodeTokenizer.ctNumbers in
/-- Witness for C2 (amended): two identical snippets produce the one
cluster `c2Cluster`, whose centroid `s1` is a member, whose size `2` is
its member count, and `2 ≥ minClusterSize`. -/
theorem c2_cluster_invariants_witness :
    c2Cluster ∈ MinHashClusterer.clusterSnippets [MinHashLSH.hashFun 1 0]
        c2Cfg "t" [c2SnipA, c2SnipB] ∧
      (c2Cluster.centroid ∈ c2Cluster.snippets ∧
        c2Cluster.size = c2Cluster.snippets.length ∧
        c2Cfg.minClusterSize ≤ c2Cluster.size) :=
  ⟨by decide,
   c2_cluster_invariants [MinHashLSH.hashFun 1 0] c2Cfg "t"
     [c2SnipA, c2SnipB] c2Cluster (by decide)⟩

/-! ## C7 — idempotence of normalization

Step lemmas unfolding the well-founded scanners, then the fixpoint
theory of the string-literal pass, the collapse pass and the
line-comment pass. -/

theorem removeStrings_nil (q : Char) : Tokenizer.removeStrings q [] = [] := by
  rw [Tokenizer.removeStrings.eq_def]

theorem removeStrings_cons_close (q : Char) {rest suffix : List Char}
    (h : Tokenizer.findClose q rest = some suffix) :
    Tokenizer.removeStrings q (q :: rest) =
      q :: q :: Tokenizer.removeStrings q suffix := by
  simp only [Tokenizer.removeStrings, ite_true]
  split
  · rename_i suffix2 heq
    rw [h] at heq
    cases heq
    rfl
  · rename_i heq
    rw [h] at heq
    cases heq

theorem removeStrings_cons_open (q : Char) {rest : List Char}
    (h : Tokenizer.findClose q rest = none) :
    Tokenizer.removeStrings q (q :: rest) =
      q :: Tokenizer.removeStrings q rest := by
  simp only [Tokenizer.removeStrings, ite_true]
  split
  · rename_i suffix2 heq
    rw [h] at heq
    cases heq
  · rfl

theorem removeStrings_cons_other {q c : Char} (rest : List Char)
    (hc : c ≠ q) :
    Tokenizer.removeStrings q (c :: rest) =
      c :: Tokenizer.removeStrings q rest := by
  simp only [Tokenizer.removeStrings, hc, if_neg, ite_false]

theorem squashWS_nil : Tokenizer.squashWS [] = [] := by
  rw [Tokenizer.squashWS.eq_def]

theorem squashWS_cons (c : Char) (rest : List Char) :
    Tokenizer.squashWS (c :: rest) =
      if Tokenizer.isWS c then
        ' ' :: Tokenizer.squashWS (rest.dropWhile Tokenizer.isWS)
      else c :: Tokenizer.squashWS rest := by
  rw [Tokenizer.squashWS.eq_def]

theorem removeLineComments_nil (marker : List Char) :
    Tokenizer.removeLineComments marker [] = [] := by
  rw [Tokenizer.removeLineComments.eq_def]

theorem removeLineComments_cons (marker : List Char) (c : Char)
    (rest : List Char) :
    Tokenizer.removeLineComments marker (c :: rest) =
      if marker.isPrefixOf (c :: rest) then
        Tokenizer.removeLineComments marker (rest.dropWhile (· ≠ nl))
      else c :: Tokenizer.removeLineComments marker rest := by
  rw [Tokenizer.removeLineComments.eq_def]

/-- The suffix returned by `findClose` is a suffix of the scanned list. -/
theorem findClose_suffix {q : Char} : ∀ {cs suf : List Char},
    Tokenizer.findClose q cs = some suf → suf <:+ cs := by
  intro cs
  induction cs using Tokenizer.findClose.induct q with
  | case1 => intro suf h; simp [Tokenizer.findClose] at h
  | case2 rest2 =>
    intro suf h
    rw [Tokenizer.findClose_cons, if_pos rfl] at h
    cases h
    exact List.suffix_cons _ _
  | case3 hb =>
    intro suf h
    rw [Tokenizer.findClose, if_neg hb, if_pos rfl] at h
    simp at h
  | case4 rest2 hb =>
    intro suf h
    rw [Tokenizer.findClose, if_neg hb, if_pos rfl] at h
    simp at h
  | case5 d rest2 hd hb ih =>
    intro suf h
    simp only [Tokenizer.findClose, if_neg hb, if_pos rfl, if_neg hd] at h
    exact (ih h).trans ((List.suffix_cons d rest2).trans
      (List.suffix_cons _ _))
  | case6 d rest2 hq hb ih =>
    intro suf h
    rw [Tokenizer.findClose_cons, if_neg hq, if_neg hb] at h
    exact (ih h).trans (List.suffix_cons _ _)

/-- `removeStrings` maps nonempty lists to nonempty lists. -/
theorem removeStrings_ne_nil {q : Char} {w : List Char} (h : w ≠ []) :
    Tokenizer.removeStrings q w ≠ [] := by
  cases w with
  | nil => exact absurd rfl h
  | cons a rest =>
    by_cases ha : a = q
    · subst ha
      cases hfc : Tokenizer.findClose a rest with
      | none => rw [removeStrings_cons_open a hfc]; simp
      | some suffix => rw [removeStrings_cons_close a hfc]; simp
    · rw [removeStrings_cons_other rest ha]; simp

/-- The scanner `removeStrings` preserves the first character. -/
theorem removeStrings_head (q : Char) (w : List Char) :
    (Tokenizer.removeStrings q w).head? = w.head? := by
  cases w with
  | nil => rw [removeStrings_nil]
  | cons a rest =>
    by_cases ha : a = q
    · subst ha
      cases hfc : Tokenizer.findClose a rest with
      | none => rw [removeStrings_cons_open a hfc]; simp
      | some suffix => rw [removeStrings_cons_close a hfc]; simp
    · rw [removeStrings_cons_other rest ha]; simp

/-- Characters of `removeStrings q w` come from `w` or are the quote. -/
theorem mem_removeStrings {q : Char} :
    ∀ (n : Nat) (w : List Char), w.length ≤ n →
      ∀ c ∈ Tokenizer.removeStrings q w, c ∈ w ∨ c = q := by
  intro n
  induction n with
  | zero =>
    intro w hw c hc
    rw [List.length_eq_zero.mp (Nat.le_zero.mp hw)] at hc
    rw [removeStrings_nil] at hc
    cases hc
  | succ n ih =>
    intro w hw c hc
    cases w with
    | nil => rw [removeStrings_nil] at hc; cases hc
    | cons a rest =>
      simp only [List.length_cons] at hw
      by_cases ha : a = q
      · subst ha
        cases hfc : Tokenizer.findClose a rest with
        | some suffix =>
          rw [removeStrings_cons_close a hfc] at hc
          simp only [List.mem_cons] at hc
          rcases hc with hc | hc | hc
          · exact Or.inr hc
          · exact Or.inr hc
          · have hsuf := findClose_suffix hfc
            have hlen := Tokenizer.findClose_length_le hfc
            rcases ih suffix (by omega) c hc with h | h
            · exact Or.inl (List.mem_cons_of_mem a (hsuf.subset h))
            · exact Or.inr h
        | none =>
          rw [removeStrings_cons_open a hfc] at hc
          rcases List.mem_cons.mp hc with hc | hc
          · exact Or.inl (hc ▸ List.mem_cons_self a rest)
          · rcases ih rest (by omega) c hc with h | h
            · exact Or.inl (List.mem_cons_of_mem a h)
            · exact Or.inr h
      · rw [removeStrings_cons_other rest ha] at hc
        rcases List.mem_cons.mp hc with hc | hc
        · exact Or.inl (hc ▸ List.mem_cons_self a rest)
        · rcases ih rest (by omega) c hc with h | h
          · exact Or.inl (List.mem_cons_of_mem a h)
          · exact Or.inr h

/-! ### Evaluation lemmas for `fixedQ` -/

theorem fixedQ_nil (q : Char) : fixedQ q [] = true := by
  rw [fixedQ.eq_def]

theorem fixedQ_cons_other {q c : Char} (t : List Char) (hc : c ≠ q) :
    fixedQ q (c :: t) = fixedQ q t := by
  rw [fixedQ.eq_def]
  simp only [hc, if_neg, ite_false]

theorem fixedQ_single (q : Char) : fixedQ q [q] = true := by
  rw [fixedQ.eq_def]
  simp only [ite_true]

theorem fixedQ_pair (q : Char) (v : List Char) :
    fixedQ q (q :: q :: v) = fixedQ q v := by
  rw [fixedQ.eq_def]
  simp only [ite_true]

theorem fixedQ_open {q d : Char} (v : List Char) (hd : d ≠ q) :
    fixedQ q (q :: d :: v) =
      (decide (Tokenizer.findClose q (d :: v) = none) && fixedQ q (d :: v)) := by
  rw [fixedQ.eq_def]
  simp only [hd, ite_true, if_neg, ite_false]

/-! ### The `none` result of `findClose` survives the same quote's pass -/

theorem findClose_none_removeStrings {q : Char} (hqb : q ≠ bslash)
    (hqn : q ≠ nl) :
    ∀ {w : List Char}, Tokenizer.findClose q w = none →
      Tokenizer.findClose q (Tokenizer.removeStrings q w) = none := by
  intro w
  induction w using Tokenizer.findClose.induct q with
  | case1 =>
    intro _
    rw [removeStrings_nil]
    exact Tokenizer.findClose_nil q
  | case2 rest2 =>
    intro h
    rw [Tokenizer.findClose_cons, if_pos rfl] at h
    cases h
  | case3 hb =>
    intro _
    rw [removeStrings_cons_other [] (fun hh => hb hh), removeStrings_nil]
    rw [Tokenizer.findClose_cons, if_neg hb, if_pos rfl]
  | case4 rest2 hb =>
    intro _
    rw [removeStrings_cons_other _ (fun hh => hb hh)]
    rw [removeStrings_cons_other _ (fun hh => hqn (hh.symm))]
    rw [Tokenizer.findClose_cons, if_neg hb, if_pos rfl]
    simp
  | case5 d rest2 hd hb ih =>
    intro h
    rw [Tokenizer.findClose_cons, if_neg hb, if_pos rfl] at h
    simp only [hd, ite_false] at h
    rw [removeStrings_cons_other _ (fun hh => hb hh)]
    by_cases hdq : d = q
    · subst hdq
      rw [removeStrings_cons_open d h]
      rw [Tokenizer.findClose_cons, if_neg hb, if_pos rfl]
      simp only [hd, ite_false]
      exact ih h
    · rw [removeStrings_cons_other _ hdq]
      rw [Tokenizer.findClose_cons, if_neg hb, if_pos rfl]
      simp only [hd, ite_false]
      exact ih h
  | case6 d rest2 hq hb ih =>
    intro h
    rw [Tokenizer.findClose_cons, if_neg hq, if_neg hb] at h
    rw [removeStrings_cons_other _ hq]
    rw [Tokenizer.findClose_cons, if_neg hq, if_neg hb]
    exact ih h

/-! ### A successful close of one quote preserves the failure of the
other: both scanners walk the same escape structure -/

theorem findClose_split {q d : Char} (hdq : d ≠ q) (hqb : q ≠ bslash)
    (hdb : d ≠ bslash) :
    ∀ {u suf : List Char}, Tokenizer.findClose q u = some suf →
      Tokenizer.findClose d u = none → Tokenizer.findClose d suf = none := by
  intro u
  induction u using Tokenizer.findClose.induct q with
  | case1 =>
    intro suf h _
    rw [Tokenizer.findClose_nil] at h
    cases h
  | case2 rest2 =>
    intro suf h hnone
    rw [Tokenizer.findClose_cons, if_pos rfl] at h
    cases h
    rw [Tokenizer.findClose_cons, if_neg (fun hh => hdq hh.symm),
      if_neg (fun hh => hqb hh)] at hnone
    exact hnone
  | case3 hb =>
    intro suf h _
    rw [Tokenizer.findClose_cons, if_neg hb, if_pos rfl] at h
    cases h
  | case4 rest2 hb =>
    intro suf h _
    rw [Tokenizer.findClose_cons, if_neg hb, if_pos rfl] at h
    simp at h
  | case5 e rest2 he hb ih =>
    intro suf h hnone
    rw [Tokenizer.findClose_cons, if_neg hb, if_pos rfl] at h
    simp only [he, ite_false] at h
    rw [Tokenizer.findClose_cons, if_neg (fun hh => hdb hh.symm),
      if_pos rfl] at hnone
    simp only [he, ite_false] at hnone
    exact ih h hnone
  | case6 e rest2 hq hb ih =>
    intro suf h hnone
    rw [Tokenizer.findClose_cons, if_neg hq, if_neg hb] at h
    by_cases hed : e = d
    · subst hed
      rw [Tokenizer.findClose_cons, if_pos rfl] at hnone
      cases hnone
    · rw [Tokenizer.findClose_cons, if_neg (fun hh => hed hh),
        if_neg hb] at hnone
      exact ih h hnone

/-! ### The other quote's pass also preserves a failed close -/

theorem findClose_none_other {d s : Char} (hds : d ≠ s) (hdb : d ≠ bslash)
    (hsb : s ≠ bslash) (hsn : s ≠ nl) :
    ∀ (n : Nat) (t : List Char), t.length ≤ n →
      Tokenizer.findClose d t = none →
      Tokenizer.findClose d (Tokenizer.removeStrings s t) = none := by
  intro n
  induction n with
  | zero =>
    intro t ht _
    rw [List.length_eq_zero.mp (Nat.le_zero.mp ht), removeStrings_nil]
    exact Tokenizer.findClose_nil d
  | succ n ih =>
    intro t ht h
    cases t with
    | nil =>
      rw [removeStrings_nil]
      exact Tokenizer.findClose_nil d
    | cons c u =>
      simp only [List.length_cons] at ht
      by_cases hcs : c = s
      · subst hcs
        rw [Tokenizer.findClose_cons, if_neg (fun hh => hds hh.symm),
          if_neg hsb] at h
        cases hfc : Tokenizer.findClose c u with
        | some suffix =>
          rw [removeStrings_cons_close c hfc]
          have hsufnone : Tokenizer.findClose d suffix = none :=
            findClose_split hds hsb hdb hfc h
          rw [Tokenizer.findClose_cons, if_neg (fun hh => hds hh.symm),
            if_neg hsb]
          rw [Tokenizer.findClose_cons, if_neg (fun hh => hds hh.symm),
            if_neg hsb]
          have hlen := Tokenizer.findClose_length_le hfc
          exact ih suffix (by omega) hsufnone
        | none =>
          rw [removeStrings_cons_open c hfc]
          rw [Tokenizer.findClose_cons, if_neg (fun hh => hds hh.symm),
            if_neg hsb]
          exact ih u (by omega) h
      · rw [removeStrings_cons_other u hcs]
        by_cases hcd : c = d
        · subst hcd
          rw [Tokenizer.findClose_cons, if_pos rfl] at h
          cases h
        · by_cases hcb : c = bslash
          · subst hcb
            rw [Tokenizer.findClose_cons, if_neg hcd, if_pos rfl] at h
            cases u with
            | nil =>
              rw [removeStrings_nil]
              rw [Tokenizer.findClose_cons, if_neg hcd, if_pos rfl]
            | cons e u2 =>
              simp only [List.length_cons] at ht
              by_cases hen : e = nl
              · subst hen
                rw [removeStrings_cons_other u2 (fun hh => hsn hh.symm)]
                rw [Tokenizer.findClose_cons, if_neg hcd, if_pos rfl]
                simp
              · simp only [hen, ite_false] at h
                by_cases hes : e = s
                · subst hes
                  cases hfc : Tokenizer.findClose e u2 with
                  | some suf2 =>
                    rw [removeStrings_cons_close e hfc]
                    rw [Tokenizer.findClose_cons, if_neg hcd, if_pos rfl]
                    simp only [hen, ite_false]
                    rw [Tokenizer.findClose_cons,
                      if_neg (fun hh => hds hh.symm), if_neg hsb]
                    have hdnone := findClose_split hds hsb hdb hfc h
                    have hlen := Tokenizer.findClose_length_le hfc
                    exact ih suf2 (by omega) hdnone
                  | none =>
                    rw [removeStrings_cons_open e hfc]
                    rw [Tokenizer.findClose_cons, if_neg hcd, if_pos rfl]
                    simp only [hen, ite_false]
                    exact ih u2 (by omega) h
                · rw [removeStrings_cons_other u2 hes]
                  rw [Tokenizer.findClose_cons, if_neg hcd, if_pos rfl]
                  simp only [hen, ite_false]
                  exact ih u2 (by omega) h
          · rw [Tokenizer.findClose_cons, if_neg hcd, if_neg hcb] at h
            rw [Tokenizer.findClose_cons, if_neg hcd, if_neg hcb]
            exact ih u (by omega) h

/-! ### Cutting a `d`-fixed list at an `s`-literal close leaves a
`d`-fixed suffix -/

theorem fixedQ_cut {d s : Char} (hds : d ≠ s) (hdb : d ≠ bslash)
    (hsb : s ≠ bslash) :
    ∀ (n : Nat) (t suf : List Char), t.length ≤ n → fixedQ d t = true →
      Tokenizer.findClose s t = some suf → fixedQ d suf = true := by
  intro n
  induction n with
  | zero =>
    intro t suf ht _ hfc
    rw [List.length_eq_zero.mp (Nat.le_zero.mp ht)] at hfc
    rw [Tokenizer.findClose_nil] at hfc
    cases hfc
  | succ n ih =>
    intro t suf ht hf hfc
    cases t with
    | nil => rw [Tokenizer.findClose_nil] at hfc; cases hfc
    | cons c u =>
      simp only [List.length_cons] at ht
      by_cases hcs : c = s
      · subst hcs
        rw [Tokenizer.findClose_cons, if_pos rfl] at hfc
        injection hfc with hfc2
        rw [← hfc2]
        rw [fixedQ_cons_other u (fun hh => hds hh.symm)] at hf
        exact hf
      · by_cases hcb : c = bslash
        · subst hcb
          rw [Tokenizer.findClose_cons, if_neg hcs, if_pos rfl] at hfc
          cases u with
          | nil => cases hfc
          | cons e u2 =>
            simp only [List.length_cons] at ht
            by_cases hen : e = nl
            · simp only [hen, ite_true] at hfc
              cases hfc
            · simp only [hen, ite_false] at hfc
              rw [fixedQ_cons_other _ (fun hh => hdb hh.symm)] at hf
              by_cases hed : e = d
              · subst hed
                cases u2 with
                | nil => rw [Tokenizer.findClose_nil] at hfc; cases hfc
                | cons f v =>
                  simp only [List.length_cons] at ht
                  by_cases hfd : f = e
                  · subst hfd
                    rw [fixedQ_pair] at hf
                    rw [Tokenizer.findClose_cons, if_neg (fun hh => hds hh),
                      if_neg (fun hh => hdb hh)] at hfc
                    exact ih v suf (by omega) hf hfc
                  · rw [fixedQ_open v (fun hh => hfd hh)] at hf
                    simp only [Bool.and_eq_true, decide_eq_true_eq] at hf
                    exact ih (f :: v) suf
                      (by simp only [List.length_cons]; omega) hf.2 hfc
              · rw [fixedQ_cons_other u2 hed] at hf
                exact ih u2 suf (by omega) hf hfc
        · rw [Tokenizer.findClose_cons, if_neg hcs, if_neg hcb] at hfc
          by_cases hcd : c = d
          · subst hcd
            cases u with
            | nil => rw [Tokenizer.findClose_nil] at hfc; cases hfc
            | cons f v =>
              simp only [List.length_cons] at ht
              by_cases hfd : f = c
              · subst hfd
                rw [fixedQ_pair] at hf
                rw [Tokenizer.findClose_cons, if_neg (fun hh => hds hh),
                  if_neg (fun hh => hdb hh)] at hfc
                exact ih v suf (by omega) hf hfc
              · rw [fixedQ_open v (fun hh => hfd hh)] at hf
                simp only [Bool.and_eq_true, decide_eq_true_eq] at hf
                exact ih (f :: v) suf
                  (by simp only [List.length_cons]; omega) hf.2 hfc
          · rw [fixedQ_cons_other u hcd] at hf
            exact ih u suf (by omega) hf hfc

/-! ### The output of a quote's pass is a fixpoint of that pass -/

theorem fixedQ_removeStrings_self {q : Char} (hqb : q ≠ bslash)
    (hqn : q ≠ nl) :
    ∀ (n : Nat) (y : List Char), y.length ≤ n →
      fixedQ q (Tokenizer.removeStrings q y) = true := by
  intro n
  induction n with
  | zero =>
    intro y hy
    rw [List.length_eq_zero.mp (Nat.le_zero.mp hy), removeStrings_nil]
    exact fixedQ_nil q
  | succ n ih =>
    intro y hy
    cases y with
    | nil =>
      rw [removeStrings_nil]
      exact fixedQ_nil q
    | cons c rest =>
      simp only [List.length_cons] at hy
      by_cases hc : c = q
      · subst hc
        cases hfc : Tokenizer.findClose c rest with
        | some suffix =>
          rw [removeStrings_cons_close c hfc, fixedQ_pair]
          have hlen := Tokenizer.findClose_length_le hfc
          exact ih suffix (by omega)
        | none =>
          rw [removeStrings_cons_open c hfc]
          cases hS : Tokenizer.removeStrings c rest with
          | nil => exact fixedQ_single c
          | cons e w =>
            have hhead := removeStrings_head c rest
            rw [hS] at hhead
            have he : e ≠ c := by
              intro hec
              cases rest with
              | nil => simp at hhead
              | cons r0 v =>
                simp only [List.head?_cons] at hhead
                injection hhead with h0
                rw [← h0, hec] at hfc
                rw [Tokenizer.findClose_cons, if_pos rfl] at hfc
                cases hfc
            rw [fixedQ_open w he]
            simp only [Bool.and_eq_true, decide_eq_true_eq]
            refine ⟨?_, ?_⟩
            · rw [← hS]
              exact findClose_none_removeStrings hqb hqn hfc
            · rw [← hS]
              exact ih rest (by omega)
      · rw [removeStrings_cons_other rest hc, fixedQ_cons_other _ hc]
        exact ih rest (by omega)

/-! ### The other quote's pass preserves fixpoints -/

theorem fixedQ_removeStrings_other {d s : Char} (hds : d ≠ s)
    (hdb : d ≠ bslash) (hsb : s ≠ bslash) (hsn : s ≠ nl) :
    ∀ (n : Nat) (z : List Char), z.length ≤ n → fixedQ d z = true →
      fixedQ d (Tokenizer.removeStrings s z) = true := by
  intro n
  induction n with
  | zero =>
    intro z hz _
    rw [List.length_eq_zero.mp (Nat.le_zero.mp hz), removeStrings_nil]
    exact fixedQ_nil d
  | succ n ih =>
    intro z hz hf
    cases z with
    | nil =>
      rw [removeStrings_nil]
      exact fixedQ_nil d
    | cons c t =>
      simp only [List.length_cons] at hz
      by_cases hcs : c = s
      · subst hcs
        rw [fixedQ_cons_other t (fun hh => hds hh.symm)] at hf
        cases hfc : Tokenizer.findClose c t with
        | some suffix =>
          rw [removeStrings_cons_close c hfc]
          rw [fixedQ_cons_other _ (fun hh => hds hh.symm)]
          rw [fixedQ_cons_other _ (fun hh => hds hh.symm)]
          have hsfix : fixedQ d suffix = true :=
            fixedQ_cut hds hdb hsb t.length t suffix le_rfl hf hfc
          have hlen := Tokenizer.findClose_length_le hfc
          exact ih suffix (by omega) hsfix
        | none =>
          rw [removeStrings_cons_open c hfc]
          rw [fixedQ_cons_other _ (fun hh => hds hh.symm)]
          exact ih t (by omega) hf
      · by_cases hcd : c = d
        · subst hcd
          cases t with
          | nil =>
            rw [removeStrings_cons_other [] hcs, removeStrings_nil]
            exact fixedQ_single c
          | cons e v =>
            simp only [List.length_cons] at hz
            by_cases hed : e = c
            · subst hed
              rw [fixedQ_pair] at hf
              rw [removeStrings_cons_other _ hcs]
              rw [removeStrings_cons_other _ hcs]
              rw [fixedQ_pair]
              exact ih v (by omega) hf
            · rw [fixedQ_open v hed] at hf
              simp only [Bool.and_eq_true, decide_eq_true_eq] at hf
              rw [removeStrings_cons_other _ hcs]
              cases hS : Tokenizer.removeStrings s (e :: v) with
              | nil => exact fixedQ_single c
              | cons f w =>
                have hhead := removeStrings_head s (e :: v)
                rw [hS] at hhead
                simp only [List.head?_cons] at hhead
                injection hhead with h0
                have hfd : f ≠ c := fun hh => hed (by rw [← h0]; exact hh)
                rw [fixedQ_open w hfd]
                simp only [Bool.and_eq_true, decide_eq_true_eq]
                refine ⟨?_, ?_⟩
                · rw [← hS]
                  exact findClose_none_other hds hdb hsb hsn
                    (e :: v).length (e :: v) le_rfl hf.1
                · rw [← hS]
                  exact ih (e :: v)
                    (by simp only [List.length_cons]; omega) hf.2
        · rw [removeStrings_cons_other t hcs]
          rw [fixedQ_cons_other t hcd] at hf
          rw [fixedQ_cons_other _ hcd]
          exact ih t (by omega) hf

/-! ### A fixpoint of `fixedQ` is literally fixed by the pass -/

theorem removeStrings_of_fixedQ {q : Char} :
    ∀ (n : Nat) (z : List Char), z.length ≤ n → fixedQ q z = true →
      Tokenizer.removeStrings q z = z := by
  intro n
  induction n with
  | zero =>
    intro z hz _
    rw [List.length_eq_zero.mp (Nat.le_zero.mp hz)]
    exact removeStrings_nil q
  | succ n ih =>
    intro z hz hf
    cases z with
    | nil => exact removeStrings_nil q
    | cons c t =>
      simp only [List.length_cons] at hz
      by_cases hc : c = q
      · subst hc
        cases t with
        | nil =>
          rw [removeStrings_cons_open c (Tokenizer.findClose_nil c)]
          rw [removeStrings_nil]
        | cons e v =>
          simp only [List.length_cons] at hz
          by_cases hec : e = c
          · subst hec
            rw [fixedQ_pair] at hf
            have hq : Tokenizer.findClose e (e :: v) = some v := by
              rw [Tokenizer.findClose_cons, if_pos rfl]
            rw [removeStrings_cons_close e hq]
            rw [ih v (by omega) hf]
          · rw [fixedQ_open v hec] at hf
            simp only [Bool.and_eq_true, decide_eq_true_eq] at hf
            rw [removeStrings_cons_open c hf.1]
            rw [ih (e :: v) (by simp only [List.length_cons]; omega) hf.2]
      · rw [removeStrings_cons_other t hc]
        rw [fixedQ_cons_other t hc] at hf
        rw [ih t (by omega) hf]

/-- One quote pass is idempotent. -/
theorem removeStrings_idem {q : Char} (hqb : q ≠ bslash) (hqn : q ≠ nl)
    (y : List Char) :
    Tokenizer.removeStrings q (Tokenizer.removeStrings q y) =
      Tokenizer.removeStrings q y :=
  removeStrings_of_fixedQ _ _ le_rfl
    (fixedQ_removeStrings_self hqb hqn _ y le_rfl)

/-- The composed double-then-single-quote pass of `removeStringLiterals`
is idempotent. -/
theorem stringPass_idem (y : List Char) :
    Tokenizer.removeStrings squote (Tokenizer.removeStrings dquote
      (Tokenizer.removeStrings squote (Tokenizer.removeStrings dquote y))) =
    Tokenizer.removeStrings squote (Tokenizer.removeStrings dquote y) := by
  have hdb : dquote ≠ bslash := by decide
  have hdn : dquote ≠ nl := by decide
  have hsb : squote ≠ bslash := by decide
  have hsn : squote ≠ nl := by decide
  have hds : dquote ≠ squote := by decide
  have h1 : fixedQ dquote (Tokenizer.removeStrings dquote y) = true :=
    fixedQ_removeStrings_self hdb hdn _ y le_rfl
  have h2 : fixedQ dquote (Tokenizer.removeStrings squote
      (Tokenizer.removeStrings dquote y)) = true :=
    fixedQ_removeStrings_other hds hdb hsb hsn _ _ le_rfl h1
  have h3 := removeStrings_of_fixedQ _ _ le_rfl h2
  rw [h3]
  exact removeStrings_idem hsb hsn _

/-! ### Adjacent-pair predicates -/

theorem noAdjP_cons_iff (P : Char → Char → Bool) (a : Char) (l : List Char) :
    noAdjP P (a :: l) = true ↔
      ((∀ b, l.head? = some b → P a b = false) ∧ noAdjP P l = true) := by
  cases l with
  | nil => simp [noAdjP]
  | cons b t =>
    simp only [noAdjP, Bool.and_eq_true, Bool.not_eq_true', List.head?_cons]
    constructor
    · intro h
      exact ⟨fun b' hb' => by cases hb'; exact h.1, h.2⟩
    · intro h
      exact ⟨h.1 b rfl, h.2⟩

theorem noAdjP_tail {P : Char → Char → Bool} {a : Char} {l : List Char}
    (h : noAdjP P (a :: l) = true) : noAdjP P l = true :=
  ((noAdjP_cons_iff P a l).mp h).2

theorem noAdjP_append_right (P : Char → Char → Bool) :
    ∀ (l₁ l₂ : List Char), noAdjP P (l₁ ++ l₂) = true →
      noAdjP P l₂ = true := by
  intro l₁
  induction l₁ with
  | nil => intro l₂ h; simpa using h
  | cons a t ih => intro l₂ h; exact ih l₂ (noAdjP_tail h)

theorem noAdjP_suffix {P : Char → Char → Bool} {l₁ l₂ : List Char}
    (hs : l₁ <:+ l₂) (h : noAdjP P l₂ = true) : noAdjP P l₁ = true := by
  obtain ⟨pre, rfl⟩ := hs
  exact noAdjP_append_right P pre l₁ h

theorem noAdjP_dropWhile (P : Char → Char → Bool) (p : Char → Bool) :
    ∀ (l : List Char), noAdjP P l = true →
      noAdjP P (l.dropWhile p) = true := by
  intro l
  induction l with
  | nil => intro h; simpa using h
  | cons a t ih =>
    intro h
    rw [List.dropWhile_cons]
    split
    · exact ih (noAdjP_tail h)
    · exact h

theorem getLast?_cons_ne {a : Char} {l : List Char} (h : l ≠ []) :
    (a :: l).getLast? = l.getLast? := by
  cases l with
  | nil => exact absurd rfl h
  | cons b t => exact List.getLast?_cons_cons

theorem noAdjP_concat_iff (P : Char → Char → Bool) :
    ∀ (l : List Char) (a : Char), noAdjP P (l ++ [a]) = true ↔
      (noAdjP P l = true ∧ ∀ b, l.getLast? = some b → P b a = false) := by
  intro l
  induction l with
  | nil => intro a; simp [noAdjP]
  | cons x t ih =>
    intro a
    cases t with
    | nil =>
      simp [noAdjP, Bool.not_eq_true']
    | cons y t' =>
      have e1 : (x :: y :: t') ++ [a] = x :: y :: (t' ++ [a]) := rfl
      have e2 : (y :: t') ++ [a] = y :: (t' ++ [a]) := rfl
      rw [e1]
      rw [show noAdjP P (x :: y :: (t' ++ [a])) =
        (!(P x y) && noAdjP P (y :: (t' ++ [a]))) from rfl]
      rw [show noAdjP P (x :: y :: t') =
        (!(P x y) && noAdjP P (y :: t')) from rfl]
      simp only [Bool.and_eq_true, Bool.not_eq_true']
      rw [← e2, ih a]
      rw [getLast?_cons_ne (by simp : (y :: t') ≠ [])]
      constructor
      · intro h
        exact ⟨⟨h.1, h.2.1⟩, h.2.2⟩
      · intro h
        exact ⟨h.1.1, h.1.2, h.2⟩

theorem noAdjP_reverse_iff (P : Char → Char → Bool)
    (hsym : ∀ a b, P a b = P b a) :
    ∀ (l : List Char), noAdjP P l.reverse = true ↔ noAdjP P l = true := by
  intro l
  induction l with
  | nil => simp
  | cons a t ih =>
    rw [List.reverse_cons, noAdjP_concat_iff, noAdjP_cons_iff]
    rw [List.getLast?_reverse]
    constructor
    · intro h
      exact ⟨fun b hb => (hsym a b).trans (h.2 b hb), ih.mp h.1⟩
    · intro h
      exact ⟨ih.mpr h.2, fun b hb => (hsym b a).trans (h.1 b hb)⟩

/-! ### `dropWhile` head and tail behaviour -/

theorem dropWhile_head_not {p : Char → Bool} :
    ∀ {l : List Char} {c : Char}, (l.dropWhile p).head? = some c →
      p c = false := by
  intro l
  induction l with
  | nil => intro c h; simp at h
  | cons a t ih =>
    intro c h
    rw [List.dropWhile_cons] at h
    split at h
    · exact ih h
    · rename_i ha
      rw [List.head?_cons] at h
      cases h
      exact Bool.not_eq_true _ ▸ (by simpa using ha)

theorem dropWhile_eq_self_of_head {p : Char → Bool} {l : List Char}
    (h : ∀ b, l.head? = some b → p b = false) : l.dropWhile p = l := by
  cases l with
  | nil => rfl
  | cons a t =>
    rw [List.dropWhile_cons, if_neg]
    rw [h a rfl]
    simp

theorem dropWhile_concat_getLast {p : Char → Bool} {c : Char}
    (hc : p c = false) : ∀ (l : List Char),
      (List.dropWhile p (l ++ [c])).getLast? = some c := by
  intro l
  induction l with
  | nil =>
    rw [List.nil_append, List.dropWhile_cons, if_neg (by rw [hc]; simp)]
    rfl
  | cons a t ih =>
    rw [List.cons_append, List.dropWhile_cons]
    split
    · exact ih
    · rw [← List.cons_append]
      exact List.getLast?_concat _

/-! ### `squashWS` and `trimWS` structure -/

theorem squashWS_head (l : List Char) :
    (Tokenizer.squashWS l).head? = l.head? ∨
      ((Tokenizer.squashWS l).head? = some ' ' ∧
        ∃ c, l.head? = some c ∧ Tokenizer.isWS c = true) := by
  cases l with
  | nil => left; rw [squashWS_nil]
  | cons c r =>
    rw [squashWS_cons]
    by_cases hws : Tokenizer.isWS c
    · right
      rw [if_pos hws]
      exact ⟨rfl, c, rfl, hws⟩
    · left
      rw [if_neg hws]
      rfl

theorem mem_squashWS :
    ∀ (n : Nat) (l : List Char), l.length ≤ n →
      ∀ c ∈ Tokenizer.squashWS l, c ∈ l ∨ c = ' ' := by
  intro n
  induction n with
  | zero =>
    intro l hl c hc
    rw [List.length_eq_zero.mp (Nat.le_zero.mp hl), squashWS_nil] at hc
    cases hc
  | succ n ih =>
    intro l hl c hc
    cases l with
    | nil => rw [squashWS_nil] at hc; cases hc
    | cons a r =>
      simp only [List.length_cons] at hl
      rw [squashWS_cons] at hc
      split at hc
      · rcases List.mem_cons.mp hc with hc | hc
        · exact Or.inr hc
        · have hd : (r.dropWhile Tokenizer.isWS).length ≤ r.length :=
            dropWhile_length_le _ r
          rcases ih _ (by omega) c hc with h | h
          · exact Or.inl (List.mem_cons_of_mem a
              ((List.dropWhile_sublist Tokenizer.isWS).subset h))
          · exact Or.inr h
      · rcases List.mem_cons.mp hc with hc | hc
        · exact Or.inl (hc ▸ List.mem_cons_self a r)
        · rcases ih r (by omega) c hc with h | h
          · exact Or.inl (List.mem_cons_of_mem a h)
          · exact Or.inr h

theorem wsOnlySpace_iff (z : List Char) :
    wsOnlySpace z = true ↔
      ∀ c ∈ z, Tokenizer.isWS c = true → c = ' ' := by
  unfold wsOnlySpace
  rw [List.all_eq_true]
  constructor
  · intro h c hc hws
    have := h c hc
    rw [hws] at this
    simpa using this
  · intro h c hc
    by_cases hws : Tokenizer.isWS c = true
    · rw [hws]
      simpa using h c hc hws
    · rw [Bool.not_eq_true] at hws
      rw [hws]
      simp

theorem wsOnlySpace_squashWS :
    ∀ (n : Nat) (l : List Char), l.length ≤ n →
      wsOnlySpace (Tokenizer.squashWS l) = true := by
  intro n
  induction n with
  | zero =>
    intro l hl
    rw [List.length_eq_zero.mp (Nat.le_zero.mp hl), squashWS_nil]
    rfl
  | succ n ih =>
    intro l hl
    cases l with
    | nil => rw [squashWS_nil]; rfl
    | cons a r =>
      simp only [List.length_cons] at hl
      rw [squashWS_cons]
      split
      · rw [wsOnlySpace_iff]
        intro c hc hws
        rcases List.mem_cons.mp hc with hc | hc
        · exact hc
        · have hd : (r.dropWhile Tokenizer.isWS).length ≤ r.length :=
            dropWhile_length_le _ r
          exact (wsOnlySpace_iff _).mp (ih _ (by omega)) c hc hws
      · rename_i ha
        rw [wsOnlySpace_iff]
        intro c hc hws
        rcases List.mem_cons.mp hc with hc | hc
        · exact absurd (hc ▸ hws) (by simpa using ha)
        · exact (wsOnlySpace_iff _).mp (ih r (by omega)) c hc hws

theorem noAdjP_wsPair_squashWS :
    ∀ (n : Nat) (l : List Char), l.length ≤ n →
      noAdjP wsPair (Tokenizer.squashWS l) = true := by
  intro n
  induction n with
  | zero =>
    intro l hl
    rw [List.length_eq_zero.mp (Nat.le_zero.mp hl), squashWS_nil]
    rfl
  | succ n ih =>
    intro l hl
    cases l with
    | nil => rw [squashWS_nil]; rfl
    | cons a r =>
      simp only [List.length_cons] at hl
      rw [squashWS_cons]
      have hd : (r.dropWhile Tokenizer.isWS).length ≤ r.length :=
        dropWhile_length_le _ r
      split
      · rw [noAdjP_cons_iff]
        refine ⟨?_, ih _ (by omega)⟩
        intro b hb
        rcases squashWS_head (r.dropWhile Tokenizer.isWS) with h | h
        · rw [h] at hb
          have := dropWhile_head_not hb
          unfold wsPair
          rw [this]
          simp
        · obtain ⟨h1, c, hc, hcw⟩ := h
          have := dropWhile_head_not hc
          rw [this] at hcw
          cases hcw
      · rename_i ha
        rw [noAdjP_cons_iff]
        refine ⟨?_, ih r (by omega)⟩
        intro b _
        unfold wsPair
        rw [Bool.not_eq_true] at ha
        rw [ha]
        simp

theorem mem_trimWS {c : Char} {l : List Char}
    (h : c ∈ Tokenizer.trimWS l) : c ∈ l := by
  unfold Tokenizer.trimWS at h
  have h1 := List.mem_reverse.mp h
  have h2 := (List.dropWhile_sublist Tokenizer.isWS).subset h1
  have h3 := List.mem_reverse.mp h2
  exact (List.dropWhile_sublist Tokenizer.isWS).subset h3

theorem wsPair_symm (a b : Char) : wsPair a b = wsPair b a := by
  unfold wsPair
  exact Bool.and_comm _ _

/-- `collapseWS` always produces a collapsed list. -/
theorem collapsedB_collapseWS (x : List Char) :
    collapsedB (Tokenizer.collapseWS x) = true := by
  unfold Tokenizer.collapseWS Tokenizer.trimWS
  have hz1 : wsOnlySpace (Tokenizer.squashWS x) = true :=
    wsOnlySpace_squashWS _ x le_rfl
  have hz2 : noAdjP wsPair (Tokenizer.squashWS x) = true :=
    noAdjP_wsPair_squashWS _ x le_rfl
  have hu1 : wsOnlySpace
      ((Tokenizer.squashWS x).dropWhile Tokenizer.isWS) = true := by
    rw [wsOnlySpace_iff]
    intro c hc hws
    exact (wsOnlySpace_iff _).mp hz1 c
      ((List.dropWhile_sublist Tokenizer.isWS).subset hc) hws
  have hu2 : noAdjP wsPair
      ((Tokenizer.squashWS x).dropWhile Tokenizer.isWS) = true :=
    noAdjP_dropWhile _ _ _ hz2
  have hA : wsOnlySpace (((Tokenizer.squashWS x).dropWhile
      Tokenizer.isWS).reverse.dropWhile Tokenizer.isWS).reverse = true := by
    rw [wsOnlySpace_iff]
    intro c hc hws
    have h1 := List.mem_reverse.mp hc
    have h2 := (List.dropWhile_sublist Tokenizer.isWS).subset h1
    have h3 := List.mem_reverse.mp h2
    exact (wsOnlySpace_iff _).mp hu1 c h3 hws
  have hB : noAdjP wsPair (((Tokenizer.squashWS x).dropWhile
      Tokenizer.isWS).reverse.dropWhile Tokenizer.isWS).reverse = true := by
    rw [noAdjP_reverse_iff wsPair wsPair_symm]
    refine noAdjP_dropWhile _ _ _ ?_
    rw [noAdjP_reverse_iff wsPair wsPair_symm]
    exact hu2
  have hC : headNotWS (((Tokenizer.squashWS x).dropWhile
      Tokenizer.isWS).reverse.dropWhile Tokenizer.isWS).reverse = true := by
    unfold headNotWS
    rw [List.head?_reverse]
    cases hu : (Tokenizer.squashWS x).dropWhile Tokenizer.isWS with
    | nil => simp
    | cons c u' =>
      have hcw : Tokenizer.isWS c = false :=
        dropWhile_head_not (by rw [hu]; rfl)
      have hrev : (c :: u').reverse = u'.reverse ++ [c] := by
        rw [List.reverse_cons]
      rw [hrev, dropWhile_concat_getLast hcw]
      simp [hcw]
  have hD : lastNotWS (((Tokenizer.squashWS x).dropWhile
      Tokenizer.isWS).reverse.dropWhile Tokenizer.isWS).reverse = true := by
    unfold lastNotWS
    rw [List.getLast?_reverse]
    cases hv : ((Tokenizer.squashWS x).dropWhile
        Tokenizer.isWS).reverse.dropWhile Tokenizer.isWS with
    | nil => simp
    | cons c v' =>
      have hcw : Tokenizer.isWS c = false :=
        dropWhile_head_not (by rw [hv]; rfl)
      rw [List.head?_cons]
      simp [hcw]
  unfold collapsedB
  rw [hA, hB, hC, hD]
  rfl

theorem wsOnlySpace_tail {c : Char} {r : List Char}
    (h : wsOnlySpace (c :: r) = true) : wsOnlySpace r = true := by
  rw [wsOnlySpace_iff] at h ⊢
  intro a ha hwa
  exact h a (List.mem_cons_of_mem c ha) hwa

/-- A collapsed list is a fixpoint of `squashWS`. -/
theorem squashWS_eq_self :
    ∀ (n : Nat) (z : List Char), z.length ≤ n → wsOnlySpace z = true →
      noAdjP wsPair z = true → Tokenizer.squashWS z = z := by
  intro n
  induction n with
  | zero =>
    intro z hz _ _
    rw [List.length_eq_zero.mp (Nat.le_zero.mp hz), squashWS_nil]
  | succ n ih =>
    intro z hz h1 h2
    cases z with
    | nil => rw [squashWS_nil]
    | cons c r =>
      simp only [List.length_cons] at hz
      rw [squashWS_cons]
      by_cases hws : Tokenizer.isWS c = true
      · rw [if_pos hws]
        have hc : c = ' ' :=
          (wsOnlySpace_iff _).mp h1 c (List.mem_cons_self c r) hws
        have hdrop : r.dropWhile Tokenizer.isWS = r := by
          apply dropWhile_eq_self_of_head
          intro b hb
          have hpair := ((noAdjP_cons_iff wsPair c r).mp h2).1 b hb
          unfold wsPair at hpair
          rw [hws] at hpair
          simpa using hpair
        rw [hdrop, hc]
        rw [ih r (by omega) (wsOnlySpace_tail h1) (noAdjP_tail h2)]
      · rw [if_neg hws]
        rw [ih r (by omega) (wsOnlySpace_tail h1) (noAdjP_tail h2)]

/-- A collapsed list is a fixpoint of `collapseWS`. -/
theorem collapseWS_eq_self {z : List Char} (h : collapsedB z = true) :
    Tokenizer.collapseWS z = z := by
  unfold collapsedB at h
  simp only [Bool.and_eq_true] at h
  unfold Tokenizer.collapseWS
  rw [squashWS_eq_self _ z le_rfl h.1.1.1 h.1.1.2]
  have hd1 : z.dropWhile Tokenizer.isWS = z := by
    apply dropWhile_eq_self_of_head
    intro b hb
    have h3 := h.1.2
    unfold headNotWS at h3
    rw [hb] at h3
    simpa using h3
  have hd2 : z.reverse.dropWhile Tokenizer.isWS = z.reverse := by
    apply dropWhile_eq_self_of_head
    intro b hb
    rw [List.head?_reverse] at hb
    have h4 := h.2
    unfold lastNotWS at h4
    rw [hb] at h4
    simpa using h4
  unfold Tokenizer.trimWS
  rw [hd1, hd2, List.reverse_reverse]

/-- Auxiliary: appending to a nonempty list keeps its last element. -/
theorem getLast?_append_ne {l₂ : List Char} (h : l₂ ≠ []) (l₁ : List Char) :
    (l₁ ++ l₂).getLast? = l₂.getLast? := by
  rw [List.getLast?_append]
  cases hl : l₂.getLast? with
  | none => exact absurd (List.getLast?_eq_none_iff.mp hl) h
  | some a => rfl

/-- The last character of `removeStrings q w` is `w`'s or the quote. -/
theorem removeStrings_getLast {q : Char} :
    ∀ (n : Nat) (w : List Char), w.length ≤ n →
      ((Tokenizer.removeStrings q w).getLast? = w.getLast? ∨
        (Tokenizer.removeStrings q w).getLast? = some q) := by
  intro n
  induction n with
  | zero =>
    intro w hw
    rw [List.length_eq_zero.mp (Nat.le_zero.mp hw), removeStrings_nil]
    left
    rfl
  | succ n ih =>
    intro w hw
    cases w with
    | nil =>
      rw [removeStrings_nil]
      left
      rfl
    | cons a rest =>
      simp only [List.length_cons] at hw
      by_cases ha : a = q
      · subst ha
        cases hfc : Tokenizer.findClose a rest with
        | some suffix =>
          rw [removeStrings_cons_close a hfc]
          by_cases hsufnil : suffix = []
          · subst hsufnil
            rw [removeStrings_nil]
            right
            rfl
          · have hne := @removeStrings_ne_nil a _ hsufnil
            rw [getLast?_cons_ne (by simp), getLast?_cons_ne hne]
            have hlen := Tokenizer.findClose_length_le hfc
            rcases ih suffix (by omega) with h | h
            · left
              rw [h]
              obtain ⟨pre, hpre⟩ := findClose_suffix hfc
              have hrest : rest ≠ [] := by
                intro hr
                rw [hr] at hpre
                rcases List.append_eq_nil.mp hpre with ⟨_, h2⟩
                exact hsufnil h2
              rw [getLast?_cons_ne hrest, ← hpre,
                getLast?_append_ne hsufnil pre]
            · right
              exact h
        | none =>
          rw [removeStrings_cons_open a hfc]
          by_cases hrest : rest = []
          · subst hrest
            rw [removeStrings_nil]
            left
            rfl
          · have hne := @removeStrings_ne_nil a _ hrest
            rw [getLast?_cons_ne hne, getLast?_cons_ne hrest]
            exact ih rest (by omega)
      · rw [removeStrings_cons_other rest ha]
        by_cases hrest : rest = []
        · subst hrest
          rw [removeStrings_nil]
          left
          rfl
        · have hne := @removeStrings_ne_nil q _ hrest
          rw [getLast?_cons_ne hne, getLast?_cons_ne hrest]
          exact ih rest (by omega)

/-- `removeStrings` preserves any adjacency predicate that never holds
next to the quote. -/
theorem noAdjP_removeStrings {P : Char → Char → Bool} {q : Char}
    (hqL : ∀ b, P q b = false) :
    ∀ (n : Nat) (w : List Char), w.length ≤ n → noAdjP P w = true →
      noAdjP P (Tokenizer.removeStrings q w) = true := by
  intro n
  induction n with
  | zero =>
    intro w hw _
    rw [List.length_eq_zero.mp (Nat.le_zero.mp hw), removeStrings_nil]
    rfl
  | succ n ih =>
    intro w hw h
    cases w with
    | nil => rw [removeStrings_nil]; rfl
    | cons a rest =>
      simp only [List.length_cons] at hw
      by_cases ha : a = q
      · subst ha
        cases hfc : Tokenizer.findClose a rest with
        | some suffix =>
          rw [removeStrings_cons_close a hfc]
          rw [noAdjP_cons_iff]
          refine ⟨fun b _ => hqL b, ?_⟩
          rw [noAdjP_cons_iff]
          refine ⟨fun b _ => hqL b, ?_⟩
          have hlen := Tokenizer.findClose_length_le hfc
          exact ih suffix (by omega)
            (noAdjP_suffix (findClose_suffix hfc) (noAdjP_tail h))
        | none =>
          rw [removeStrings_cons_open a hfc]
          rw [noAdjP_cons_iff]
          exact ⟨fun b _ => hqL b, ih rest (by omega) (noAdjP_tail h)⟩
      · rw [removeStrings_cons_other rest ha]
        rw [noAdjP_cons_iff]
        refine ⟨?_, ih rest (by omega) (noAdjP_tail h)⟩
        intro b hb
        have hh := removeStrings_head q rest
        rw [hb] at hh
        exact ((noAdjP_cons_iff P a rest).mp h).1 b hh.symm

/-- A string-literal pass keeps a collapsed list collapsed. -/
theorem collapsedB_removeStrings {q : Char} (hq : Tokenizer.isWS q = false)
    {z : List Char} (h : collapsedB z = true) :
    collapsedB (Tokenizer.removeStrings q z) = true := by
  unfold collapsedB at h ⊢
  simp only [Bool.and_eq_true] at h ⊢
  refine ⟨⟨⟨?_, ?_⟩, ?_⟩, ?_⟩
  · rw [wsOnlySpace_iff]
    intro c hc hws
    rcases mem_removeStrings z.length z le_rfl c hc with h' | h'
    · exact (wsOnlySpace_iff z).mp h.1.1.1 c h' hws
    · subst h'
      rw [hq] at hws
      cases hws
  · exact noAdjP_removeStrings
      (fun b => by unfold wsPair; rw [hq]; rfl)
      z.length z le_rfl h.1.1.2
  · unfold headNotWS
    rw [removeStrings_head q z]
    have h3 := h.1.2
    unfold headNotWS at h3
    exact h3
  · unfold lastNotWS
    rcases removeStrings_getLast z.length z le_rfl with h' | h'
    · rw [h']
      have h4 := h.2
      unfold lastNotWS at h4
      exact h4
    · rw [h']
      simp [hq]

/-! ### Line comments -/

theorem mem_removeLineComments {marker : List Char} :
    ∀ {x : List Char} {c : Char},
      c ∈ Tokenizer.removeLineComments marker x → c ∈ x := by
  intro x
  induction x using Tokenizer.removeLineComments.induct marker with
  | case1 =>
    intro c hc
    rw [removeLineComments_nil] at hc
    cases hc
  | case2 c rest hpre ih =>
    intro c' hc
    rw [removeLineComments_cons, if_pos hpre] at hc
    exact List.mem_cons_of_mem _
      ((List.dropWhile_sublist _).subset (ih hc))
  | case3 c rest hpre ih =>
    intro c' hc
    rw [removeLineComments_cons, if_neg hpre] at hc
    rcases List.mem_cons.mp hc with h | h
    · exact h ▸ List.mem_cons_self _ _
    · exact List.mem_cons_of_mem _ (ih h)

theorem not_mem_removeLineComments_single (m : Char) :
    ∀ (x : List Char), m ∉ Tokenizer.removeLineComments [m] x := by
  intro x
  induction x using Tokenizer.removeLineComments.induct [m] with
  | case1 => rw [removeLineComments_nil]; simp
  | case2 c rest hpre ih =>
    rw [removeLineComments_cons, if_pos hpre]
    exact ih
  | case3 c rest hpre ih =>
    rw [removeLineComments_cons, if_neg hpre]
    intro hc
    rcases List.mem_cons.mp hc with h | h
    · apply hpre
      rw [← h]
      simp [List.isPrefixOf]
    · exact ih h

theorem removeLineComments_eq_self_single {m : Char} :
    ∀ {x : List Char}, m ∉ x → Tokenizer.removeLineComments [m] x = x := by
  intro x
  induction x with
  | nil => intro _; exact removeLineComments_nil [m]
  | cons c rest ih =>
    intro h
    have hp : ¬ ([m].isPrefixOf (c :: rest) = true) := by
      intro hp
      simp only [List.isPrefixOf, Bool.and_eq_true, beq_iff_eq] at hp
      exact h (by rw [hp.1]; exact List.mem_cons_self c rest)
    rw [removeLineComments_cons, if_neg hp,
      ih (fun hh => h (List.mem_cons_of_mem c hh))]

/-- The head of the line-comment pass output is the input's head, a
newline, or nothing. -/
theorem removeLineComments_head {marker : List Char} {m0 : Char}
    (hm : marker.head? = some m0) (hm0 : m0 ≠ nl) :
    ∀ (x : List Char),
      (Tokenizer.removeLineComments marker x).head? = x.head? ∨
      (Tokenizer.removeLineComments marker x).head? = some nl ∨
      (Tokenizer.removeLineComments marker x).head? = none := by
  intro x
  induction x using Tokenizer.removeLineComments.induct marker with
  | case1 =>
    right; right
    rw [removeLineComments_nil]
    rfl
  | case2 c rest hpre ih =>
    rw [removeLineComments_cons, if_pos hpre]
    cases hd : rest.dropWhile (· ≠ nl) with
    | nil =>
      right; right
      rw [removeLineComments_nil]
      rfl
    | cons d rest2 =>
      have hdn : d = nl := by
        have hcond := @dropWhile_head_not (· ≠ nl) rest d (by rw [hd]; rfl)
        simpa using hcond
      have hnp : ¬ (marker.isPrefixOf (d :: rest2) = true) := by
        cases marker with
        | nil => cases hm
        | cons mm mrest =>
          simp only [List.head?_cons] at hm
          injection hm with hm
          simp only [List.isPrefixOf, Bool.and_eq_true, beq_iff_eq]
          intro hcontra
          exact hm0 (by rw [← hm, hcontra.1, hdn])
      rw [removeLineComments_cons, if_neg hnp]
      right; left
      rw [List.head?_cons, hdn]
  | case3 c rest hpre ih =>
    left
    rw [removeLineComments_cons, if_neg hpre]
    rfl

theorem ddPair_symm (a b : Char) : ddPair a b = ddPair b a := by
  unfold ddPair
  rw [Bool.and_comm]

/-- The `--` line-comment pass leaves no adjacent dashes. -/
theorem noAdjP_ddPair_removeLineComments :
    ∀ (x : List Char),
      noAdjP ddPair (Tokenizer.removeLineComments ['-', '-'] x) = true := by
  intro x
  induction x using Tokenizer.removeLineComments.induct ['-', '-'] with
  | case1 => rw [removeLineComments_nil]; rfl
  | case2 c rest hpre ih =>
    rw [removeLineComments_cons, if_pos hpre]
    exact ih
  | case3 c rest hpre ih =>
    rw [removeLineComments_cons, if_neg hpre]
    rw [noAdjP_cons_iff]
    refine ⟨?_, ih⟩
    intro b hb
    by_cases hcd : c = '-'
    · have hrest : ∀ r0, rest.head? = some r0 → r0 ≠ '-' := by
        intro r0 hr0 hr0d
        apply hpre
        cases rest with
        | nil => cases hr0
        | cons rr rest2 =>
          simp only [List.head?_cons] at hr0
          injection hr0 with hr0
          simp only [List.isPrefixOf, Bool.and_eq_true, beq_iff_eq]
          exact ⟨hcd.symm ▸ rfl, by rw [← hr0] at hr0d; rw [← hr0d]; simp⟩
      rcases @removeLineComments_head ['-', '-'] '-'
          rfl (by decide) rest with h | h | h
      · rw [hb] at h
        have hbd := hrest b h.symm
        unfold ddPair
        simp [hbd]
      · rw [hb] at h
        injection h with h
        unfold ddPair
        rw [h]
        simp [show ¬ (nl = '-') by decide]
      · rw [hb] at h
        cases h
    · unfold ddPair
      simp [hcd]

/-- A list with no adjacent dashes is a fixpoint of the `--` pass. -/
theorem removeLineComments_dd_eq_self :
    ∀ {z : List Char}, noAdjP ddPair z = true →
      Tokenizer.removeLineComments ['-', '-'] z = z := by
  intro z
  induction z with
  | nil => intro _; exact removeLineComments_nil _
  | cons c rest ih =>
    intro h
    have hnp : ¬ (['-', '-'].isPrefixOf (c :: rest) = true) := by
      intro hp
      cases rest with
      | nil => simp [List.isPrefixOf] at hp
      | cons d rest2 =>
        simp only [List.isPrefixOf, Bool.and_eq_true, beq_iff_eq] at hp
        have hpair := ((noAdjP_cons_iff ddPair c (d :: rest2)).mp h).1 d rfl
        unfold ddPair at hpair
        rw [← hp.1, ← hp.2.1] at hpair
        simp at hpair
    rw [removeLineComments_cons, if_neg hnp, ih (noAdjP_tail h)]

/-- `squashWS` preserves the no-adjacent-dash property. -/
theorem noAdjP_ddPair_squashWS :
    ∀ (n : Nat) (l : List Char), l.length ≤ n → noAdjP ddPair l = true →
      noAdjP ddPair (Tokenizer.squashWS l) = true := by
  intro n
  induction n with
  | zero =>
    intro l hl _
    rw [List.length_eq_zero.mp (Nat.le_zero.mp hl), squashWS_nil]
    rfl
  | succ n ih =>
    intro l hl h
    cases l with
    | nil => rw [squashWS_nil]; rfl
    | cons a r =>
      simp only [List.length_cons] at hl
      rw [squashWS_cons]
      have hd : (r.dropWhile Tokenizer.isWS).length ≤ r.length :=
        dropWhile_length_le _ r
      split
      · rw [noAdjP_cons_iff]
        refine ⟨?_, ih _ (by omega)
          (noAdjP_dropWhile _ _ _ (noAdjP_tail h))⟩
        intro b _
        unfold ddPair
        simp [show ¬ (' ' = '-') by decide]
      · rw [noAdjP_cons_iff]
        refine ⟨?_, ih r (by omega) (noAdjP_tail h)⟩
        intro b hb
        rcases squashWS_head r with h' | h'
        · rw [hb] at h'
          exact ((noAdjP_cons_iff ddPair a r).mp h).1 b h'.symm
        · obtain ⟨h1, _⟩ := h'
          rw [hb] at h1
          injection h1 with h1
          unfold ddPair
          rw [h1]
          simp [show ¬ (' ' = '-') by decide]

/-- `trimWS` preserves the no-adjacent-dash property. -/
theorem noAdjP_ddPair_trimWS {z : List Char} (h : noAdjP ddPair z = true) :
    noAdjP ddPair (Tokenizer.trimWS z) = true := by
  unfold Tokenizer.trimWS
  rw [noAdjP_reverse_iff ddPair ddPair_symm]
  apply noAdjP_dropWhile
  rw [noAdjP_reverse_iff ddPair ddPair_symm]
  exact noAdjP_dropWhile _ _ _ h

/-- `normalize` with its two `let` bindings inlined. -/
theorem normalize_def (language : String) (cs : List Char) :
    Tokenizer.normalize language cs =
      Tokenizer.removeStringLiterals language (Tokenizer.collapseWS
        (if language ∈ Tokenizer.blockCommentLangs then
          Tokenizer.removeBlockComments ['/', '*'] ['*', '/'] (by simp)
            (if language ∈ Tokenizer.slashCommentLangs then
              Tokenizer.removeLineComments ['/', '/'] cs
             else if language ∈ Tokenizer.hashCommentLangs then
              Tokenizer.removeLineComments ['#'] cs
             else if language = "sql" then
              Tokenizer.removeLineComments ['-', '-'] cs
             else cs)
         else if language = "html" then
          Tokenizer.removeBlockComments ['<', '!', '-', '-'] ['-', '-', '>']
            (by simp)
            (if language ∈ Tokenizer.slashCommentLangs then
              Tokenizer.removeLineComments ['/', '/'] cs
             else if language ∈ Tokenizer.hashCommentLangs then
              Tokenizer.removeLineComments ['#'] cs
             else if language = "sql" then
              Tokenizer.removeLineComments ['-', '-'] cs
             else cs)
         else
          (if language ∈ Tokenizer.slashCommentLangs then
            Tokenizer.removeLineComments ['/', '/'] cs
           else if language ∈ Tokenizer.hashCommentLangs then
            Tokenizer.removeLineComments ['#'] cs
           else if language = "sql" then
            Tokenizer.removeLineComments ['-', '-'] cs
           else cs))) := rfl

unseal Tokenizer.removeLineComments Tokenizer.removeBlockComments
  Tokenizer.squashWS Tokenizer.removeStrings in
/-- **C7, counterexample.**  For `html`, stripping an `<!-- ... -->`
comment can splice a new `<!--` opener out of the surrounding text, so a
second normalization removes more.  On `<!<!--c-->-- xx --> yy` one
normalization yields `<!-- xx --> yy` (tokens `xx`, `yy`), a second one
yields `yy`; the nested input refutes the claim in the exact
`tokenize ∘ normalize` form it states. -/
theorem c7_counterexample :
    Tokenizer.extractTokens
        (Tokenizer.normalize "html" ("<!<!--c-->-- xx --> yy" : String).data) ≠
      Tokenizer.extractTokens
        (Tokenizer.normalize "html" (Tokenizer.normalize "html"
          ("<!<!--c-->-- xx --> yy" : String).data)) ∧
    Tokenizer.tokenize "html"
        (Tokenizer.normalize "html"
          ("<!<!--a--><!<!--b-->--c-->-- xx --> yy" : String).data) ≠
      Tokenizer.tokenize "html"
        (Tokenizer.normalize "html" (Tokenizer.normalize "html"
          ("<!<!--a--><!<!--b-->--c-->-- xx --> yy" : String).data)) := by
  exact ⟨by decide, by decide⟩

/-- **C7, amended.**  For every language without block-comment stripping —
`python` and `ruby` (hash comments plus both string-literal passes),
`sql` (dash comments), and every language outside all the tables — the
normalization of `Tokenizer` is idempotent on the nose, and hence
tokenizing `normalize x` and `normalize (normalize x)` agree.  The claim
fails for `html` (see the counterexample); for the C-family languages the
block-comment pass is out of this theorem's scope. -/
theorem c7_normalize_idempotent (language : String)
    (hb : language ∉ Tokenizer.blockCommentLangs) (hh : language ≠ "html")
    (x : List Char) :
    Tokenizer.normalize language (Tokenizer.normalize language x) =
      Tokenizer.normalize language x ∧
    Tokenizer.tokenize language (Tokenizer.normalize language x) =
      Tokenizer.tokenize language
        (Tokenizer.normalize language (Tokenizer.normalize language x)) := by
  have hs : language ∉ Tokenizer.slashCommentLangs := by
    intro hsl
    apply hb
    unfold Tokenizer.blockCommentLangs
    exact List.mem_append_left _ hsl
  have hmain : Tokenizer.normalize language (Tokenizer.normalize language x) =
      Tokenizer.normalize language x := by
    by_cases hhash : language ∈ Tokenizer.hashCommentLangs
    · have hshape : ∀ cs, Tokenizer.normalize language cs =
          Tokenizer.removeStrings squote (Tokenizer.removeStrings dquote
            (Tokenizer.collapseWS
              (Tokenizer.removeLineComments ['#'] cs))) := by
        intro cs
        rw [normalize_def, if_neg hb, if_neg hh, if_neg hs, if_pos hhash]
        unfold Tokenizer.removeStringLiterals
        rw [if_pos (Or.inr hhash)]
      have hn1 : Tokenizer.normalize language x =
          Tokenizer.removeStrings squote (Tokenizer.removeStrings dquote
            (Tokenizer.collapseWS
              (Tokenizer.removeLineComments ['#'] x))) := hshape x
      have hnotmem : '#' ∉ Tokenizer.normalize language x := by
        rw [hn1]
        intro hmem
        rcases mem_removeStrings _ _ le_rfl '#' hmem with hm | hm
        · rcases mem_removeStrings _ _ le_rfl '#' hm with hm2 | hm2
          · have hm3 := mem_trimWS hm2
            rcases mem_squashWS _ _ le_rfl '#' hm3 with hm4 | hm4
            · exact not_mem_removeLineComments_single '#' x hm4
            · exact (by decide : ¬ ('#' = ' ')) hm4
          · exact (by decide : ¬ ('#' = dquote)) hm2
        · exact (by decide : ¬ ('#' = squote)) hm
      have hL : Tokenizer.removeLineComments ['#']
          (Tokenizer.normalize language x) =
          Tokenizer.normalize language x :=
        removeLineComments_eq_self_single hnotmem
      have hW : Tokenizer.collapseWS (Tokenizer.normalize language x) =
          Tokenizer.normalize language x := by
        apply collapseWS_eq_self
        rw [hn1]
        apply collapsedB_removeStrings (by decide)
        apply collapsedB_removeStrings (by decide)
        exact collapsedB_collapseWS _
      have hSd : Tokenizer.removeStrings dquote
          (Tokenizer.normalize language x) =
          Tokenizer.normalize language x := by
        apply removeStrings_of_fixedQ _ _ le_rfl
        rw [hn1]
        exact fixedQ_removeStrings_other (by decide) (by decide) (by decide)
          (by decide) _ _ le_rfl
          (fixedQ_removeStrings_self (by decide) (by decide) _ _ le_rfl)
      have hSs : Tokenizer.removeStrings squote
          (Tokenizer.normalize language x) =
          Tokenizer.normalize language x := by
        apply removeStrings_of_fixedQ _ _ le_rfl
        rw [hn1]
        exact fixedQ_removeStrings_self (by decide) (by decide) _ _ le_rfl
      rw [hshape (Tokenizer.normalize language x), hL, hW, hSd, hSs]
    · by_cases hsql : language = "sql"
      · have hnotstr : ¬ (language ∈ Tokenizer.slashCommentLangs ∨
            language ∈ Tokenizer.hashCommentLangs) := by
          intro hor
          rcases hor with h | h
          · exact hs h
          · exact hhash h
        have hshape : ∀ cs, Tokenizer.normalize language cs =
            Tokenizer.collapseWS
              (Tokenizer.removeLineComments ['-', '-'] cs) := by
          intro cs
          rw [normalize_def, if_neg hb, if_neg hh, if_neg hs, if_neg hhash,
            if_pos hsql]
          unfold Tokenizer.removeStringLiterals
          rw [if_neg hnotstr]
        have hdd : noAdjP ddPair (Tokenizer.normalize language x) = true := by
          rw [hshape x]
          unfold Tokenizer.collapseWS
          apply noAdjP_ddPair_trimWS
          exact noAdjP_ddPair_squashWS _ _ le_rfl
            (noAdjP_ddPair_removeLineComments x)
        have hL : Tokenizer.removeLineComments ['-', '-']
            (Tokenizer.normalize language x) =
            Tokenizer.normalize language x :=
          removeLineComments_dd_eq_self hdd
        have hW : Tokenizer.collapseWS (Tokenizer.normalize language x) =
            Tokenizer.normalize language x := by
          apply collapseWS_eq_self
          rw [hshape x]
          exact collapsedB_collapseWS _
        rw [hshape (Tokenizer.normalize language x), hL, hW]
      · have hnotstr : ¬ (language ∈ Tokenizer.slashCommentLangs ∨
            language ∈ Tokenizer.hashCommentLangs) := by
          intro hor
          rcases hor with h | h
          · exact hs h
          · exact hhash h
        have hshape : ∀ cs, Tokenizer.normalize language cs =
            Tokenizer.collapseWS cs := by
          intro cs
          rw [normalize_def, if_neg hb, if_neg hh, if_neg hs, if_neg hhash,
            if_neg hsql]
          unfold Tokenizer.removeStringLiterals
          rw [if_neg hnotstr]
        rw [hshape (Tokenizer.normalize language x), hshape x]
        exact collapseWS_eq_self (collapsedB_collapseWS x)
  refine ⟨hmain, ?_⟩
  unfold Tokenizer.tokenize
  simp only [hmain]

/-- Witness for C7 (amended): `python` satisfies the hypotheses, so a
hash-commented, string-bearing input normalizes idempotently. -/
theorem c7_normalize_idempotent_witness :
    ("python" ∉ Tokenizer.blockCommentLangs ∧ "python" ≠ "html") ∧
      (Tokenizer.normalize "python" (Tokenizer.normalize "python"
          ("print('#hi')  # done" : String).data) =
        Tokenizer.normalize "python"
          ("print('#hi')  # done" : String).data ∧
      Tokenizer.tokenize "python" (Tokenizer.normalize "python"
          ("print('#hi')  # done" : String).data) =
        Tokenizer.tokenize "python"
          (Tokenizer.normalize "python" (Tokenizer.normalize "python"
            ("print('#hi')  # done" : String).data))) :=
  ⟨⟨by decide, by decide⟩,
   c7_normalize_idempotent "python" (by decide) (by decide) _⟩

/-! ## C6 — the de-duplication pass: structural lemmas -/

theorem dedupStep_unique_cases (cfg : Config) (st : CodeCollageClass.DedupState)
    (s : Snip) :
    (CodeCollageClass.dedupStep cfg st s).unique = st.unique ∨
      (CodeCollageClass.dedupStep cfg st s).unique = st.unique ++ [s] := by
  unfold CodeCollageClass.dedupStep
  split
  · left; rfl
  · split
    · left; rfl
    · show (if _ then st.unique else st.unique ++ [s]) = _ ∨ _
      split
      · left; rfl
      · right; rfl

theorem dedupStep_processed_iff (cfg : Config)
    (st : CodeCollageClass.DedupState) (s : Snip) (a : String) :
    a ∈ (CodeCollageClass.dedupStep cfg st s).processed ↔
      a ∈ st.processed ∨ a = s.id := by
  unfold CodeCollageClass.dedupStep
  split
  · rename_i hmem
    constructor
    · exact Or.inl
    · intro h
      rcases h with h | h
      · exact h
      · exact h ▸ hmem
  · split
    · show a ∈ st.processed ++ [s.id] ↔ _
      simp
    · show a ∈ st.processed ++ [s.id] ↔ _
      simp

theorem dedupStep_buckets_cases (cfg : Config)
    (st : CodeCollageClass.DedupState) (s : Snip) :
    (CodeCollageClass.dedupStep cfg st s).buckets = st.buckets ∨
      (CodeCollageClass.dedupStep cfg st s).buckets =
        MinHashLSH.addSnippet cfg st.buckets s := by
  unfold CodeCollageClass.dedupStep
  split
  · left; rfl
  · split
    · left; rfl
    · right; rfl

theorem dedup_foldl_unique_mono (cfg : Config) :
    ∀ (l : List Snip) (st : CodeCollageClass.DedupState) (u : Snip),
      u ∈ st.unique →
      u ∈ (l.foldl (CodeCollageClass.dedupStep cfg) st).unique := by
  intro l
  induction l with
  | nil => intro st u h; simpa using h
  | cons s t ih =>
    intro st u h
    simp only [List.foldl_cons]
    apply ih
    rcases dedupStep_unique_cases cfg st s with hc | hc
    · rw [hc]; exact h
    · rw [hc]; exact List.mem_append_left _ h

theorem dedup_foldl_unique_source (cfg : Config) :
    ∀ (l : List Snip) (st : CodeCollageClass.DedupState) (u : Snip),
      u ∈ (l.foldl (CodeCollageClass.dedupStep cfg) st).unique →
      u ∈ st.unique ∨ u ∈ l := by
  intro l
  induction l with
  | nil => intro st u h; exact Or.inl (by simpa using h)
  | cons s t ih =>
    intro st u h
    simp only [List.foldl_cons] at h
    rcases ih _ u h with h' | h'
    · rcases dedupStep_unique_cases cfg st s with hc | hc
      · rw [hc] at h'
        exact Or.inl h'
      · rw [hc] at h'
        rcases List.mem_append.mp h' with h'' | h''
        · exact Or.inl h''
        · simp only [List.mem_singleton] at h''
          exact Or.inr (h'' ▸ List.mem_cons_self s t)
    · exact Or.inr (List.mem_cons_of_mem s h')

theorem dedup_foldl_unique_decomp (cfg : Config) :
    ∀ (l : List Snip) (st : CodeCollageClass.DedupState),
      ∃ r, (l.foldl (CodeCollageClass.dedupStep cfg) st).unique =
          st.unique ++ r ∧ List.Sublist r l := by
  intro l
  induction l with
  | nil => intro st; exact ⟨[], by simp, by simp⟩
  | cons s t ih =>
    intro st
    simp only [List.foldl_cons]
    rcases ih (CodeCollageClass.dedupStep cfg st s) with ⟨r, hr, hrs⟩
    rcases dedupStep_unique_cases cfg st s with hc | hc
    · rw [hc] at hr
      exact ⟨r, hr, hrs.trans (List.sublist_cons_self s t)⟩
    · rw [hc, List.append_assoc] at hr
      exact ⟨s :: r, hr, hrs.cons₂ s⟩

theorem dedup_foldl_processed_iff (cfg : Config) :
    ∀ (l : List Snip) (st : CodeCollageClass.DedupState) (a : String),
      a ∈ (l.foldl (CodeCollageClass.dedupStep cfg) st).processed ↔
        a ∈ st.processed ∨ a ∈ l.map Snip.id := by
  intro l
  induction l with
  | nil => intro st a; simp
  | cons s t ih =>
    intro st a
    simp only [List.foldl_cons]
    rw [ih]
    rw [dedupStep_processed_iff]
    simp only [List.map_cons, List.mem_cons]
    constructor
    · intro h
      rcases h with (h | h) | h
      · exact Or.inl h
      · exact Or.inr (Or.inl h)
      · exact Or.inr (Or.inr h)
    · intro h
      rcases h with h | h | h
      · exact Or.inl (Or.inl h)
      · exact Or.inl (Or.inr h)
      · exact Or.inr h

/-! ### Bucket monotonicity -/

theorem lookupBucket_cons (k : String) (ids : List String)
    (rest : List (String × List String)) (key' : String) :
    MinHashLSH.lookupBucket ((k, ids) :: rest) key' =
      if k = key' then ids else MinHashLSH.lookupBucket rest key' := by
  by_cases h : k = key'
  · rw [if_pos h]
    unfold MinHashLSH.lookupBucket
    rw [List.find?_cons_of_pos _ (by simp [h])]
  · rw [if_neg h]
    unfold MinHashLSH.lookupBucket
    rw [List.find?_cons_of_neg _ (by simp [h])]

theorem lookupBucket_addToBucket_mono :
    ∀ (b : List (String × List String)) (key sid key' cid : String),
      cid ∈ MinHashLSH.lookupBucket b key' →
      cid ∈ MinHashLSH.lookupBucket (MinHashLSH.addToBucket b key sid)
        key' := by
  intro b
  induction b with
  | nil =>
    intro key sid key' cid h
    simp [MinHashLSH.lookupBucket] at h
  | cons e rest ih =>
    intro key sid key' cid h
    obtain ⟨k, ids⟩ := e
    unfold MinHashLSH.addToBucket
    by_cases hk : k = key
    · rw [if_pos hk]
      rw [lookupBucket_cons] at h ⊢
      by_cases hk' : k = key'
      · rw [if_pos hk'] at h ⊢
        split
        · exact h
        · exact List.mem_append_left _ h
      · rw [if_neg hk'] at h ⊢
        exact h
    · rw [if_neg hk]
      rw [lookupBucket_cons] at h ⊢
      by_cases hk' : k = key'
      · rw [if_pos hk'] at h ⊢
        exact h
      · rw [if_neg hk'] at h ⊢
        exact ih key sid key' cid h

theorem lookupBucket_foldKeys_mono (sid : String) :
    ∀ (keys : List String) (b : List (String × List String))
      (key' cid : String),
      cid ∈ MinHashLSH.lookupBucket b key' →
      cid ∈ MinHashLSH.lookupBucket
        (keys.foldl (fun b key => MinHashLSH.addToBucket b key sid) b)
        key' := by
  intro keys
  induction keys with
  | nil => intro b key' cid h; simpa using h
  | cons k t ih =>
    intro b key' cid h
    simp only [List.foldl_cons]
    exact ih _ key' cid (lookupBucket_addToBucket_mono b k sid key' cid h)

theorem lookupBucket_addSnippet_mono (cfg : Config)
    (b : List (String × List String)) (s : Snip) (key' cid : String)
    (h : cid ∈ MinHashLSH.lookupBucket b key') :
    cid ∈ MinHashLSH.lookupBucket (MinHashLSH.addSnippet cfg b s) key' :=
  lookupBucket_foldKeys_mono s.id _ b key' cid h

theorem dedup_foldl_buckets_mono (cfg : Config) :
    ∀ (l : List Snip) (st : CodeCollageClass.DedupState) (key' cid : String),
      cid ∈ MinHashLSH.lookupBucket st.buckets key' →
      cid ∈ MinHashLSH.lookupBucket
        ((l.foldl (CodeCollageClass.dedupStep cfg) st).buckets) key' := by
  intro l
  induction l with
  | nil => intro st key' cid h; simpa using h
  | cons s t ih =>
    intro st key' cid h
    simp only [List.foldl_cons]
    apply ih
    rcases dedupStep_buckets_cases cfg st s with hc | hc
    · rw [hc]; exact h
    · rw [hc]
      exact lookupBucket_addSnippet_mono cfg _ s key' cid h

/-! ### Candidate membership -/

theorem mem_findCandidates_inner (sid : String) :
    ∀ (ids acc : List String) (cid : String),
      cid ∈ ids.foldl
        (fun acc cid => if cid ≠ sid ∧ cid ∉ acc then acc ++ [cid] else acc)
        acc ↔
      cid ∈ acc ∨ (cid ≠ sid ∧ cid ∈ ids) := by
  intro ids
  induction ids with
  | nil => intro acc cid; simp
  | cons c t ih =>
    intro acc cid
    simp only [List.foldl_cons]
    rw [ih]
    by_cases hc : c ≠ sid ∧ c ∉ acc
    · rw [if_pos hc]
      constructor
      · intro h
        rcases h with h | h
        · rcases List.mem_append.mp h with h | h
          · exact Or.inl h
          · have hcc : cid = c := by simpa using h
            subst hcc
            exact Or.inr ⟨hc.1, List.mem_cons_self _ _⟩
        · exact Or.inr ⟨h.1, List.mem_cons_of_mem c h.2⟩
      · intro h
        rcases h with h | h
        · exact Or.inl (List.mem_append_left _ h)
        · rcases List.mem_cons.mp h.2 with hcc | ht
          · subst hcc
            exact Or.inl
              (List.mem_append_right _ (List.mem_singleton.mpr rfl))
          · exact Or.inr ⟨h.1, ht⟩
    · rw [if_neg hc]
      constructor
      · intro h
        rcases h with h | h
        · exact Or.inl h
        · exact Or.inr ⟨h.1, List.mem_cons_of_mem c h.2⟩
      · intro h
        rcases h with h | h
        · exact Or.inl h
        · rcases List.mem_cons.mp h.2 with hcc | ht
          · subst hcc
            rcases not_and_or.mp hc with h' | h'
            · exact absurd h.1 h'
            · exact Or.inl (not_not.mp h')
          · exact Or.inr ⟨h.1, ht⟩

theorem mem_findCandidates (cfg : Config)
    (buckets : List (String × List String)) (s : Snip) (cid : String) :
    cid ∈ MinHashLSH.findCandidates cfg buckets s ↔
      cid ≠ s.id ∧ ∃ key ∈ MinHashLSH.computeLSHSignature cfg s.minHashes,
        cid ∈ MinHashLSH.lookupBucket buckets key := by
  have houter : ∀ (keys acc : List String),
      cid ∈ keys.foldl
        (fun acc key =>
          (MinHashLSH.lookupBucket buckets key).foldl
            (fun acc cid =>
              if cid ≠ s.id ∧ cid ∉ acc then acc ++ [cid] else acc)
            acc)
        acc ↔
      cid ∈ acc ∨ (cid ≠ s.id ∧ ∃ key ∈ keys,
        cid ∈ MinHashLSH.lookupBucket buckets key) := by
    intro keys
    induction keys with
    | nil => intro acc; simp
    | cons k t ih =>
      intro acc
      simp only [List.foldl_cons]
      rw [ih]
      rw [mem_findCandidates_inner s.id]
      simp only [List.mem_cons]
      constructor
      · intro h
        rcases h with (h | h) | h
        · exact Or.inl h
        · exact Or.inr ⟨h.1, k, Or.inl rfl, h.2⟩
        · obtain ⟨hne, key, hkey, hmem⟩ := h
          exact Or.inr ⟨hne, key, Or.inr hkey, hmem⟩
      · intro h
        rcases h with h | ⟨hne, key, (hkey | hkey), hmem⟩
        · exact Or.inl (Or.inl h)
        · exact Or.inl (Or.inr ⟨hne, hkey ▸ hmem⟩)
        · exact Or.inr ⟨hne, key, hkey, hmem⟩
  unfold MinHashLSH.findCandidates
  rw [houter]
  simp

/-! ### `find?` under distinct ids -/

theorem find?_id_of_nodup :
    ∀ (l : List Snip), (l.map Snip.id).Nodup → ∀ u ∈ l,
      l.find? (fun v => v.id = u.id) = some u := by
  intro l
  induction l with
  | nil => intro _ u hu; cases hu
  | cons v0 t ih =>
    intro hnd u hu
    simp only [List.map_cons, List.nodup_cons] at hnd
    by_cases h0 : v0.id = u.id
    · rcases List.mem_cons.mp hu with rfl | hut
      · rw [List.find?_cons_of_pos _ (by simp)]
      · have hmem : v0.id ∈ t.map Snip.id := by
          rw [h0]
          exact List.mem_map.mpr ⟨u, hut, rfl⟩
        exact absurd hmem hnd.1
    · rw [List.find?_cons_of_neg _ (by simpa using h0)]
      rcases List.mem_cons.mp hu with rfl | hut
      · exact absurd rfl h0
      · exact ih hnd.2 u hut

/-! ### The per-snippet decision of `deduplicate` -/

theorem dedupStep_unique_cases2 (cfg : Config)
    (st : CodeCollageClass.DedupState) (s : Snip) :
    (CodeCollageClass.dedupStep cfg st s).unique = st.unique ∨
      (st.unique.find? (fun u => u.hash = s.hash) = none ∧
        (CodeCollageClass.dedupStep cfg st s).unique = st.unique ++ [s]) := by
  unfold CodeCollageClass.dedupStep
  split
  · left; rfl
  · split
    · left; rfl
    · rename_i h2
      show (if _ then st.unique else st.unique ++ [s]) = _ ∨ _
      split
      · left; rfl
      · right
        exact ⟨Option.not_isSome_iff_eq_none.mp h2, rfl⟩

theorem dedupStep_unique_mono (cfg : Config)
    (st : CodeCollageClass.DedupState) (s u : Snip) (h : u ∈ st.unique) :
    u ∈ (CodeCollageClass.dedupStep cfg st s).unique := by
  rcases dedupStep_unique_cases cfg st s with hc | hc
  · rw [hc]; exact h
  · rw [hc]; exact List.mem_append_left _ h

theorem dedup_foldl_hash_pairwise (cfg : Config) :
    ∀ (l : List Snip) (st : CodeCollageClass.DedupState),
      st.unique.Pairwise (fun u v => u.hash ≠ v.hash) →
      ((l.foldl (CodeCollageClass.dedupStep cfg) st).unique).Pairwise
        (fun u v => u.hash ≠ v.hash) := by
  intro l
  induction l with
  | nil => intro st h; simpa using h
  | cons s t ih =>
    intro st h
    simp only [List.foldl_cons]
    apply ih
    rcases dedupStep_unique_cases2 cfg st s with hc | ⟨hn, hc⟩
    · rw [hc]; exact h
    · rw [hc, List.pairwise_append]
      refine ⟨h, by simp, ?_⟩
      intro u hu b hb
      rw [List.mem_singleton] at hb
      subst hb
      have hne := List.find?_eq_none.mp hn u hu
      simpa using hne

theorem dedupStep_buckets_of_new (cfg : Config)
    (st : CodeCollageClass.DedupState) (s : Snip)
    (h1 : s.id ∉ st.processed)
    (h2 : st.unique.find? (fun u => u.hash = s.hash) = none) :
    (CodeCollageClass.dedupStep cfg st s).buckets =
      MinHashLSH.addSnippet cfg st.buckets s := by
  unfold CodeCollageClass.dedupStep
  rw [if_neg h1, h2]
  rfl

theorem dedupStep_unique_of_new (cfg : Config)
    (st : CodeCollageClass.DedupState) (s : Snip)
    (h1 : s.id ∉ st.processed)
    (h2 : st.unique.find? (fun u => u.hash = s.hash) = none) :
    (CodeCollageClass.dedupStep cfg st s).unique =
      if (MinHashLSH.findCandidates cfg
          (MinHashLSH.addSnippet cfg st.buckets s) s).any (fun cid =>
        match st.unique.find? (fun u => u.id = cid) with
        | some candidate =>
          decide (cfg.similarityThreshold ≤
            MinHashLSH.calculateSimilarity s.minHashes candidate.minHashes)
        | none => false)
      then st.unique else st.unique ++ [s] := by
  unfold CodeCollageClass.dedupStep
  rw [if_neg h1, h2]
  rfl

theorem dedupStep_mem_iff (cfg : Config) (st : CodeCollageClass.DedupState)
    (s : Snip) (hs : s ∉ st.unique) (hp : s.id ∉ st.processed)
    (hid : (st.unique.map Snip.id).Nodup) :
    s ∈ (CodeCollageClass.dedupStep cfg st s).unique ↔
      (∀ u ∈ st.unique, u.hash ≠ s.hash) ∧
      (∀ u ∈ st.unique,
        u.id ∈ MinHashLSH.findCandidates cfg
          (MinHashLSH.addSnippet cfg st.buckets s) s →
        MinHashLSH.calculateSimilarity s.minHashes u.minHashes <
          cfg.similarityThreshold) := by
  unfold CodeCollageClass.dedupStep
  rw [if_neg hp]
  by_cases hh : (st.unique.find? (fun u => u.hash = s.hash)).isSome = true
  · rw [if_pos hh]
    show s ∈ st.unique ↔ _
    rcases Option.isSome_iff_exists.mp hh with ⟨u0, hu0⟩
    constructor
    · intro h; exact absurd h hs
    · intro h
      have hmem := List.mem_of_find?_eq_some hu0
      have hpred := List.find?_some hu0
      simp only [decide_eq_true_eq] at hpred
      exact absurd hpred (h.1 u0 hmem)
  · rw [if_neg hh]
    have hnone : st.unique.find? (fun u => u.hash = s.hash) = none :=
      Option.not_isSome_iff_eq_none.mp hh
    show s ∈ (if _ then st.unique else st.unique ++ [s]) ↔ _
    split
    · rename_i hany
      constructor
      · intro h; exact absurd h hs
      · intro h
        rcases List.any_eq_true.mp hany with ⟨cid, hcid, hpc⟩
        have hpc' : (match st.unique.find? (fun u => u.id = cid) with
            | some candidate =>
              decide (cfg.similarityThreshold ≤
                MinHashLSH.calculateSimilarity s.minHashes
                  candidate.minHashes)
            | none => false) = true := hpc
        cases hfind : st.unique.find? (fun u => u.id = cid) with
        | none =>
          rw [hfind] at hpc'
          simp at hpc'
        | some cand =>
          rw [hfind] at hpc'
          simp only [decide_eq_true_eq] at hpc'
          have hcm := List.mem_of_find?_eq_some hfind
          have hcp : cand.id = cid := by
            simpa using List.find?_some hfind
          have hlt := h.2 cand hcm (by rw [hcp]; exact hcid)
          exact absurd hpc' (not_le.mpr hlt)
    · rename_i hany
      constructor
      · intro _
        refine ⟨?_, ?_⟩
        · intro u hu
          have := List.find?_eq_none.mp hnone u hu
          simpa using this
        · intro u hu hcand
          have hall : ∀ cid ∈ MinHashLSH.findCandidates cfg
              (MinHashLSH.addSnippet cfg st.buckets s) s,
              ¬ ((match st.unique.find? (fun v => v.id = cid) with
                | some candidate =>
                  decide (cfg.similarityThreshold ≤
                    MinHashLSH.calculateSimilarity s.minHashes
                      candidate.minHashes)
                | none => false) = true) := by
            intro cid hcid hpc
            exact hany (List.any_eq_true.mpr ⟨cid, hcid, hpc⟩)
          have hspec := hall u.id hcand
          rw [find?_id_of_nodup st.unique hid u hu] at hspec
          simp only [decide_eq_true_eq] at hspec
          exact not_le.mp hspec
      · intro _
        exact List.mem_append_right _ (List.mem_singleton.mpr rfl)

/-! ### Positional facts about the de-duplication fold -/

theorem split_id_facts (l pre post : List Snip) (s : Snip)
    (hnd : (l.map Snip.id).Nodup) (hsplit : l = pre ++ s :: post) :
    s.id ∉ pre.map Snip.id ∧ s.id ∉ post.map Snip.id := by
  subst hsplit
  rw [List.map_append, List.map_cons] at hnd
  rcases List.nodup_append.mp hnd with ⟨h1, h2, h3⟩
  rcases List.nodup_cons.mp h2 with ⟨h4, h5⟩
  exact ⟨fun hmem => h3 hmem (List.mem_cons_self _ _), h4⟩

theorem dedup_pre_fresh (cfg : Config) (pre : List Snip) (s : Snip)
    (hpre : s.id ∉ pre.map Snip.id) :
    s ∉ (CodeCollageClass.dedupState cfg pre).unique ∧
      s.id ∉ (CodeCollageClass.dedupState cfg pre).processed := by
  constructor
  · intro h
    unfold CodeCollageClass.dedupState at h
    rcases dedup_foldl_unique_source cfg pre _ s h with h' | h'
    · exact absurd h' (List.not_mem_nil s)
    · exact hpre (List.mem_map.mpr ⟨s, h', rfl⟩)
  · intro h
    unfold CodeCollageClass.dedupState at h
    rw [dedup_foldl_processed_iff] at h
    rcases h with h | h
    · exact absurd h (List.not_mem_nil s.id)
    · exact hpre h

theorem dedupState_ids_nodup (cfg : Config) (l : List Snip)
    (h : (l.map Snip.id).Nodup) :
    ((CodeCollageClass.dedupState cfg l).unique.map Snip.id).Nodup := by
  rcases dedup_foldl_unique_decomp cfg l ⟨[], [], []⟩ with ⟨r, hr, hrs⟩
  have hu : (CodeCollageClass.dedupState cfg l).unique = r := by
    unfold CodeCollageClass.dedupState
    rw [hr]
    rfl
  rw [hu]
  exact h.sublist (hrs.map Snip.id)

theorem dedupState_unique_subset (cfg : Config) (l : List Snip) (u : Snip)
    (h : u ∈ (CodeCollageClass.dedupState cfg l).unique) : u ∈ l := by
  unfold CodeCollageClass.dedupState at h
  rcases dedup_foldl_unique_source cfg l _ u h with h' | h'
  · exact absurd h' (List.not_mem_nil u)
  · exact h'

theorem dedupState_split (cfg : Config) (l pre post : List Snip) (s : Snip)
    (hsplit : l = pre ++ s :: post) :
    CodeCollageClass.dedupState cfg l =
      post.foldl (CodeCollageClass.dedupStep cfg)
        (CodeCollageClass.dedupStep cfg
          (CodeCollageClass.dedupState cfg pre) s) := by
  subst hsplit
  unfold CodeCollageClass.dedupState
  rw [List.foldl_append, List.foldl_cons]

theorem dedup_mem_final_iff_step (cfg : Config) (l pre post : List Snip)
    (s : Snip) (hnd : (l.map Snip.id).Nodup)
    (hsplit : l = pre ++ s :: post) :
    s ∈ (CodeCollageClass.dedupState cfg l).unique ↔
      s ∈ (CodeCollageClass.dedupStep cfg
        (CodeCollageClass.dedupState cfg pre) s).unique := by
  have hpost := (split_id_facts l pre post s hnd hsplit).2
  rw [dedupState_split cfg l pre post s hsplit]
  constructor
  · intro h
    rcases dedup_foldl_unique_decomp cfg post
        (CodeCollageClass.dedupStep cfg
          (CodeCollageClass.dedupState cfg pre) s)
      with ⟨r, hr, hrs⟩
    rw [hr] at h
    rcases List.mem_append.mp h with h | h
    · exact h
    · exact absurd (List.mem_map.mpr ⟨s, hrs.subset h, rfl⟩) hpost
  · intro h
    exact dedup_foldl_unique_mono cfg post _ s h

/-! ## C5 — `findLCS` computes a longest common subsequence -/

theorem lcsTable_zero_right (xs ys : List String) :
    ∀ i, PatternExtractor.lcsTable xs ys i 0 = 0
  | 0 => rfl
  | _ + 1 => rfl

theorem lcsTable_succ_succ (xs ys : List String) (i j : Nat) :
    PatternExtractor.lcsTable xs ys (i + 1) (j + 1) =
      if xs.getD i "" = ys.getD j "" then
        PatternExtractor.lcsTable xs ys i j + 1
      else max (PatternExtractor.lcsTable xs ys i (j + 1))
        (PatternExtractor.lcsTable xs ys (i + 1) j) := rfl

/-- Joint row facts: each table row dominates the previous one and
exceeds it by at most one. -/
theorem lcsRow_facts (ys : List String) (x : String) (prev : Nat → Nat)
    (p0 : prev 0 = 0) (p1 : ∀ j, prev j ≤ prev (j + 1))
    (p2 : ∀ j, prev (j + 1) ≤ prev j + 1) :
    ∀ j, prev j ≤ PatternExtractor.lcsRowStep ys x prev j ∧
      PatternExtractor.lcsRowStep ys x prev j ≤ prev j + 1 := by
  intro j
  induction j with
  | zero =>
    constructor
    · simp [PatternExtractor.lcsRowStep, p0]
    · simp [PatternExtractor.lcsRowStep]
  | succ j ih =>
    constructor
    · simp only [PatternExtractor.lcsRowStep]
      split
      · exact p2 j
      · exact le_max_left _ _
    · simp only [PatternExtractor.lcsRowStep]
      split
      · exact Nat.add_le_add_right (p1 j) 1
      · apply max_le
        · exact Nat.le_succ _
        · exact le_trans ih.2 (Nat.add_le_add_right (p1 j) 1)

theorem lcsRow_mono (ys : List String) (x : String) (prev : Nat → Nat)
    (p0 : prev 0 = 0) (p1 : ∀ j, prev j ≤ prev (j + 1))
    (p2 : ∀ j, prev (j + 1) ≤ prev j + 1) :
    ∀ j, PatternExtractor.lcsRowStep ys x prev j ≤
      PatternExtractor.lcsRowStep ys x prev (j + 1) := by
  intro j
  conv_rhs => rw [PatternExtractor.lcsRowStep]
  split
  · exact (lcsRow_facts ys x prev p0 p1 p2 j).2
  · exact le_max_right _ _

theorem lcsRow_lip (ys : List String) (x : String) (prev : Nat → Nat)
    (p0 : prev 0 = 0) (p1 : ∀ j, prev j ≤ prev (j + 1))
    (p2 : ∀ j, prev (j + 1) ≤ prev j + 1) :
    ∀ j, PatternExtractor.lcsRowStep ys x prev (j + 1) ≤
      PatternExtractor.lcsRowStep ys x prev j + 1 := by
  intro j
  conv_lhs => rw [PatternExtractor.lcsRowStep]
  split
  · exact Nat.add_le_add_right (lcsRow_facts ys x prev p0 p1 p2 j).1 1
  · apply max_le
    · exact le_trans (p2 j)
        (Nat.add_le_add_right (lcsRow_facts ys x prev p0 p1 p2 j).1 1)
    · exact Nat.le_succ _

/-- Each row of the table is monotone and 1-Lipschitz in `j`. -/
theorem lcsTable_j_facts (xs ys : List String) :
    ∀ i, (∀ j, PatternExtractor.lcsTable xs ys i j ≤
        PatternExtractor.lcsTable xs ys i (j + 1)) ∧
      (∀ j, PatternExtractor.lcsTable xs ys i (j + 1) ≤
        PatternExtractor.lcsTable xs ys i j + 1) := by
  intro i
  induction i with
  | zero => exact ⟨fun _ => le_rfl, fun _ => Nat.le_succ 0⟩
  | succ i ih =>
    refine ⟨?_, ?_⟩
    · intro j
      exact lcsRow_mono ys _ _ (lcsTable_zero_right xs ys i) ih.1 ih.2 j
    · intro j
      exact lcsRow_lip ys _ _ (lcsTable_zero_right xs ys i) ih.1 ih.2 j

theorem lcsTable_mono_i (xs ys : List String) (i j : Nat) :
    PatternExtractor.lcsTable xs ys i j ≤
      PatternExtractor.lcsTable xs ys (i + 1) j :=
  (lcsRow_facts ys _ _ (lcsTable_zero_right xs ys i)
    (lcsTable_j_facts xs ys i).1 (lcsTable_j_facts xs ys i).2 j).1

theorem take_succ_getD {l : List String} {i : Nat} (h : i < l.length) :
    l.take (i + 1) = l.take i ++ [l.getD i ""] := by
  rw [List.take_succ, List.getElem?_eq_getElem h]
  congr 1
  simp [List.getD, List.getElem?_eq_getElem h]

theorem take_sublist_succ (l : List String) (n : Nat) :
    List.Sublist (l.take n) (l.take (n + 1)) := by
  have h : l.take n = (l.take (n + 1)).take n := by
    rw [List.take_take]
    congr 1
    omega
  rw [h]
  exact List.take_sublist _ _

theorem sublist_concat_cases {t u : List String} {x : String}
    (h : List.Sublist t (u ++ [x])) :
    List.Sublist t u ∨ ∃ t', t = t' ++ [x] ∧ List.Sublist t' u := by
  rcases List.sublist_append_iff.mp h with ⟨a, b, rfl, ha, hb⟩
  rcases List.sublist_singleton.mp hb with rfl | rfl
  · left
    simpa using ha
  · right
    exact ⟨a, rfl, ha⟩

/-- The table entry bounds the length of every common subsequence of the
prefixes. -/
theorem lcsTable_ub (xs ys : List String) :
    ∀ (N i j : Nat), i + j ≤ N → ∀ (t : List String),
      i ≤ xs.length → j ≤ ys.length → List.Sublist t (xs.take i) →
      List.Sublist t (ys.take j) →
      t.length ≤ PatternExtractor.lcsTable xs ys i j := by
  intro N
  induction N with
  | zero =>
    intro i j hij t hi hj hx _
    have hi0 : i = 0 := by omega
    subst hi0
    rw [List.take_zero] at hx
    rw [List.sublist_nil.mp hx]
    exact Nat.zero_le _
  | succ N ih =>
    intro i j hij t hi hj hx hy
    cases i with
    | zero =>
      rw [List.take_zero] at hx
      rw [List.sublist_nil.mp hx]
      exact Nat.zero_le _
    | succ i =>
      cases j with
      | zero =>
        rw [List.take_zero] at hy
        rw [List.sublist_nil.mp hy]
        exact Nat.zero_le _
      | succ j =>
        rw [take_succ_getD (show i < xs.length by omega)] at hx
        rw [take_succ_getD (show j < ys.length by omega)] at hy
        rcases sublist_concat_cases hx with hx' | ⟨t', rfl, ht'⟩
        · have hb := ih i (j + 1) (by omega) t (by omega) hj hx'
            (by rw [take_succ_getD (show j < ys.length by omega)]; exact hy)
          exact le_trans hb (lcsTable_mono_i xs ys i (j + 1))
        · rcases sublist_concat_cases hy with hy' | ⟨t'', heq, ht''⟩
          · have hb := ih (i + 1) j (by omega) (t' ++ [xs.getD i ""])
              hi (by omega)
              (by rw [take_succ_getD (show i < xs.length by omega)]
                  exact hx)
              hy'
            exact le_trans hb ((lcsTable_j_facts xs ys (i + 1)).1 j)
          · have hinj := List.append_inj' heq rfl
            have hxy : xs.getD i "" = ys.getD j "" := by
              have := hinj.2
              simpa using this
            have ht2 : t' = t'' := hinj.1
            rw [lcsTable_succ_succ, if_pos hxy]
            rw [List.length_append, List.length_singleton]
            have hb := ih i j (by omega) t' (by omega) (by omega) ht'
              (ht2 ▸ ht'')
            omega

theorem backtrack_succ (xs ys : List String) (fuel i j : Nat)
    (acc : List String) :
    PatternExtractor.backtrack xs ys (fuel + 1) (i + 1) (j + 1) acc =
      if xs.getD i "" = ys.getD j "" then
        PatternExtractor.backtrack xs ys fuel i j (xs.getD i "" :: acc)
      else if PatternExtractor.lcsTable xs ys (i + 1) j <
          PatternExtractor.lcsTable xs ys i (j + 1) then
        PatternExtractor.backtrack xs ys fuel i (j + 1) acc
      else PatternExtractor.backtrack xs ys fuel (i + 1) j acc := rfl

/-- Full specification of the backtracking loop: it prepends a common
subsequence of the two prefixes whose length is the table entry. -/
theorem backtrack_spec (xs ys : List String) :
    ∀ (fuel i j : Nat) (acc : List String), i + j ≤ fuel →
      i ≤ xs.length → j ≤ ys.length →
      ∃ r, PatternExtractor.backtrack xs ys fuel i j acc = r ++ acc ∧
        List.Sublist r (xs.take i) ∧ List.Sublist r (ys.take j) ∧
        r.length = PatternExtractor.lcsTable xs ys i j := by
  intro fuel
  induction fuel with
  | zero =>
    intro i j acc hf _ _
    have hi0 : i = 0 := by omega
    have hj0 : j = 0 := by omega
    subst hi0
    subst hj0
    exact ⟨[], rfl, by simp, by simp, rfl⟩
  | succ fuel ih =>
    intro i j acc hf hi hj
    cases i with
    | zero => exact ⟨[], rfl, by simp, by simp, rfl⟩
    | succ i =>
      cases j with
      | zero =>
        exact ⟨[], rfl, by simp, by simp,
          (lcsTable_zero_right xs ys (i + 1)).symm⟩
      | succ j =>
        by_cases hmatch : xs.getD i "" = ys.getD j ""
        · rcases ih i j (xs.getD i "" :: acc) (by omega) (by omega)
            (by omega) with ⟨r, hr, hrx, hry, hrl⟩
          refine ⟨r ++ [xs.getD i ""], ?_, ?_, ?_, ?_⟩
          · rw [backtrack_succ, if_pos hmatch, hr]
            simp
          · rw [take_succ_getD (show i < xs.length by omega)]
            exact hrx.append (List.Sublist.refl _)
          · rw [take_succ_getD (show j < ys.length by omega), hmatch]
            exact hry.append (List.Sublist.refl _)
          · rw [List.length_append, hrl, lcsTable_succ_succ,
              if_pos hmatch]
            simp
        · by_cases hlt : PatternExtractor.lcsTable xs ys (i + 1) j <
              PatternExtractor.lcsTable xs ys i (j + 1)
          · rcases ih i (j + 1) acc (by omega) (by omega) hj with
              ⟨r, hr, hrx, hry, hrl⟩
            refine ⟨r, ?_, ?_, hry, ?_⟩
            · rw [backtrack_succ, if_neg hmatch, if_pos hlt, hr]
            · exact hrx.trans (take_sublist_succ xs i)
            · rw [hrl, lcsTable_succ_succ, if_neg hmatch]
              exact (Nat.max_eq_left (le_of_lt hlt)).symm
          · rcases ih (i + 1) j acc (by omega) hi (by omega) with
              ⟨r, hr, hrx, hry, hrl⟩
            refine ⟨r, ?_, hrx, ?_, ?_⟩
            · rw [backtrack_succ, if_neg hmatch, if_neg hlt, hr]
            · exact hry.trans (take_sublist_succ ys j)
            · rw [hrl, lcsTable_succ_succ, if_neg hmatch]
              exact (Nat.max_eq_right (Nat.le_of_not_lt hlt)).symm

/-- **C5.**  `findLCS` returns a common subsequence of its two inputs of
maximal length among all common subsequences; on `[a,b,c,d,e]` and
`[z,a,c,x,e]` it returns `[a,c,e]`. -/
theorem c5_findLCS_correct (xs ys : List String) :
    List.Sublist (PatternExtractor.findLCS xs ys) xs ∧
    List.Sublist (PatternExtractor.findLCS xs ys) ys ∧
    (∀ t : List String, List.Sublist t xs → List.Sublist t ys →
      t.length ≤ (PatternExtractor.findLCS xs ys).length) ∧
    PatternExtractor.findLCS ["a", "b", "c", "d", "e"]
      ["z", "a", "c", "x", "e"] = ["a", "c", "e"] := by
  rcases backtrack_spec xs ys (xs.length + ys.length) xs.length ys.length
    [] le_rfl le_rfl le_rfl with ⟨r, hr, hrx, hry, hrl⟩
  have hfind : PatternExtractor.findLCS xs ys = r := by
    unfold PatternExtractor.findLCS
    rw [hr, List.append_nil]
  rw [List.take_length] at hrx hry
  refine ⟨by rw [hfind]; exact hrx, by rw [hfind]; exact hry, ?_, by decide⟩
  intro t htx hty
  rw [hfind, hrl]
  exact lcsTable_ub xs ys (xs.length + ys.length) xs.length ys.length
    le_rfl t le_rfl le_rfl (by rw [List.take_length]; exact htx)
    (by rw [List.take_length]; exact hty)

/-- Witness for C5: the common subsequence `[a, c]` of the two concrete
token lists is no longer than the returned LCS. -/
theorem c5_findLCS_correct_witness :
    List.Sublist (["a", "c"] : List String) ["a", "b", "c", "d", "e"] ∧
    List.Sublist (["a", "c"] : List String) ["z", "a", "c", "x", "e"] ∧
    (["a", "c"] : List String).length ≤
      (PatternExtractor.findLCS ["a", "b", "c", "d", "e"]
        ["z", "a", "c", "x", "e"]).length :=
  ⟨by decide, by decide,
   (c5_findLCS_correct ["a", "b", "c", "d", "e"]
     ["z", "a", "c", "x", "e"]).2.2.1 ["a", "c"] (by decide) (by decide)⟩

/-! ## C6 — the de-duplication characterisation -/

/-- **C6.**  For every snippet list with pairwise-distinct ids,
`deduplicate` keeps a snippet `s` if and only if no already-kept snippet
has `s`'s content hash and no LSH candidate among the already-kept
snippets reaches the similarity threshold (the state of "already kept"
being the pass over the input prefix before `s`); consequently the kept
snippets have pairwise-distinct content hashes, and of two snippets with
identical content — equal hash and equal MinHash vector — the later one
in input order is never retained. -/
theorem c6_dedup_characterisation (cfg : Config) (snippets : List Snip)
    (hnd : (snippets.map Snip.id).Nodup) :
    (∀ pre s post, snippets = pre ++ s :: post →
      (s ∈ (CodeCollageClass.deduplicate cfg snippets).1 ↔
        (∀ u ∈ (CodeCollageClass.deduplicate cfg pre).1,
          u.hash ≠ s.hash) ∧
        (∀ u ∈ (CodeCollageClass.deduplicate cfg pre).1,
          u.id ∈ MinHashLSH.findCandidates cfg
            (MinHashLSH.addSnippet cfg
              (CodeCollageClass.dedupState cfg pre).buckets s) s →
          MinHashLSH.calculateSimilarity s.minHashes u.minHashes <
            cfg.similarityThreshold))) ∧
    (CodeCollageClass.deduplicate cfg snippets).1.Pairwise
      (fun u v => u.hash ≠ v.hash) ∧
    (∀ pre s post, snippets = pre ++ s :: post →
      ∀ t ∈ post, t.hash = s.hash → t.minHashes = s.minHashes →
        t ∉ (CodeCollageClass.deduplicate cfg snippets).1) := by
  refine ⟨?_, ?_, ?_⟩
  · intro pre s post hsplit
    have hids := split_id_facts snippets pre post s hnd hsplit
    have hfresh := dedup_pre_fresh cfg pre s hids.1
    have hprend : (pre.map Snip.id).Nodup := by
      have h := hnd
      rw [hsplit, List.map_append] at h
      exact (List.nodup_append.mp h).1
    show s ∈ (CodeCollageClass.dedupState cfg snippets).unique ↔ _
    rw [dedup_mem_final_iff_step cfg snippets pre post s hnd hsplit]
    exact dedupStep_mem_iff cfg _ s hfresh.1 hfresh.2
      (dedupState_ids_nodup cfg pre hprend)
  · show ((snippets.foldl (CodeCollageClass.dedupStep cfg)
      ⟨[], [], []⟩).unique).Pairwise (fun u v => u.hash ≠ v.hash)
    exact dedup_foldl_hash_pairwise cfg snippets ⟨[], [], []⟩
      List.Pairwise.nil
  · intro pre s post hsplit t ht hhash hmh
    rcases List.append_of_mem ht with ⟨mid, post2, hpost⟩
    have hsplit2 : snippets = (pre ++ s :: mid) ++ t :: post2 := by
      rw [hsplit, hpost]
      simp
    have hids_t := split_id_facts snippets (pre ++ s :: mid) post2 t hnd
      hsplit2
    have hpre2nd : ((pre ++ s :: mid).map Snip.id).Nodup := by
      have h := hnd
      rw [hsplit2, List.map_append] at h
      exact (List.nodup_append.mp h).1
    have hfresh_t := dedup_pre_fresh cfg (pre ++ s :: mid) t hids_t.1
    have hidnodup_t := dedupState_ids_nodup cfg (pre ++ s :: mid) hpre2nd
    have hmem_iff := dedup_mem_final_iff_step cfg snippets
      (pre ++ s :: mid) post2 t hnd hsplit2
    have hstep_iff := dedupStep_mem_iff cfg
      (CodeCollageClass.dedupState cfg (pre ++ s :: mid)) t
      hfresh_t.1 hfresh_t.2 hidnodup_t
    show t ∉ (CodeCollageClass.dedupState cfg snippets).unique
    rw [hmem_iff, hstep_iff]
    intro hcontra
    by_cases hk : s ∈ (CodeCollageClass.dedupStep cfg
        (CodeCollageClass.dedupState cfg pre) s).unique
    · have hs_t : s ∈ (CodeCollageClass.dedupState cfg
          (pre ++ s :: mid)).unique := by
        rw [dedupState_split cfg (pre ++ s :: mid) pre mid s rfl]
        exact dedup_foldl_unique_mono cfg mid _ s hk
      exact hcontra.1 s hs_t (by rw [hhash])
    · have hids_s := split_id_facts snippets pre post s hnd hsplit
      have hfresh_s := dedup_pre_fresh cfg pre s hids_s.1
      by_cases hh : ((CodeCollageClass.dedupState cfg pre).unique.find?
          (fun u => u.hash = s.hash)).isSome = true
      · rcases Option.isSome_iff_exists.mp hh with ⟨u0, hu0⟩
        have hu0m := List.mem_of_find?_eq_some hu0
        have hu0h : u0.hash = s.hash := by
          simpa using List.find?_some hu0
        have hu0_t : u0 ∈ (CodeCollageClass.dedupState cfg
            (pre ++ s :: mid)).unique := by
          rw [dedupState_split cfg (pre ++ s :: mid) pre mid s rfl]
          exact dedup_foldl_unique_mono cfg mid _ u0
            (dedupStep_unique_mono cfg _ s u0 hu0m)
        exact hcontra.1 u0 hu0_t (by rw [hu0h, hhash])
      · have hnone : (CodeCollageClass.dedupState cfg pre).unique.find?
            (fun u => u.hash = s.hash) = none :=
          Option.not_isSome_iff_eq_none.mp hh
        rw [dedupStep_unique_of_new cfg _ s hfresh_s.2 hnone] at hk
        by_cases hany : (MinHashLSH.findCandidates cfg
            (MinHashLSH.addSnippet cfg
              (CodeCollageClass.dedupState cfg pre).buckets s) s).any
            (fun cid =>
              match (CodeCollageClass.dedupState cfg pre).unique.find?
                  (fun u => u.id = cid) with
              | some candidate =>
                decide (cfg.similarityThreshold ≤
                  MinHashLSH.calculateSimilarity s.minHashes
                    candidate.minHashes)
              | none => false) = true
        · rcases List.any_eq_true.mp hany with ⟨cid, hcid, hpc⟩
          have hpc2 : (match
              (CodeCollageClass.dedupState cfg pre).unique.find?
                (fun u => u.id = cid) with
            | some candidate =>
              decide (cfg.similarityThreshold ≤
                MinHashLSH.calculateSimilarity s.minHashes
                  candidate.minHashes)
            | none => false) = true := hpc
          cases hfind : (CodeCollageClass.dedupState cfg pre).unique.find?
              (fun u => u.id = cid) with
          | none =>
            rw [hfind] at hpc2
            simp at hpc2
          | some cand =>
            rw [hfind] at hpc2
            simp only [decide_eq_true_eq] at hpc2
            have hcm := List.mem_of_find?_eq_some hfind
            have hcp : cand.id = cid := by
              simpa using List.find?_some hfind
            have hcand_t : cand ∈ (CodeCollageClass.dedupState cfg
                (pre ++ s :: mid)).unique := by
              rw [dedupState_split cfg (pre ++ s :: mid) pre mid s rfl]
              exact dedup_foldl_unique_mono cfg mid _ cand
                (dedupStep_unique_mono cfg _ s cand hcm)
            rcases (mem_findCandidates cfg
                (MinHashLSH.addSnippet cfg
                  (CodeCollageClass.dedupState cfg pre).buckets s) s
                cid).mp hcid with ⟨hne_s, key, hkeys, hlook⟩
            have hb1 := dedupStep_buckets_of_new cfg
              (CodeCollageClass.dedupState cfg pre) s hfresh_s.2 hnone
            have hlook2 : cid ∈ MinHashLSH.lookupBucket
                ((CodeCollageClass.dedupState cfg
                  (pre ++ s :: mid)).buckets) key := by
              rw [dedupState_split cfg (pre ++ s :: mid) pre mid s rfl]
              apply dedup_foldl_buckets_mono
              rw [hb1]
              exact hlook
            have hcid_t : cand.id ∈ MinHashLSH.findCandidates cfg
                (MinHashLSH.addSnippet cfg
                  (CodeCollageClass.dedupState cfg
                    (pre ++ s :: mid)).buckets t) t := by
              rw [mem_findCandidates]
              refine ⟨?_, key, ?_, ?_⟩
              · intro heq
                have hcpre : cand ∈ pre :=
                  dedupState_unique_subset cfg pre cand hcm
                apply hids_t.1
                rw [List.map_append]
                apply List.mem_append_left
                rw [← heq]
                exact List.mem_map.mpr ⟨cand, hcpre, rfl⟩
              · rw [hmh]
                exact hkeys
              · rw [hcp]
                exact lookupBucket_addSnippet_mono cfg _ t key cid hlook2
            have hlt := hcontra.2 cand hcand_t hcid_t
            rw [hmh] at hlt
            exact absurd hpc2 (not_le.mpr hlt)
        · rw [if_neg hany] at hk
          exact hk (List.mem_append_right _ (List.mem_singleton.mpr rfl))

/-- Witness for C6: two snippets with equal hash and MinHash vector but
distinct ids; the characterisation theorem shows the second one is not
kept. -/
theorem c6_dedup_characterisation_witness :
    (([c6SnipA, c6SnipB].map Snip.id).Nodup) ∧
      c6SnipB ∉ (CodeCollageClass.deduplicate DEFAULT_CONFIG
        [c6SnipA, c6SnipB]).1 :=
  ⟨by decide,
    (c6_dedup_characterisation DEFAULT_CONFIG [c6SnipA, c6SnipB]
        (by decide)).2.2
      [] c6SnipA [c6SnipB] rfl c6SnipB (List.mem_singleton.mpr rfl) rfl rfl⟩

end CodeCollage
